import Mathlib

/-!
Shallow embedding of the DPLL/CDCL SAT solver repository
(src/logic_ast.py, src/preprocessing.py, src/solver.py) and proofs
about the claims of its specification.

Conventions of the embedding:
* Python `dict[str, bool]` assignments are modelled as functions
  `String → Option Bool`; `None` means "unassigned".  The dicts are
  never iterated by the solver code, so insertion order is not modelled.
* Python `while` loops whose termination is not structural are modelled
  with an explicit fuel parameter; `none` means the fuel ran out.
  Fuel never changes what a terminating loop computes.
* Exceptions (`ValueError`, `RuntimeError`) are modelled with `Option`
  or an explicit error constructor.
-/

namespace PySat

/-- AST of propositional formulas (src/logic_ast.py).  The Python field
`Variable.name` is the constructor argument of `var`; `Not.operand`,
`And.left/right`, etc. are the positional arguments. -/
inductive Formula : Type where
  | var (name : String)
  | not (operand : Formula)
  | and (left right : Formula)
  | or (left right : Formula)
  | implies (left right : Formula)
  | biconditional (left right : Formula)
deriving DecidableEq

/-- `Literal` (src/logic_ast.py): a variable name and a negation flag.
The Python field `variable` is called `var` here (`variable` is a Lean
keyword). -/
structure Literal : Type where
  var : String
  negated : Bool
deriving DecidableEq

/-- `Clause` (src/logic_ast.py): an ordered list of literals. -/
structure Clause : Type where
  literals : List Literal
deriving DecidableEq

/-- `CNFFormula` (src/logic_ast.py): an ordered list of clauses. -/
structure CNFFormula : Type where
  clauses : List Clause
deriving DecidableEq

/-- A partial assignment, modelling the Python `Dict[str, bool]`. -/
def PAssign : Type := String → Option Bool

/-- The empty assignment `{}`. -/
def emptyAssign : PAssign := fun _ => none

/-- `assignment[v] = b` on a Python dict. -/
def updateA (a : PAssign) (v : String) (b : Bool) : PAssign :=
  fun w => if w = v then some b else a w

/-- `del assignment[v]` on a Python dict. -/
def eraseA (a : PAssign) (v : String) : PAssign :=
  fun w => if w = v then none else a w

/-- `DecisionResult` (src/solver.py). -/
inductive DecisionResult : Type where
  | SAT
  | UNSAT
deriving DecidableEq

/-- Loop body of `DPLLSolver._evaluate_clause` / `CDCLSolver._evaluate_clause`
(both methods have identical code): walk the literals, return `some true` at
the first satisfied literal, count unassigned literals, and at the end return
`some false` iff nothing was unassigned, else `none`. -/
def evaluateClauseAux (a : PAssign) : List Literal → Nat → Option Bool
  | [], unassignedCount => if unassignedCount = 0 then some false else none
  | l :: ls, unassignedCount =>
    match a l.var with
    | none => evaluateClauseAux a ls (unassignedCount + 1)
    | some v =>
      if (!l.negated && v) || (l.negated && !v) then some true
      else evaluateClauseAux a ls unassignedCount

/-- `_evaluate_clause(clause, assignment)`: `some true` = satisfied,
`some false` = unsatisfied, `none` = undetermined. -/
def evaluateClause (a : PAssign) (c : Clause) : Option Bool :=
  evaluateClauseAux a c.literals 0

/-- The list comprehension selecting the literals of a clause whose
variable is unassigned (used by both solvers' unit propagation). -/
def unassignedLits (a : PAssign) (c : Clause) : List Literal :=
  c.literals.filter (fun l => (a l.var).isNone)

/-- One scan of `DPLLSolver._unit_propagation`'s inner `for` loop over the
clause list: `none` = a conflict clause was found (the function returns
`False`); otherwise the updated assignment and whether any unit clause was
propagated during the scan. -/
def propagatePass (a : PAssign) : List Clause → Option (PAssign × Bool)
  | [] => some (a, false)
  | c :: cs =>
    match evaluateClause a c with
    | some false => none
    | some true => propagatePass a cs
    | none =>
      match unassignedLits a c with
      | [l] =>
        match propagatePass (updateA a l.var (!l.negated)) cs with
        | none => none
        | some (a2, _) => some (a2, true)
      | _ => propagatePass a cs

/-- `DPLLSolver._unit_propagation`: repeat scans until a scan makes no
progress (`some (some a)`), or a conflict is found (`some none`); the
outer `none` means the fuel ran out (the Python loop always terminates
because each propagation assigns a previously unassigned variable). -/
def unitPropagationF : Nat → List Clause → PAssign → Option (Option PAssign)
  | 0, _, _ => none
  | fuel + 1, cls, a =>
    match propagatePass a cls with
    | none => some none
    | some (a2, false) => some (some a2)
    | some (a2, true) => unitPropagationF fuel cls a2

/-- Record a polarity `b` for variable `v` in the insertion-ordered
`variable_polarities` dict of `_pure_literal_elimination`; the per-variable
polarity set is a duplicate-free list. -/
def addPolarity (ps : List (String × List Bool)) (v : String) (b : Bool) :
    List (String × List Bool) :=
  match ps with
  | [] => [(v, [b])]
  | (w, bs) :: rest =>
    if w = v then (w, if b ∈ bs then bs else bs ++ [b]) :: rest
    else (w, bs) :: addPolarity rest v b

/-- The polarity-collection phase of `DPLLSolver._pure_literal_elimination`:
over clauses not currently satisfied, record the polarity of every literal
whose variable is unassigned. -/
def collectPolarities (a : PAssign) (cls : List Clause) :
    List (String × List Bool) :=
  cls.foldl
    (fun ps c =>
      if evaluateClause a c = some true then ps
      else
        c.literals.foldl
          (fun ps2 l =>
            if (a l.var).isSome then ps2 else addPolarity ps2 l.var (!l.negated))
          ps)
    []

/-- `DPLLSolver._pure_literal_elimination`: assign every variable whose
collected polarity set is a singleton. -/
def pureLiteralElimination (a : PAssign) (cls : List Clause) : PAssign :=
  (collectPolarities a cls).foldl
    (fun a2 vb =>
      match vb.2 with
      | [b] => updateA a2 vb.1 b
      | _ => a2)
    a

/-- `DPLLSolver._all_clauses_satisfied`. -/
def allClausesSatisfied (a : PAssign) (cls : List Clause) : Bool :=
  cls.all (fun c => evaluateClause a c = some true)

/-- The variables appearing in a clause list, in first-occurrence order
(`DPLLSolver._get_all_variables` builds the same collection as a Python
set, whose iteration order is unspecified; the solver embedding therefore
takes the enumeration order as an explicit parameter, see `dpllF`). -/
def varsOfClauses (cls : List Clause) : List String :=
  (cls.foldr (fun c acc => c.literals.map Literal.var ++ acc) []).dedup

/-- The number of still-unassigned variables of a clause list (used as
fuel bound for the Python loops, which assign one new variable per step). -/
def numUnassigned (cls : List Clause) (a : PAssign) : Nat :=
  ((varsOfClauses cls).filter (fun v => (a v).isNone)).length

/-- `DPLLSolver._choose_variable`: first unassigned variable in the given
enumeration order (the order of Python's set iteration). `none` models the
`RuntimeError` raise. -/
def chooseVariable (order : List String) (a : PAssign) : Option String :=
  order.find? (fun v => (a v).isNone)

/-- Result of the recursive `_dpll` call; `ERR` models the `RuntimeError`
raised by `_choose_variable` when no variable is unassigned. -/
inductive DpllRes : Type where
  | SAT
  | UNSAT
  | ERR
deriving DecidableEq

/-- `DPLLSolver._dpll(assignment)`, with the mutable field
`self.assignment` threaded explicitly as `field`.  The field is written
exactly where the Python writes it: at the satisfied leaf.  Outer `none`
means the recursion fuel ran out; the Python recursion depth is bounded
by the number of variables because every branch assigns a fresh one. -/
def dpllF : Nat → List Clause → List String → PAssign → PAssign →
    Option (DpllRes × PAssign)
  | 0, _, _, _, _ => none
  | fuel + 1, cls, order, field, a =>
    match unitPropagationF (numUnassigned cls a + 1) cls a with
    | none => none
    | some none => some (DpllRes.UNSAT, field)
    | some (some a1) =>
      let a2 := pureLiteralElimination a1 cls
      if allClausesSatisfied a2 cls then some (DpllRes.SAT, a2)
      else
        match chooseVariable order a2 with
        | none => some (DpllRes.ERR, field)
        | some v =>
          match dpllF fuel cls order field (updateA a2 v true) with
          | none => none
          | some (DpllRes.SAT, field1) => some (DpllRes.SAT, field1)
          | some (DpllRes.ERR, field1) => some (DpllRes.ERR, field1)
          | some (DpllRes.UNSAT, field1) =>
            dpllF fuel cls order field1 (updateA a2 v false)

/-- `DPLLSolver.solve()` on a fresh solver (`self.assignment = {}`),
branching in the set-iteration order `order`. -/
def dpllSolveF (cnf : CNFFormula) (order : List String) (fuel : Nat) :
    Option (DpllRes × PAssign) :=
  dpllF fuel cnf.clauses order emptyAssign emptyAssign

/-- The `Assignment` dataclass of src/solver.py (a trail entry).  The
Python field `variable` is called `var` here. -/
structure Assignment : Type where
  var : String
  value : Bool
  decisionLevel : Nat
  reason : Option Clause
deriving DecidableEq

/-- The `ImplicationNode` dataclass of src/solver.py.  `_add_implication`
stores the antecedent *nodes* in the `antecedents` field (despite its
`List[str]` annotation); the field is never read by any code, so the
embedding records the variables of those nodes. -/
structure ImplicationNode : Type where
  var : String
  value : Bool
  decisionLevel : Nat
  reason : Option Clause
  antecedents : List String
deriving DecidableEq

/-- The mutable state of a `CDCLSolver` (minus the immutable `self.cnf`,
which is passed separately). -/
structure CDCLState : Type where
  assignment : PAssign
  decisionStack : List Assignment
  learnedClauses : List Clause
  decisionLevel : Nat
  implicationGraph : String → Option ImplicationNode

/-- `CDCLSolver.__init__`. -/
def initCDCLState : CDCLState :=
  ⟨emptyAssign, [], [], 0, fun _ => none⟩

/-- `graph[v] = n` on the implication-graph dict. -/
def updateG (g : String → Option ImplicationNode) (v : String)
    (n : ImplicationNode) : String → Option ImplicationNode :=
  fun w => if w = v then some n else g w

/-- `del graph[v]` (erasing an absent key is the identity, so this also
models the guarded `if v in graph: del graph[v]`). -/
def eraseG (g : String → Option ImplicationNode) (v : String) :
    String → Option ImplicationNode :=
  fun w => if w = v then none else g w

/-- `CDCLSolver._add_implication`. -/
def addImplication (st : CDCLState) (v : String) (value : Bool)
    (reason : Clause) : CDCLState :=
  let antecedentVars :=
    (reason.literals.filter
      (fun l => decide (l.var ≠ v) && (st.implicationGraph l.var).isSome)).map
      Literal.var
  { st with
    decisionStack := st.decisionStack ++ [⟨v, value, st.decisionLevel, some reason⟩],
    assignment := updateA st.assignment v value,
    implicationGraph :=
      updateG st.implicationGraph v
        ⟨v, value, st.decisionLevel, some reason, antecedentVars⟩ }

/-- `CDCLSolver._make_decision`. -/
def makeDecision (st : CDCLState) (v : String) (value : Bool) : CDCLState :=
  let lvl := st.decisionLevel + 1
  { st with
    decisionLevel := lvl,
    decisionStack := st.decisionStack ++ [⟨v, value, lvl, none⟩],
    assignment := updateA st.assignment v value,
    implicationGraph := updateG st.implicationGraph v ⟨v, value, lvl, none, []⟩ }

/-- One scan of `CDCLSolver._unit_propagation`'s inner `for` loop:
the updated state, the conflict clause if one was found (the Python
method returns it immediately), and whether any propagation happened. -/
def propagatePassC (st : CDCLState) : List Clause → CDCLState × Option Clause × Bool
  | [] => (st, none, false)
  | c :: cs =>
    match evaluateClause st.assignment c with
    | some false => (st, some c, false)
    | some true => propagatePassC st cs
    | none =>
      match unassignedLits st.assignment c with
      | [l] =>
        let r := propagatePassC (addImplication st l.var (!l.negated) c) cs
        (r.1, r.2.1, true)
      | _ => propagatePassC st cs

/-- `CDCLSolver._unit_propagation`: repeat scans of the original clauses
followed by the learned clauses until a conflict is returned or a scan
makes no progress.  Outer `none` = fuel ran out. -/
def unitPropagationC : Nat → List Clause → CDCLState → Option (CDCLState × Option Clause)
  | 0, _, _ => none
  | fuel + 1, orig, st =>
    let r := propagatePassC st (orig ++ st.learnedClauses)
    match r.2.1 with
    | some c => some (r.1, some c)
    | none => if r.2.2 then unitPropagationC fuel orig r.1 else some (r.1, none)

/-- `CDCLSolver._is_variable_at_current_level`. -/
def isVariableAtCurrentLevel (st : CDCLState) (v : String) : Bool :=
  match st.implicationGraph v with
  | some n => decide (n.decisionLevel = st.decisionLevel)
  | none => false

/-- `CDCLSolver._count_current_level_variables` (counts literal
occurrences whose variable is at the current decision level). -/
def countCurrentLevelVariables (st : CDCLState) (c : Clause) : Nat :=
  c.literals.countP (fun l => isVariableAtCurrentLevel st l.var)

/-- `CDCLSolver._is_first_unique_implication_point`. -/
def isFirstUIP (st : CDCLState) (c : Clause) : Bool :=
  countCurrentLevelVariables st c ≤ 1

/-- `CDCLSolver._find_variable_assignment_index`: index of the variable's
entry at the current decision level in the decision stack, `-1` if none. -/
def findVariableAssignmentIndex (st : CDCLState) (v : String) : Int :=
  match st.decisionStack.findIdx?
      (fun e => decide (e.var = v) && decide (e.decisionLevel = st.decisionLevel)) with
  | some i => (i : Int)
  | none => -1

/-- Python's `max(xs, key=k)` over a nonempty list: the first element
with the maximal key (later elements replace only on strictly greater key). -/
def maxByKey (key : String → Int) : String → List String → String
  | acc, [] => acc
  | acc, x :: xs => maxByKey key (if key x > key acc then x else acc) xs

/-- `CDCLSolver._find_most_recent_current_level_variable`. -/
def findMostRecentCurrentLevelVariable (st : CDCLState) (c : Clause) :
    Option String :=
  match (c.literals.filter (fun l => isVariableAtCurrentLevel st l.var)).map
      Literal.var with
  | [] => none
  | x :: xs => some (maxByKey (findVariableAssignmentIndex st) x xs)

/-- `CDCLSolver._literal_exists`. -/
def literalExists (l : Literal) (ls : List Literal) : Bool :=
  ls.any (fun e => decide (e.var = l.var) && decide (e.negated = l.negated))

/-- `CDCLSolver._resolve_clauses`: literals of both clauses in order,
dropping every literal over the pivot variable and deduplicating. -/
def resolveClauses (c1 c2 : Clause) (pivot : String) : Clause :=
  ⟨(c1.literals ++ c2.literals).foldl
    (fun acc l =>
      if l.var ≠ pivot ∧ literalExists l acc = false then acc ++ [l] else acc)
    []⟩

/-- The `while` loop of `CDCLSolver._analyze_conflict`; the three early
returns model `_can_resolve_on_variable` being false (no current-level
variable, variable not in the graph, or a decision without reason). -/
def analyzeConflictLoop : Nat → CDCLState → Clause → Option Clause
  | 0, _, _ => none
  | fuel + 1, st, c =>
    if isFirstUIP st c then some c
    else
      match findMostRecentCurrentLevelVariable st c with
      | none => some c
      | some v =>
        match st.implicationGraph v with
        | none => some c
        | some n =>
          match n.reason with
          | none => some c
          | some reason => analyzeConflictLoop fuel st (resolveClauses c reason v)

/-- `CDCLSolver._analyze_conflict`.  Outer `none` = fuel ran out. -/
def analyzeConflictF (fuel : Nat) (st : CDCLState) (conflict : Clause) :
    Option Clause :=
  if st.decisionLevel = 0 then some conflict
  else analyzeConflictLoop fuel st conflict

/-- `CDCLSolver._backjump`: `sorted(set(levels), reverse=True)[1]` is the
largest distinct level strictly below the maximum (`0` when no second
distinct level exists). -/
def backjump (st : CDCLState) (learned : Clause) : Nat :=
  if learned.literals.length ≤ 1 then 0
  else
    let decisionLevels :=
      learned.literals.filterMap
        (fun l => (st.implicationGraph l.var).map ImplicationNode.decisionLevel)
    if decisionLevels.length ≤ 1 then 0
    else
      let distinct := decisionLevels.dedup
      let top := distinct.foldl max 0
      let rest := distinct.filter (fun x => decide (x ≠ top))
      if rest.isEmpty then 0 else rest.foldl max 0

/-- The `while` loop of `CDCLSolver._remove_current_level_assignments`,
popping trail entries at the current decision level from the tail; the
fuel is the stack length, which bounds the pops. -/
def removeCurrentLevelAux : Nat → CDCLState → CDCLState
  | 0, st => st
  | n + 1, st =>
    match st.decisionStack.getLast? with
    | none => st
    | some e =>
      if e.decisionLevel = st.decisionLevel then
        removeCurrentLevelAux n
          { st with
            decisionStack := st.decisionStack.dropLast,
            assignment := eraseA st.assignment e.var,
            implicationGraph := eraseG st.implicationGraph e.var }
      else st

/-- `CDCLSolver._remove_current_level_assignments`. -/
def removeCurrentLevelAssignments (st : CDCLState) : CDCLState :=
  removeCurrentLevelAux st.decisionStack.length st

/-- The `while` loop of `CDCLSolver._backtrack_to_level`; the fuel is the
current decision level, which bounds the decrements. -/
def backtrackToLevelAux : Nat → Nat → CDCLState → CDCLState
  | 0, _, st => st
  | k + 1, target, st =>
    if target < st.decisionLevel then
      let st2 := removeCurrentLevelAssignments st
      backtrackToLevelAux k target { st2 with decisionLevel := st2.decisionLevel - 1 }
    else st

/-- `CDCLSolver._backtrack_to_level`. -/
def backtrackToLevel (st : CDCLState) (target : Nat) : CDCLState :=
  backtrackToLevelAux st.decisionLevel target st

/-- `CDCLSolver._choose_variable`: first unassigned variable scanning
the original clauses then the learned clauses, in clause order. -/
def chooseVariableC (orig : List Clause) (st : CDCLState) : Option String :=
  (orig ++ st.learnedClauses).findSome?
    (fun c =>
      c.literals.findSome?
        (fun l => if (st.assignment l.var).isNone then some l.var else none))

/-- `CDCLSolver._make_next_decision`: `none` means no variable was left
(the caller returns SAT). -/
def makeNextDecision (orig : List Clause) (st : CDCLState) : Option CDCLState :=
  match chooseVariableC orig st with
  | none => none
  | some v => some (makeDecision st v true)

/-- `CDCLSolver._handle_conflict`.  Outer `none` = analysis fuel ran out. -/
def handleConflictF (afuel : Nat) (st : CDCLState) (conflict : Clause) :
    Option (CDCLState × Option DecisionResult) :=
  match analyzeConflictF afuel st conflict with
  | none => none
  | some learned =>
    let st2 := { st with learnedClauses := st.learnedClauses ++ [learned] }
    if st2.decisionLevel = 0 then some (st2, some DecisionResult.UNSAT)
    else some (backtrackToLevel st2 (backjump st2 learned), none)

/-- The `while True` loop of `CDCLSolver.solve`.  The inner fuels for
propagation and conflict analysis are computed bounds that suffice for
the Python loops whenever those terminate; the outer `fuel` counts loop
iterations, and `none` means it ran out. -/
def cdclLoopF : Nat → List Clause → CDCLState → Option (DecisionResult × CDCLState)
  | 0, _, _ => none
  | fuel + 1, orig, st =>
    match unitPropagationC
        (numUnassigned (orig ++ st.learnedClauses) st.assignment + 1) orig st with
    | none => none
    | some (st2, some conflict) =>
      match handleConflictF (st2.decisionStack.length + 1) st2 conflict with
      | none => none
      | some (st3, some r) => some (r, st3)
      | some (st3, none) => cdclLoopF fuel orig st3
    | some (st2, none) =>
      match makeNextDecision orig st2 with
      | none => some (DecisionResult.SAT, st2)
      | some st3 => cdclLoopF fuel orig st3

/-- `CDCLSolver.solve()` on a fresh solver. -/
def cdclSolveF (cnf : CNFFormula) (fuel : Nat) :
    Option (DecisionResult × CDCLState) :=
  cdclLoopF fuel cnf.clauses initCDCLState

/-! ### Preprocessing (src/preprocessing.py) -/

/-- `eliminate_implications`: `A → B ⟶ ¬A ∨ B`,
`A ↔ B ⟶ (¬A ∨ B) ∧ (¬B ∨ A)`, recursing structurally elsewhere. -/
def eliminateImplications : Formula → Formula
  | .var n => .var n
  | .not f => .not (eliminateImplications f)
  | .and l r => .and (eliminateImplications l) (eliminateImplications r)
  | .or l r => .or (eliminateImplications l) (eliminateImplications r)
  | .implies l r =>
    .or (.not (eliminateImplications l)) (eliminateImplications r)
  | .biconditional l r =>
    let l2 := eliminateImplications l
    let r2 := eliminateImplications r
    .and (.or (.not l2) r2) (.or (.not r2) l2)

/-- Node count of a formula (fuel bound for `push_negations_inward`,
whose every recursive call strictly shrinks its argument). -/
def fsize : Formula → Nat
  | .var _ => 1
  | .not f => fsize f + 1
  | .and l r => fsize l + fsize r + 1
  | .or l r => fsize l + fsize r + 1
  | .implies l r => fsize l + fsize r + 1
  | .biconditional l r => fsize l + fsize r + 1

/-- `push_negations_inward` (with `_push_negations_not` inlined on the
`Not` cases).  `none` models the `ValueError` on `Implies`/`Biconditional`
nodes and on unexpected formulas under a negation; it also stands for
exhausted fuel, which `pushNegationsF_fuel` shows never happens from
`fsize` upward. -/
def pushNegationsF : Nat → Formula → Option Formula
  | 0, _ => none
  | _ + 1, .var n => some (.var n)
  | _ + 1, .not (.var n) => some (.not (.var n))
  | fuel + 1, .not (.not x) => pushNegationsF fuel x
  | fuel + 1, .not (.and l r) =>
    match pushNegationsF fuel (.not l), pushNegationsF fuel (.not r) with
    | some l2, some r2 => some (.or l2 r2)
    | _, _ => none
  | fuel + 1, .not (.or l r) =>
    match pushNegationsF fuel (.not l), pushNegationsF fuel (.not r) with
    | some l2, some r2 => some (.and l2 r2)
    | _, _ => none
  | _ + 1, .not _ => none
  | fuel + 1, .and l r =>
    match pushNegationsF fuel l, pushNegationsF fuel r with
    | some l2, some r2 => some (.and l2 r2)
    | _, _ => none
  | fuel + 1, .or l r =>
    match pushNegationsF fuel l, pushNegationsF fuel r with
    | some l2, some r2 => some (.or l2 r2)
    | _, _ => none
  | _ + 1, _ => none

/-- `to_nnf`: eliminate implications, then push negations inward. -/
def toNnfF (fuel : Nat) (f : Formula) : Option Formula :=
  pushNegationsF fuel (eliminateImplications f)

/-- `distribute_or_over_and` (with `_distribute_or` and the two
`_distribute_*_over_and` helpers inlined).  The Python recursion re-enters
itself on results of recursive calls, so it is modelled with fuel; `none`
is exhausted fuel or the `ValueError` on `Implies`/`Biconditional`. -/
def distributeF : Nat → Formula → Option Formula
  | 0, _ => none
  | _ + 1, .var n => some (.var n)
  | fuel + 1, .not x =>
    match distributeF fuel x with
    | some x2 => some (.not x2)
    | none => none
  | fuel + 1, .and l r =>
    match distributeF fuel l, distributeF fuel r with
    | some l2, some r2 => some (.and l2 r2)
    | _, _ => none
  | fuel + 1, .or l r =>
    match distributeF fuel l, distributeF fuel r with
    | some l2, some r2 =>
      match r2 with
      | .and a b =>
        match distributeF fuel (.or l2 a), distributeF fuel (.or l2 b) with
        | some x, some y => some (.and x y)
        | _, _ => none
      | _ =>
        match l2 with
        | .and a b =>
          match distributeF fuel (.or a r2), distributeF fuel (.or b r2) with
          | some x, some y => some (.and x y)
          | _, _ => none
        | _ => some (.or l2 r2)
    | _, _ => none
  | _ + 1, _ => none

/-- `_is_literal`. -/
def isLiteralF : Formula → Bool
  | .var _ => true
  | .not (.var _) => true
  | _ => false

/-- `formula_to_literal`; `none` models its `ValueError`. -/
def formulaToLiteral : Formula → Option Literal
  | .var n => some ⟨n, false⟩
  | .not (.var n) => some ⟨n, true⟩
  | _ => none

/-- The explicit-stack loop of `extract_literals_from_or`: the list head
is the top of the Python stack (`append(right); append(left)` then `pop`
processes `left` first). -/
def extractLitsAux : Nat → List Formula → List Literal → Option (List Literal)
  | 0, _, _ => none
  | _ + 1, [], acc => some acc
  | fuel + 1, cur :: stack, acc =>
    if isLiteralF cur then
      match formulaToLiteral cur with
      | some lit => extractLitsAux fuel stack (acc ++ [lit])
      | none => none
    else
      match cur with
      | .or l r => extractLitsAux fuel (l :: r :: stack) acc
      | _ => none

/-- `extract_literals_from_or`, with fuel ample for its loop (each
iteration pops a node of the formula or a literal). -/
def extractLiteralsFromOr (f : Formula) : Option (List Literal) :=
  extractLitsAux (2 * fsize f + 2) [f] []

/-- `formula_to_cnf_format`; `none` models its `ValueError`. -/
def formulaToCnfFormat : Formula → Option CNFFormula
  | .var n => some ⟨[⟨[⟨n, false⟩]⟩]⟩
  | .not (.var n) => some ⟨[⟨[⟨n, true⟩]⟩]⟩
  | .or l r =>
    match extractLiteralsFromOr (.or l r) with
    | some lits => some ⟨[⟨lits⟩]⟩
    | none => none
  | .and l r =>
    match formulaToCnfFormat l, formulaToCnfFormat r with
    | some c1, some c2 => some ⟨c1.clauses ++ c2.clauses⟩
    | _, _ => none
  | _ => none

/-- `to_cnf`: NNF, distribution, then flattening into a `CNFFormula`. -/
def toCnfF (fuel : Nat) (f : Formula) : Option CNFFormula :=
  match toNnfF fuel f with
  | none => none
  | some nnf =>
    match distributeF fuel nnf with
    | none => none
    | some d => formulaToCnfFormat d

/-- State of a `TseytinTransformer`. -/
structure TseytinState : Type where
  z_counter : Nat
  biconditionals : List Formula
deriving DecidableEq

/-- `TseytinTransformer._fresh_z_variable` produces `z_<counter+1>`. -/
def zVarName (n : Nat) : String :=
  "z_" ++ toString n

/-- `TseytinTransformer._var_or_negated_var`. -/
def varOrNegatedVar (original : Formula) (name : String) : Formula :=
  match original with
  | .not _ => .not (.var name)
  | _ => .var name

/-- `TseytinTransformer._process_formula`: returns the variable naming the
formula and the updated transformer state; `none` models the `ValueError`
on non-NNF input. -/
def processFormula : Formula → TseytinState → Option (String × TseytinState)
  | .var n, st => some (n, st)
  | .not (.var n), st => some (n, st)
  | .and l r, st =>
    let z := zVarName (st.z_counter + 1)
    match processFormula l { st with z_counter := st.z_counter + 1 } with
    | none => none
    | some (lv, st2) =>
      match processFormula r st2 with
      | none => none
      | some (rv, st3) =>
        some (z, { st3 with
          biconditionals := st3.biconditionals ++
            [Formula.biconditional (.var z)
              (.and (varOrNegatedVar l lv) (varOrNegatedVar r rv))] })
  | .or l r, st =>
    let z := zVarName (st.z_counter + 1)
    match processFormula l { st with z_counter := st.z_counter + 1 } with
    | none => none
    | some (lv, st2) =>
      match processFormula r st2 with
      | none => none
      | some (rv, st3) =>
        some (z, { st3 with
          biconditionals := st3.biconditionals ++
            [Formula.biconditional (.var z)
              (.or (varOrNegatedVar l lv) (varOrNegatedVar r rv))] })
  | _, _ => none

/-- `TseytinTransformer.extract_biconditionals` on a fresh transformer. -/
def extractBiconditionals (f : Formula) : Option (String × List Formula) :=
  match processFormula f ⟨0, []⟩ with
  | none => none
  | some (v, st) => some (v, st.biconditionals)

/-- The loop of `to_cnf_tseytin` converting every biconditional to CNF
and concatenating the clauses. -/
def collectTseytinClauses (fuel : Nat) : List Formula → Option (List Clause)
  | [] => some []
  | b :: bs =>
    match toCnfF fuel b, collectTseytinClauses fuel bs with
    | some c, some rest => some (c.clauses ++ rest)
    | _, _ => none

/-- `to_cnf_tseytin`: NNF, Tseytin biconditionals, classical CNF of each,
then the unit clause asserting the main variable (positively). -/
def toCnfTseytinF (fuel : Nat) (f : Formula) : Option CNFFormula :=
  match toNnfF fuel f with
  | none => none
  | some nnf =>
    match extractBiconditionals nnf with
    | none => none
    | some (mainVar, biconds) =>
      match collectTseytinClauses fuel biconds with
      | none => none
      | some cls => some ⟨cls ++ [⟨[⟨mainVar, false⟩]⟩]⟩

/-! ### Semantics

The repository defines no evaluator for `Formula`; `evalFormula` is the
standard truth-table semantics the specification's `eval(F, σ)` denotes,
and the satisfaction predicates spell out the specification's "an
assignment satisfies a literal / clause / formula". -/

/-- Truth value of a formula under a total assignment. -/
def evalFormula (σ : String → Bool) : Formula → Bool
  | .var n => σ n
  | .not f => !evalFormula σ f
  | .and l r => evalFormula σ l && evalFormula σ r
  | .or l r => evalFormula σ l || evalFormula σ r
  | .implies l r => !evalFormula σ l || evalFormula σ r
  | .biconditional l r => evalFormula σ l == evalFormula σ r

/-- A total assignment satisfies a clause: some literal is true. -/
def ClauseSat (σ : String → Bool) (c : Clause) : Prop :=
  ∃ l ∈ c.literals, σ l.var = !l.negated

/-- A total assignment satisfies a clause list (a CNF). -/
def CNFSat (σ : String → Bool) (cls : List Clause) : Prop :=
  ∀ c ∈ cls, ClauseSat σ c

/-- A partial assignment satisfies a clause: some literal's variable is
assigned the value making the literal true. -/
def ClauseSatP (a : PAssign) (c : Clause) : Prop :=
  ∃ l ∈ c.literals, a l.var = some (!l.negated)

/-- A partial assignment satisfies a clause list. -/
def CNFSatP (a : PAssign) (cls : List Clause) : Prop :=
  ∀ c ∈ cls, ClauseSatP a c

/-- A total assignment agrees with (extends) a partial one. -/
def Agrees (σ : String → Bool) (a : PAssign) : Prop :=
  ∀ v b, a v = some b → σ v = b

/-- One partial assignment extends another. -/
def Extends (a a2 : PAssign) : Prop :=
  ∀ v b, a v = some b → a2 v = some b

/-- `push_negations_inward` with fuel ample for its recursion (every
recursive call strictly shrinks the formula, so `fsize` steps suffice;
see `pushNegationsF_stable`). -/
def pushNegations (f : Formula) : Option Formula :=
  pushNegationsF (fsize f) f

/-- A non-leaf formula in the sense of `TseytinTransformer`: an `And` or
`Or` node, which receives a fresh auxiliary variable. -/
def isComplexF : Formula → Bool
  | .and _ _ => true
  | .or _ _ => true
  | _ => false

/-- The CNF `(p) ∧ (¬p)` (concrete unsatisfiable input for witnesses). -/
def cnfPnp : CNFFormula :=
  ⟨[⟨[⟨"p", false⟩]⟩, ⟨[⟨"p", true⟩]⟩]⟩

/-- Truth value of a `Literal` under a total assignment. -/
def litEvalB (σ : String → Bool) (l : Literal) : Bool :=
  if l.negated then !σ l.var else σ l.var

/-- Truth value of a `Clause` (disjunction) under a total assignment. -/
def clauseEvalB (σ : String → Bool) (c : Clause) : Bool :=
  c.literals.any (litEvalB σ)

/-- Truth value of a `CNFFormula` (conjunction) under a total assignment. -/
def cnfEvalB (σ : String → Bool) (cnf : CNFFormula) : Bool :=
  cnf.clauses.all (clauseEvalB σ)

/-- The formula `(p ∨ q) ∧ ¬z_2`, whose input variable `z_2` collides
with the second Tseytin auxiliary. -/
def formulaC3 : Formula :=
  .and (.or (.var "p") (.var "q")) (.not (.var "z_2"))

/-- The assignment `p, q ↦ true, z_2 ↦ false`, which satisfies
`formulaC3`. -/
def sigmaC3 : String → Bool :=
  fun v => if v = "z_2" then false else true

/-- The value of `to_cnf_tseytin(formulaC3)` as the code computes it:
the auxiliary `z_2` is captured by the input variable `z_2`, producing
`(¬z_2 ∨ p ∨ q) ∧ (¬p ∨ z_2) ∧ (¬q ∨ z_2) ∧ (¬z_1 ∨ z_2) ∧ (¬z_1 ∨ ¬z_2)
∧ (¬z_2 ∨ z_2 ∨ z_1) ∧ (z_1)`, which is unsatisfiable. -/
def cnfC3 : CNFFormula :=
  ⟨[⟨[⟨"z_2", true⟩, ⟨"p", false⟩, ⟨"q", false⟩]⟩,
    ⟨[⟨"p", true⟩, ⟨"z_2", false⟩]⟩,
    ⟨[⟨"q", true⟩, ⟨"z_2", false⟩]⟩,
    ⟨[⟨"z_1", true⟩, ⟨"z_2", false⟩]⟩,
    ⟨[⟨"z_1", true⟩, ⟨"z_2", true⟩]⟩,
    ⟨[⟨"z_2", true⟩, ⟨"z_2", false⟩, ⟨"z_1", false⟩]⟩,
    ⟨[⟨"z_1", false⟩]⟩]⟩

/-- The clause `(¬p ∨ ¬p)` with a duplicated literal. -/
def clauseNPNP : Clause := ⟨[⟨"p", true⟩, ⟨"p", true⟩]⟩

/-- The CNF `[(¬p ∨ ¬p)]`: satisfiable (`p ↦ false`), but the CDCL
solver never terminates on it (see `cdclLoopF_npnp_none`). -/
def cnfNPNP : CNFFormula := ⟨[clauseNPNP]⟩

/-- The shape of the CDCL state at the top of the loop, at level 0, on
input `cnfNPNP`: `p` unassigned, empty trail, and every learned clause a
copy of `(¬p ∨ ¬p)`.  The implication graph is unconstrained. -/
def Stuck0 (st : CDCLState) : Prop :=
  st.assignment "p" = none ∧ st.decisionStack = [] ∧ st.decisionLevel = 0 ∧
    ∀ c ∈ st.learnedClauses, c = clauseNPNP

/-- The state shape right after the decision `p ↦ true` on `cnfNPNP`. -/
def Stuck1 (st : CDCLState) : Prop :=
  st.assignment "p" = some true ∧ st.decisionLevel = 1 ∧
    st.decisionStack = [⟨"p", true, 1, none⟩] ∧
    st.implicationGraph "p" = some ⟨"p", true, 1, none, []⟩ ∧
    ∀ c ∈ st.learnedClauses, c = clauseNPNP

/-- A clause is entailed by a clause list: every total model of the
list satisfies it. -/
def Entails (cls : List Clause) (c : Clause) : Prop :=
  ∀ σ : String → Bool, CNFSat σ cls → ClauseSat σ c

/-- Variable `u` appears on the decision stack strictly before an entry
for variable `v` (propagation reasons only mention earlier trail
entries, which keeps them meaningful across backtracking). -/
def Before (st : CDCLState) (u v : String) : Prop :=
  ∃ i j : Nat, i < j ∧
    (∃ e, st.decisionStack[i]? = some e ∧ e.var = u) ∧
    (∃ e, st.decisionStack[j]? = some e ∧ e.var = v)

/-- Structural coherence of a CDCL state: trail variables are distinct,
trail entries agree with the assignment dict and the implication graph,
and the assignment and graph domains are exactly the trail variables. -/
def StackCoherent (st : CDCLState) : Prop :=
  (st.decisionStack.map Assignment.var).Nodup ∧
  (∀ e ∈ st.decisionStack,
     st.assignment e.var = some e.value ∧
     ∃ n, st.implicationGraph e.var = some n ∧ n.var = e.var ∧
       n.value = e.value ∧ n.decisionLevel = e.decisionLevel ∧
       n.reason = e.reason) ∧
  (∀ v, (st.assignment v).isSome = true → ∃ e ∈ st.decisionStack, e.var = v) ∧
  (∀ v, (st.implicationGraph v).isSome = true → ∃ e ∈ st.decisionStack, e.var = v)

/-- Decision levels on the trail are bounded by the current level and
non-decreasing along the trail. -/
def LevelsOK (st : CDCLState) : Prop :=
  (∀ e ∈ st.decisionStack, e.decisionLevel ≤ st.decisionLevel) ∧
  st.decisionStack.Pairwise (fun e1 e2 => e1.decisionLevel ≤ e2.decisionLevel)

/-- Every learned clause is entailed by the input clauses. -/
def LearnedOK (cls : List Clause) (st : CDCLState) : Prop :=
  ∀ c ∈ st.learnedClauses, Entails cls c

/-- Every trail assignment made at decision level 0 is forced: every
total model of the input agrees with it. -/
def Level0Forced (cls : List Clause) (st : CDCLState) : Prop :=
  ∀ e ∈ st.decisionStack, e.decisionLevel = 0 →
    ∀ σ : String → Bool, CNFSat σ cls → σ e.var = e.value

/-- Soundness of recorded reasons: a reason clause is entailed by the
input, its literals over the node variable are exactly the propagated
literal, and its other literals are assigned false by strictly earlier
trail entries. -/
def ReasonsOK (cls : List Clause) (st : CDCLState) : Prop :=
  ∀ v n, st.implicationGraph v = some n → ∀ r, n.reason = some r →
    Entails cls r ∧
    (∀ l ∈ r.literals, l.var = v → l.negated = !n.value) ∧
    (∀ l ∈ r.literals, l.var ≠ v →
       st.assignment l.var = some l.negated ∧ Before st l.var v)

/-- The full CDCL state invariant (established by `__init__`, preserved
by every loop step, see `cdclLoopF_sound`). -/
def InvC (cls : List Clause) (st : CDCLState) : Prop :=
  StackCoherent st ∧ LevelsOK st ∧ LearnedOK cls st ∧
    Level0Forced cls st ∧ ReasonsOK cls st

/-- The distinct variables of a clause that are assigned at the current
decision level (the 1-UIP measure over variables rather than literal
occurrences). -/
def currentLevelVars (st : CDCLState) (c : Clause) : List String :=
  ((c.literals.map Literal.var).dedup).filter
    (fun v => isVariableAtCurrentLevel st v)

/-- The CNF `(p ∨ q) ∧ (¬p ∨ ¬q)`: satisfiable exactly by the two
assignments that give `p` and `q` different values. -/
def cnfPQ : CNFFormula :=
  ⟨[⟨[⟨"p", false⟩, ⟨"q", false⟩]⟩, ⟨[⟨"p", true⟩, ⟨"q", true⟩]⟩]⟩

/-- The CDCL state after the decision `p ↦ true` from a fresh solver:
the state in which `_analyze_conflict` receives the conflict
`(¬p ∨ ¬p)` on input `cnfNPNP`. -/
def stC6 : CDCLState := makeDecision initCDCLState "p" true

/-! ### Theorems -/

/-- The satisfied-literal test of `_is_literal_satisfied` holds iff the
variable's value is the complement of the negation flag. -/
theorem litTest_iff (n v : Bool) : ((!n && v) || (n && !v)) = true ↔ v = !n := by
  cases n <;> cases v <;> simp

theorem evaluateClauseAux_eq_true_iff (a : PAssign) :
    ∀ (ls : List Literal) (u : Nat),
      evaluateClauseAux a ls u = some true ↔ ∃ l ∈ ls, a l.var = some (!l.negated) := by
  intro ls
  induction ls with
  | nil =>
    intro u
    constructor
    · intro h
      simp only [evaluateClauseAux] at h
      by_cases hu : u = 0 <;> simp [hu] at h
    · rintro ⟨l, hl, -⟩
      exact absurd hl (List.not_mem_nil l)
  | cons l ls ih =>
    intro u
    cases hv : a l.var with
    | none =>
      simp only [evaluateClauseAux, hv, ih]
      constructor
      · rintro ⟨l2, hl2, h2⟩
        exact ⟨l2, List.mem_cons_of_mem l hl2, h2⟩
      · rintro ⟨l2, hl2, h2⟩
        rcases List.mem_cons.mp hl2 with rfl | hmem
        · rw [hv] at h2; exact absurd h2 (by simp)
        · exact ⟨l2, hmem, h2⟩
    | some v =>
      by_cases hsat : ((!l.negated && v) || (l.negated && !v)) = true
      · simp only [evaluateClauseAux, hv, if_pos hsat]
        constructor
        · intro _
          exact ⟨l, List.mem_cons_self l ls, by rw [hv, (litTest_iff _ _).mp hsat]⟩
        · exact fun _ => trivial
      · simp only [evaluateClauseAux, hv, if_neg hsat, ih]
        constructor
        · rintro ⟨l2, hl2, h2⟩
          exact ⟨l2, List.mem_cons_of_mem l hl2, h2⟩
        · rintro ⟨l2, hl2, h2⟩
          rcases List.mem_cons.mp hl2 with rfl | hmem
          · rw [hv] at h2
            injection h2 with h2
            exact absurd ((litTest_iff l2.negated v).mpr h2) hsat
          · exact ⟨l2, hmem, h2⟩

theorem evaluateClauseAux_eq_false_iff (a : PAssign) :
    ∀ (ls : List Literal) (u : Nat),
      evaluateClauseAux a ls u = some false ↔
        (u = 0 ∧ ∀ l ∈ ls, a l.var = some l.negated) := by
  intro ls
  induction ls with
  | nil =>
    intro u
    simp only [evaluateClauseAux]
    by_cases hu : u = 0 <;> simp [hu]
  | cons l ls ih =>
    intro u
    cases hv : a l.var with
    | none =>
      simp only [evaluateClauseAux, hv, ih]
      constructor
      · rintro ⟨h, -⟩; exact absurd h (by omega)
      · rintro ⟨-, hall⟩
        have := hall l (List.mem_cons_self l ls)
        rw [hv] at this
        exact absurd this (by simp)
    | some v =>
      by_cases hsat : ((!l.negated && v) || (l.negated && !v)) = true
      · simp only [evaluateClauseAux, hv, if_pos hsat]
        constructor
        · intro h; exact absurd h (by simp)
        · rintro ⟨-, hall⟩
          have h2 := hall l (List.mem_cons_self l ls)
          rw [hv] at h2
          injection h2 with hvv
          have : (!l.negated) = l.negated := ((litTest_iff _ _).mp hsat).symm.trans hvv
          cases hn : l.negated <;> rw [hn] at this <;> simp at this
      · simp only [evaluateClauseAux, hv, if_neg hsat, ih]
        constructor
        · rintro ⟨hu, hall⟩
          refine ⟨hu, ?_⟩
          intro l2 hl2
          rcases List.mem_cons.mp hl2 with rfl | hmem
          · rw [hv]
            have hne : ¬ v = !l2.negated := fun he => hsat ((litTest_iff _ _).mpr he)
            cases hv2 : v <;> cases hn : l2.negated <;> rw [hv2, hn] at hne <;>
              simp_all
          · exact hall l2 hmem
        · rintro ⟨hu, hall⟩
          exact ⟨hu, fun l2 hl2 => hall l2 (List.mem_cons_of_mem l hl2)⟩

theorem evaluateClause_eq_true_iff (a : PAssign) (c : Clause) :
    evaluateClause a c = some true ↔ ClauseSatP a c :=
  evaluateClauseAux_eq_true_iff a c.literals 0

theorem evaluateClause_eq_false_iff (a : PAssign) (c : Clause) :
    evaluateClause a c = some false ↔ ∀ l ∈ c.literals, a l.var = some l.negated := by
  rw [evaluateClause, evaluateClauseAux_eq_false_iff]
  simp

theorem evaluateClauseAux_none_unassigned (a : PAssign) :
    ∀ (ls : List Literal) (u : Nat),
      evaluateClauseAux a ls u = none → u ≠ 0 ∨ ∃ l ∈ ls, a l.var = none := by
  intro ls
  induction ls with
  | nil =>
    intro u h
    simp only [evaluateClauseAux] at h
    by_cases hu : u = 0 <;> simp_all
  | cons l ls ih =>
    intro u h
    cases hv : a l.var with
    | none => exact Or.inr ⟨l, List.mem_cons_self l ls, hv⟩
    | some v =>
      simp only [evaluateClauseAux, hv] at h
      by_cases hsat : ((!l.negated && v) || (l.negated && !v)) = true
      · rw [if_pos hsat] at h
        exact absurd h (by simp)
      · rw [if_neg hsat] at h
        rcases ih u h with hu | ⟨l2, hl2, h2⟩
        · exact Or.inl hu
        · exact Or.inr ⟨l2, List.mem_cons_of_mem l hl2, h2⟩

/-- An undetermined clause has an unassigned literal. -/
theorem evaluateClause_none_unassigned (a : PAssign) (c : Clause)
    (h : evaluateClause a c = none) : ∃ l ∈ c.literals, a l.var = none := by
  rcases evaluateClauseAux_none_unassigned a c.literals 0 h with hu | hex
  · exact absurd rfl hu
  · exact hex

/-- Under a total assignment agreeing with `a`, a clause that evaluates
to `some false` under `a` is unsatisfied. -/
theorem not_clauseSat_of_eval_false {σ : String → Bool} {a : PAssign}
    (hag : Agrees σ a) {c : Clause} (h : evaluateClause a c = some false) :
    ¬ ClauseSat σ c := by
  rintro ⟨l, hl, hσ⟩
  have := (evaluateClause_eq_false_iff a c).mp h l hl
  have := hag l.var l.negated this
  rw [this] at hσ
  cases l.negated <;> simp_all

/-- Fuel from `fsize` upward does not change `push_negations_inward`. -/
theorem pushNegationsF_stable :
    ∀ (n : Nat) (F : Formula) (f1 f2 : Nat), fsize F ≤ n → fsize F ≤ f1 →
      fsize F ≤ f2 → pushNegationsF f1 F = pushNegationsF f2 F := by
  intro n
  induction n with
  | zero =>
    intro F f1 f2 hn _ _
    cases F <;> simp [fsize] at hn
  | succ n ih =>
    intro F f1 f2 hn h1 h2
    have hpos : 1 ≤ fsize F := by cases F <;> simp [fsize]
    cases f1 with
    | zero => omega
    | succ f1 =>
      cases f2 with
      | zero => omega
      | succ f2 =>
        cases F with
        | var v => simp [pushNegationsF]
        | and l r =>
          simp only [fsize] at hn h1 h2
          have hl : fsize l ≤ n := by omega
          have hr : fsize r ≤ n := by omega
          simp only [pushNegationsF]
          rw [ih l f1 f2 hl (by omega) (by omega), ih r f1 f2 hr (by omega) (by omega)]
        | or l r =>
          simp only [fsize] at hn h1 h2
          have hl : fsize l ≤ n := by omega
          have hr : fsize r ≤ n := by omega
          simp only [pushNegationsF]
          rw [ih l f1 f2 hl (by omega) (by omega), ih r f1 f2 hr (by omega) (by omega)]
        | implies l r => simp [pushNegationsF]
        | biconditional l r => simp [pushNegationsF]
        | not x =>
          cases x with
          | var v => simp [pushNegationsF]
          | not y =>
            simp only [fsize] at hn h1 h2
            simp only [pushNegationsF]
            exact ih y f1 f2 (by omega) (by omega) (by omega)
          | and l r =>
            simp only [fsize] at hn h1 h2
            simp only [pushNegationsF]
            rw [ih (.not l) f1 f2 (by simp [fsize]; omega) (by simp [fsize]; omega)
                  (by simp [fsize]; omega),
                ih (.not r) f1 f2 (by simp [fsize]; omega) (by simp [fsize]; omega)
                  (by simp [fsize]; omega)]
          | or l r =>
            simp only [fsize] at hn h1 h2
            simp only [pushNegationsF]
            rw [ih (.not l) f1 f2 (by simp [fsize]; omega) (by simp [fsize]; omega)
                  (by simp [fsize]; omega),
                ih (.not r) f1 f2 (by simp [fsize]; omega) (by simp [fsize]; omega)
                  (by simp [fsize]; omega)]
          | implies l r => simp [pushNegationsF]
          | biconditional l r => simp [pushNegationsF]

/-- C9 (corrected): `push_negations_inward(¬¬A)` is not `A` itself on
formulas that are not already in NNF: at `A = ¬¬p` it returns `p ≠ A`. -/
theorem C9_push_double_negation_cex :
    pushNegations (Formula.not (Formula.not (Formula.not (Formula.not (Formula.var "p")))))
        = some (Formula.var "p") ∧
      Formula.var "p" ≠ Formula.not (Formula.not (Formula.var "p")) := by
  constructor
  · rfl
  · intro h; cases h

theorem processFormula_and_elim {l r : Formula} {st : TseytinState} {n : String}
    {st2 : TseytinState}
    (h : processFormula (Formula.and l r) st = some (n, st2)) :
    ∃ lv stl rv str2,
      processFormula l { st with z_counter := st.z_counter + 1 } = some (lv, stl) ∧
      processFormula r stl = some (rv, str2) ∧
      n = zVarName (st.z_counter + 1) ∧
      st2 = { str2 with
        biconditionals := str2.biconditionals ++
          [Formula.biconditional (.var n)
            (.and (varOrNegatedVar l lv) (varOrNegatedVar r rv))] } := by
  simp only [processFormula] at h
  cases hml : processFormula l { st with z_counter := st.z_counter + 1 } with
  | none => simp [hml] at h
  | some p =>
    obtain ⟨lv, stl⟩ := p
    simp only [hml] at h
    cases hmr : processFormula r stl with
    | none => simp [hmr] at h
    | some p2 =>
      obtain ⟨rv, str2⟩ := p2
      simp only [hmr, Option.some.injEq, Prod.mk.injEq] at h
      exact ⟨lv, stl, rv, str2, rfl, hmr, h.1.symm, by rw [← h.1, ← h.2]⟩

theorem processFormula_or_elim {l r : Formula} {st : TseytinState} {n : String}
    {st2 : TseytinState}
    (h : processFormula (Formula.or l r) st = some (n, st2)) :
    ∃ lv stl rv str2,
      processFormula l { st with z_counter := st.z_counter + 1 } = some (lv, stl) ∧
      processFormula r stl = some (rv, str2) ∧
      n = zVarName (st.z_counter + 1) ∧
      st2 = { str2 with
        biconditionals := str2.biconditionals ++
          [Formula.biconditional (.var n)
            (.or (varOrNegatedVar l lv) (varOrNegatedVar r rv))] } := by
  simp only [processFormula] at h
  cases hml : processFormula l { st with z_counter := st.z_counter + 1 } with
  | none => simp [hml] at h
  | some p =>
    obtain ⟨lv, stl⟩ := p
    simp only [hml] at h
    cases hmr : processFormula r stl with
    | none => simp [hmr] at h
    | some p2 =>
      obtain ⟨rv, str2⟩ := p2
      simp only [hmr, Option.some.injEq, Prod.mk.injEq] at h
      exact ⟨lv, stl, rv, str2, rfl, hmr, h.1.symm, by rw [← h.1, ← h.2]⟩

/-- The Tseytin counter never decreases across `_process_formula`. -/
theorem processFormula_counter_mono :
    ∀ (f : Formula) (st : TseytinState) (n : String) (st2 : TseytinState),
      processFormula f st = some (n, st2) → st.z_counter ≤ st2.z_counter := by
  intro f
  induction f with
  | var v =>
    intro st n st2 h
    simp only [processFormula, Option.some.injEq, Prod.mk.injEq] at h
    rw [← h.2]
  | not x ihx =>
    intro st n st2 h
    cases x with
    | var v2 =>
      simp only [processFormula, Option.some.injEq, Prod.mk.injEq] at h
      rw [← h.2]
    | not y => exact absurd h (by simp [processFormula])
    | and l2 r2 => exact absurd h (by simp [processFormula])
    | or l2 r2 => exact absurd h (by simp [processFormula])
    | implies l2 r2 => exact absurd h (by simp [processFormula])
    | biconditional l2 r2 => exact absurd h (by simp [processFormula])
  | and l r ihl ihr =>
    intro st n st2 h
    rcases processFormula_and_elim h with ⟨lv, stl, rv, str2, hl, hr, -, hst⟩
    have h1 := ihl _ _ _ hl
    have h2 := ihr _ _ _ hr
    rw [hst]
    simp only at h1 ⊢
    omega
  | or l r ihl ihr =>
    intro st n st2 h
    rcases processFormula_or_elim h with ⟨lv, stl, rv, str2, hl, hr, -, hst⟩
    have h1 := ihl _ _ _ hl
    have h2 := ihr _ _ _ hr
    rw [hst]
    simp only at h1 ⊢
    omega
  | implies l r ihl ihr =>
    intro st n st2 h
    exact absurd h (by simp [processFormula])
  | biconditional l r ihl ihr =>
    intro st n st2 h
    exact absurd h (by simp [processFormula])

/-- Every `And`/`Or` node is named `z_<c+1>` where `c` is the counter
when the node is visited — before its children are processed. -/
theorem processFormula_complex_name {f : Formula} {st : TseytinState} {n : String}
    {st2 : TseytinState} (hc : isComplexF f = true)
    (h : processFormula f st = some (n, st2)) :
    n = zVarName (st.z_counter + 1) ∧ st.z_counter < st2.z_counter := by
  cases f with
  | and l r =>
    rcases processFormula_and_elim h with ⟨lv, stl, rv, str2, hl, hr, hn, hst⟩
    have h1 := processFormula_counter_mono _ _ _ _ hl
    have h2 := processFormula_counter_mono _ _ _ _ hr
    refine ⟨hn, ?_⟩
    rw [hst]
    simp only at h1 ⊢
    omega
  | or l r =>
    rcases processFormula_or_elim h with ⟨lv, stl, rv, str2, hl, hr, hn, hst⟩
    have h1 := processFormula_counter_mono _ _ _ _ hl
    have h2 := processFormula_counter_mono _ _ _ _ hr
    refine ⟨hn, ?_⟩
    rw [hst]
    simp only at h1 ⊢
    omega
  | var v => simp [isComplexF] at hc
  | not x => simp [isComplexF] at hc
  | implies l r => simp [isComplexF] at hc
  | biconditional l r => simp [isComplexF] at hc

/-- C8 (corrected), counterexample: on `And(Or(p, q), r)` the transformer
names the root `z_1` and the child `Or(p, q)` gets `z_2` — the parent
receives the smaller number, the opposite of the claimed child-first
numbering.  (The conjunct `1 < 2` records that the child's index exceeds
the parent's.) -/
theorem C8_tseytin_numbering_cex :
    extractBiconditionals
        (Formula.and (.or (.var "p") (.var "q")) (.var "r")) =
      some ("z_1",
        [Formula.biconditional (.var "z_2") (.or (.var "p") (.var "q")),
         Formula.biconditional (.var "z_1") (.and (.var "z_2") (.var "r"))]) ∧
    processFormula (Formula.or (.var "p") (.var "q")) ⟨1, []⟩ =
      some ("z_2", ⟨2, [Formula.biconditional (.var "z_2")
        (.or (.var "p") (.var "q"))]⟩) ∧
    zVarName 1 = "z_1" ∧ zVarName 2 = "z_2" ∧ 1 < 2 := by
  exact ⟨rfl, rfl, rfl, rfl, by omega⟩

/-- C8 (amended): auxiliaries are assigned top-down in *pre-order* —
each `And`/`Or` node receives `z_<c+1>` for the counter value `c` at the
moment the node is visited, its left child (when non-leaf) receives
`z_<c+2>`, its right child (when non-leaf) a `z_<k>` with `c + 2 ≤ k`,
so every non-leaf child is numbered *higher* than its parent; and the
unit clause asserting the top-level variable is appended last. -/
theorem C8_tseytin_numbering :
    (∀ (f : Formula) (st : TseytinState) (n : String) (st2 : TseytinState),
      isComplexF f = true → processFormula f st = some (n, st2) →
        n = zVarName (st.z_counter + 1)) ∧
    (∀ (l r : Formula) (st : TseytinState) (n : String) (st2 : TseytinState),
      processFormula (Formula.and l r) st = some (n, st2) ∨
        processFormula (Formula.or l r) st = some (n, st2) →
      ∃ lv stl rv str2,
        processFormula l { st with z_counter := st.z_counter + 1 } = some (lv, stl) ∧
        processFormula r stl = some (rv, str2) ∧
        (isComplexF l = true → lv = zVarName (st.z_counter + 2)) ∧
        (isComplexF r = true →
          ∃ k, rv = zVarName k ∧ st.z_counter + 2 ≤ k)) ∧
    (∀ (fuel : Nat) (f nnf : Formula) (mainVar : String) (biconds : List Formula)
        (cnf : CNFFormula),
      toNnfF fuel f = some nnf →
      extractBiconditionals nnf = some (mainVar, biconds) →
      toCnfTseytinF fuel f = some cnf →
      cnf.clauses.getLast? = some ⟨[⟨mainVar, false⟩]⟩) := by
  refine ⟨?_, ?_, ?_⟩
  · intro f st n st2 hc h
    exact (processFormula_complex_name hc h).1
  · intro l r st n st2 h
    have key :
        ∃ lv stl rv str2,
          processFormula l { st with z_counter := st.z_counter + 1 } = some (lv, stl) ∧
          processFormula r stl = some (rv, str2) := by
      rcases h with h | h
      · rcases processFormula_and_elim h with ⟨lv, stl, rv, str2, hl, hr, -, -⟩
        exact ⟨lv, stl, rv, str2, hl, hr⟩
      · rcases processFormula_or_elim h with ⟨lv, stl, rv, str2, hl, hr, -, -⟩
        exact ⟨lv, stl, rv, str2, hl, hr⟩
    rcases key with ⟨lv, stl, rv, str2, hl, hr⟩
    refine ⟨lv, stl, rv, str2, hl, hr, ?_, ?_⟩
    · intro hcl
      exact (processFormula_complex_name hcl hl).1
    · intro hcr
      refine ⟨stl.z_counter + 1, (processFormula_complex_name hcr hr).1, ?_⟩
      have := processFormula_counter_mono _ _ _ _ hl
      simp only at this
      omega
  · intro fuel f nnf mainVar biconds cnf hnnf hex h
    simp only [toCnfTseytinF, hnnf, hex] at h
    rcases hcol : collectTseytinClauses fuel biconds with - | cls <;> rw [hcol] at h
    · exact absurd h (by simp)
    · simp only [Option.some.injEq] at h
      rw [← h]
      simp only
      rw [List.getLast?_concat]

/-- C9 (amended): `_push_negations_not` maps `¬¬A` to
`push_negations_inward(A)`, so `push_negations_inward(¬¬A) =
push_negations_inward(A)` for every formula `A` (equality with `A` itself
holds only when `A` is already in negation normal form). -/
theorem C9_push_double_negation :
    ∀ A : Formula, pushNegations (Formula.not (Formula.not A)) = pushNegations A := by
  intro A
  show pushNegationsF (fsize A + 1 + 1) (Formula.not (Formula.not A)) = _
  simp only [pushNegationsF]
  exact pushNegationsF_stable (fsize A) A (fsize A + 1) (fsize A) le_rfl
    (by omega) le_rfl

/-- On every `UNSAT` return, `_dpll` leaves the `self.assignment` field
exactly as it received it: the field is written only at the satisfied
leaf. -/
theorem dpllF_unsat_field :
    ∀ (fuel : Nat) (cls : List Clause) (order : List String) (field a : PAssign)
      (fld : PAssign),
      dpllF fuel cls order field a = some (DpllRes.UNSAT, fld) → fld = field := by
  intro fuel
  induction fuel with
  | zero => intro cls order field a fld h; exact absurd h (by simp [dpllF])
  | succ fuel ih =>
    intro cls order field a fld h
    simp only [dpllF] at h
    cases hup : unitPropagationF (numUnassigned cls a + 1) cls a with
    | none => rw [hup] at h; exact absurd h (by simp)
    | some o =>
      rw [hup] at h
      cases o with
      | none =>
        simp only [Option.some.injEq, Prod.mk.injEq] at h
        exact h.2.symm
      | some a1 =>
        simp only at h
        by_cases hall :
            allClausesSatisfied (pureLiteralElimination a1 cls) cls = true
        · rw [if_pos hall] at h
          simp only [Option.some.injEq, Prod.mk.injEq] at h
          exact absurd h.1 (by simp)
        · rw [if_neg hall] at h
          cases hch : chooseVariable order (pureLiteralElimination a1 cls) with
          | none =>
            simp only [hch, Option.some.injEq, Prod.mk.injEq] at h
            exact absurd h.1 (by simp)
          | some v =>
            cases hpos : dpllF fuel cls order field
                (updateA (pureLiteralElimination a1 cls) v true) with
            | none => simp [hch, hpos] at h
            | some p =>
              obtain ⟨r1, field1⟩ := p
              cases r1 with
              | SAT => simp [hch, hpos] at h
              | ERR => simp [hch, hpos] at h
              | UNSAT =>
                simp only [hch, hpos] at h
                have h1 := ih cls order field1 _ fld h
                have h2 := ih cls order field _ field1 hpos
                rw [h1, h2]

/-- C10 (confirmed): if `DPLLSolver.solve()` returns `UNSAT`, the
solver's public `assignment` field is still the empty map it was
initialised with — the field is only written on the SAT path. -/
theorem C10_dpll_unsat_assignment_empty :
    ∀ (cnf : CNFFormula) (order : List String) (fuel : Nat) (fld : PAssign),
      dpllSolveF cnf order fuel = some (DpllRes.UNSAT, fld) → fld = emptyAssign := by
  intro cnf order fuel fld h
  exact dpllF_unsat_field fuel cnf.clauses order emptyAssign emptyAssign fld h

/-- C10 witness: on `(p) ∧ (¬p)` the solver returns `UNSAT` and the
exposed assignment is the empty map. -/
theorem C10_dpll_unsat_assignment_empty_witness :
    dpllSolveF cnfPnp ["p"] 2 = some (DpllRes.UNSAT, emptyAssign) ∧
      emptyAssign = emptyAssign :=
  ⟨rfl, C10_dpll_unsat_assignment_empty cnfPnp ["p"] 2 emptyAssign rfl⟩

/-- `eliminate_implications` preserves the truth value. -/
theorem eval_eliminateImplications (σ : String → Bool) :
    ∀ F : Formula, evalFormula σ (eliminateImplications F) = evalFormula σ F := by
  intro F
  induction F with
  | var n => rfl
  | not f ih => simp [eliminateImplications, evalFormula, ih]
  | and l r ihl ihr => simp [eliminateImplications, evalFormula, ihl, ihr]
  | or l r ihl ihr => simp [eliminateImplications, evalFormula, ihl, ihr]
  | implies l r ihl ihr => simp [eliminateImplications, evalFormula, ihl, ihr]
  | biconditional l r ihl ihr =>
    simp only [eliminateImplications, evalFormula, ihl, ihr]
    cases evalFormula σ l <;> cases evalFormula σ r <;> rfl

/-- `push_negations_inward` preserves the truth value. -/
theorem eval_pushNegationsF (σ : String → Bool) :
    ∀ (fuel : Nat) (F G : Formula),
      pushNegationsF fuel F = some G → evalFormula σ G = evalFormula σ F := by
  intro fuel
  induction fuel with
  | zero => intro F G h; exact absurd h (by simp [pushNegationsF])
  | succ fuel ih =>
    intro F G h
    cases F with
    | var n =>
      simp only [pushNegationsF, Option.some.injEq] at h
      rw [← h]
    | and l r =>
      simp only [pushNegationsF] at h
      cases hl : pushNegationsF fuel l with
      | none => simp [hl] at h
      | some l2 =>
        cases hr : pushNegationsF fuel r with
        | none => simp [hl, hr] at h
        | some r2 =>
          simp only [hl, hr, Option.some.injEq] at h
          rw [← h]
          simp [evalFormula, ih l l2 hl, ih r r2 hr]
    | or l r =>
      simp only [pushNegationsF] at h
      cases hl : pushNegationsF fuel l with
      | none => simp [hl] at h
      | some l2 =>
        cases hr : pushNegationsF fuel r with
        | none => simp [hl, hr] at h
        | some r2 =>
          simp only [hl, hr, Option.some.injEq] at h
          rw [← h]
          simp [evalFormula, ih l l2 hl, ih r r2 hr]
    | implies l r => exact absurd h (by simp [pushNegationsF])
    | biconditional l r => exact absurd h (by simp [pushNegationsF])
    | not x =>
      cases x with
      | var n =>
        simp only [pushNegationsF, Option.some.injEq] at h
        rw [← h]
      | not y =>
        have := ih y G h
        simp only [evalFormula, Bool.not_not, this]
      | and l r =>
        simp only [pushNegationsF] at h
        cases hl : pushNegationsF fuel (.not l) with
        | none => simp [hl] at h
        | some l2 =>
          cases hr : pushNegationsF fuel (.not r) with
          | none => simp [hl, hr] at h
          | some r2 =>
            simp only [hl, hr, Option.some.injEq] at h
            rw [← h]
            have h1 := ih _ _ hl
            have h2 := ih _ _ hr
            simp only [evalFormula] at h1 h2 ⊢
            rw [h1, h2]
            cases evalFormula σ l <;> cases evalFormula σ r <;> rfl
      | or l r =>
        simp only [pushNegationsF] at h
        cases hl : pushNegationsF fuel (.not l) with
        | none => simp [hl] at h
        | some l2 =>
          cases hr : pushNegationsF fuel (.not r) with
          | none => simp [hl, hr] at h
          | some r2 =>
            simp only [hl, hr, Option.some.injEq] at h
            rw [← h]
            have h1 := ih _ _ hl
            have h2 := ih _ _ hr
            simp only [evalFormula] at h1 h2 ⊢
            rw [h1, h2]
            cases evalFormula σ l <;> cases evalFormula σ r <;> rfl
      | implies l r => exact absurd h (by simp [pushNegationsF])
      | biconditional l r => exact absurd h (by simp [pushNegationsF])

/-- `distribute_or_over_and` preserves the truth value. -/
theorem eval_distributeF (σ : String → Bool) :
    ∀ (fuel : Nat) (F G : Formula),
      distributeF fuel F = some G → evalFormula σ G = evalFormula σ F := by
  intro fuel
  induction fuel with
  | zero => intro F G h; exact absurd h (by simp [distributeF])
  | succ fuel ih =>
    intro F G h
    cases F with
    | var n =>
      simp only [distributeF, Option.some.injEq] at h
      rw [← h]
    | not x =>
      simp only [distributeF] at h
      cases hx : distributeF fuel x with
      | none => simp [hx] at h
      | some x2 =>
        simp only [hx, Option.some.injEq] at h
        rw [← h]
        simp [evalFormula, ih x x2 hx]
    | and l r =>
      simp only [distributeF] at h
      cases hl : distributeF fuel l with
      | none => simp [hl] at h
      | some l2 =>
        cases hr : distributeF fuel r with
        | none => simp [hl, hr] at h
        | some r2 =>
          simp only [hl, hr, Option.some.injEq] at h
          rw [← h]
          simp [evalFormula, ih l l2 hl, ih r r2 hr]
    | implies l r => exact absurd h (by simp [distributeF])
    | biconditional l r => exact absurd h (by simp [distributeF])
    | or l r =>
      simp only [distributeF] at h
      cases hl : distributeF fuel l with
      | none => simp [hl] at h
      | some l2 =>
        cases hr : distributeF fuel r with
        | none => simp [hl, hr] at h
        | some r2 =>
          simp only [hl, hr] at h
          split at h
          next a b =>
            split at h
            next x y hx hy =>
              injection h with h
              rw [← h]
              have h1 := ih _ _ hx
              have h2 := ih _ _ hy
              have h3 := ih _ _ hl
              have h4 := ih _ _ hr
              simp only [evalFormula] at h1 h2 h3 h4 ⊢
              rw [h1, h2, ← h3, ← h4]
              cases evalFormula σ l2 <;> cases evalFormula σ a <;>
                cases evalFormula σ b <;> rfl
            next hno => simp at h
          next hne =>
            split at h
            next a b =>
              split at h
              next x y hx hy =>
                injection h with h
                rw [← h]
                have h1 := ih _ _ hx
                have h2 := ih _ _ hy
                have h3 := ih _ _ hl
                have h4 := ih _ _ hr
                simp only [evalFormula] at h1 h2 h3 h4 ⊢
                rw [h1, h2, ← h3, ← h4]
                cases evalFormula σ a <;> cases evalFormula σ b <;>
                  cases evalFormula σ r2 <;> rfl
              next hno => simp at h
            next hne2 =>
              injection h with h
              rw [← h]
              simp [evalFormula, ih l l2 hl, ih r r2 hr]

/-- A formula accepted by `formula_to_literal` evaluates like the
produced literal. -/
theorem formulaToLiteral_eval (σ : String → Bool) (f : Formula) (lit : Literal)
    (h : formulaToLiteral f = some lit) : evalFormula σ f = litEvalB σ lit := by
  cases f with
  | var n =>
    simp only [formulaToLiteral, Option.some.injEq] at h
    rw [← h]
    rfl
  | not x =>
    cases x with
    | var n =>
      simp only [formulaToLiteral, Option.some.injEq] at h
      rw [← h]
      rfl
    | not y => exact absurd h (by simp [formulaToLiteral])
    | and l r => exact absurd h (by simp [formulaToLiteral])
    | or l r => exact absurd h (by simp [formulaToLiteral])
    | implies l r => exact absurd h (by simp [formulaToLiteral])
    | biconditional l r => exact absurd h (by simp [formulaToLiteral])
  | and l r => exact absurd h (by simp [formulaToLiteral])
  | or l r => exact absurd h (by simp [formulaToLiteral])
  | implies l r => exact absurd h (by simp [formulaToLiteral])
  | biconditional l r => exact absurd h (by simp [formulaToLiteral])

/-- The stack loop of `extract_literals_from_or` computes the
disjunction of the accumulated literals and the stacked formulas. -/
theorem extractLitsAux_eval (σ : String → Bool) :
    ∀ (fuel : Nat) (stack : List Formula) (acc lits : List Literal),
      extractLitsAux fuel stack acc = some lits →
      lits.any (litEvalB σ) =
        (acc.any (litEvalB σ) ||
          stack.foldr (fun f b => evalFormula σ f || b) false) := by
  intro fuel
  induction fuel with
  | zero => intro stack acc lits h; exact absurd h (by simp [extractLitsAux])
  | succ fuel ih =>
    intro stack acc lits h
    cases stack with
    | nil =>
      simp only [extractLitsAux, Option.some.injEq] at h
      rw [← h]
      simp
    | cons cur stack =>
      by_cases hlit : isLiteralF cur = true
      · simp only [extractLitsAux, if_pos hlit] at h
        cases hfl : formulaToLiteral cur with
        | none =>
          rw [hfl] at h
          exact absurd h (by simp)
        | some lit =>
          rw [hfl] at h
          have := ih stack (acc ++ [lit]) lits h
          rw [this]
          simp only [List.foldr_cons, List.any_append, List.any_cons,
            List.any_nil, Bool.or_false]
          rw [formulaToLiteral_eval σ cur lit hfl]
          simp [Bool.or_assoc]
      · simp only [extractLitsAux, if_neg hlit] at h
        cases cur with
        | or l r =>
          have := ih (l :: r :: stack) acc lits h
          rw [this]
          simp only [List.foldr_cons, evalFormula]
          simp [Bool.or_assoc]
        | var n => simp [isLiteralF] at hlit
        | not x => exact absurd h (by simp)
        | and l r => exact absurd h (by simp)
        | implies l r => exact absurd h (by simp)
        | biconditional l r => exact absurd h (by simp)

/-- `formula_to_cnf_format` produces a CNF with the same truth value as
the (CNF-structured) formula. -/
theorem formulaToCnfFormat_eval (σ : String → Bool) :
    ∀ (G : Formula) (cnf : CNFFormula),
      formulaToCnfFormat G = some cnf → cnfEvalB σ cnf = evalFormula σ G := by
  intro G
  induction G with
  | var n =>
    intro cnf h
    simp only [formulaToCnfFormat, Option.some.injEq] at h
    rw [← h]
    simp [cnfEvalB, clauseEvalB, litEvalB, evalFormula]
  | not x ih =>
    intro cnf h
    cases x with
    | var n =>
      simp only [formulaToCnfFormat, Option.some.injEq] at h
      rw [← h]
      simp [cnfEvalB, clauseEvalB, litEvalB, evalFormula]
    | not y => exact absurd h (by simp [formulaToCnfFormat])
    | and l r => exact absurd h (by simp [formulaToCnfFormat])
    | or l r => exact absurd h (by simp [formulaToCnfFormat])
    | implies l r => exact absurd h (by simp [formulaToCnfFormat])
    | biconditional l r => exact absurd h (by simp [formulaToCnfFormat])
  | or l r ihl ihr =>
    intro cnf h
    simp only [formulaToCnfFormat] at h
    cases hex : extractLiteralsFromOr (.or l r) with
    | none => rw [hex] at h; exact absurd h (by simp)
    | some lits =>
      rw [hex] at h
      injection h with h
      rw [← h]
      have := extractLitsAux_eval σ (2 * fsize (.or l r) + 2) [.or l r] [] lits hex
      simp only [List.any_nil, List.foldr, Bool.false_or, Bool.or_false] at this
      simp [cnfEvalB, clauseEvalB, this]
  | and l r ihl ihr =>
    intro cnf h
    simp only [formulaToCnfFormat] at h
    cases hcl : formulaToCnfFormat l with
    | none => rw [hcl] at h; exact absurd h (by simp)
    | some c1 =>
      cases hcr : formulaToCnfFormat r with
      | none => rw [hcl, hcr] at h; exact absurd h (by simp)
      | some c2 =>
        rw [hcl, hcr] at h
        injection h with h
        rw [← h]
        have h1 := ihl c1 hcl
        have h2 := ihr c2 hcr
        simp only [cnfEvalB] at h1 h2 ⊢
        simp [List.all_append, h1, h2, evalFormula]
  | implies l r ihl ihr =>
    intro cnf h
    exact absurd h (by simp [formulaToCnfFormat])
  | biconditional l r ihl ihr =>
    intro cnf h
    exact absurd h (by simp [formulaToCnfFormat])

/-- C2 (confirmed): whenever the classical conversion `to_cnf` computes
a `CNFFormula` (any fuel), the result has the same truth value as the
input formula under every total assignment. -/
theorem C2_classical_cnf_eval :
    ∀ (F : Formula) (σ : String → Bool) (fuel : Nat) (cnf : CNFFormula),
      toCnfF fuel F = some cnf → evalFormula σ F = cnfEvalB σ cnf := by
  intro F σ fuel cnf h
  simp only [toCnfF, toNnfF] at h
  cases hnnf : pushNegationsF fuel (eliminateImplications F) with
  | none => simp [hnnf] at h
  | some nnf =>
    simp only [hnnf] at h
    cases hd : distributeF fuel nnf with
    | none => simp [hd] at h
    | some d =>
      simp only [hd] at h
      rw [formulaToCnfFormat_eval σ d cnf h, eval_distributeF σ fuel nnf d hd,
        eval_pushNegationsF σ fuel _ nnf hnnf, eval_eliminateImplications]

/-- C2 witness: `to_cnf(p → q) = (¬p ∨ q)`, equal in truth value at the
all-true assignment. -/
theorem C2_classical_cnf_eval_witness :
    toCnfF 10 (Formula.implies (.var "p") (.var "q")) =
        some ⟨[⟨[⟨"p", true⟩, ⟨"q", false⟩]⟩]⟩ ∧
      evalFormula (fun _ => true) (Formula.implies (.var "p") (.var "q")) =
        cnfEvalB (fun _ => true) ⟨[⟨[⟨"p", true⟩, ⟨"q", false⟩]⟩]⟩ :=
  ⟨rfl, C2_classical_cnf_eval (Formula.implies (.var "p") (.var "q"))
    (fun _ => true) 10 ⟨[⟨[⟨"p", true⟩, ⟨"q", false⟩]⟩]⟩ rfl⟩

/-- C3 (code bug): the Tseytin auxiliaries are not fresh.  `formulaC3 =
(p ∨ q) ∧ ¬z_2` is satisfiable, but because `to_cnf_tseytin` names its
second auxiliary `z_2` — colliding with the input variable `z_2` — the
produced CNF is unsatisfiable, contradicting equisatisfiability (and
the specification's "fresh names must never collide with input
variable names"). -/
theorem C3_tseytin_collision_bug :
    evalFormula sigmaC3 formulaC3 = true ∧
      toCnfTseytinF 30 formulaC3 = some cnfC3 ∧
      (∀ σ : String → Bool, ¬ CNFSat σ cnfC3.clauses) := by
  refine ⟨by decide, by decide, ?_⟩
  intro σ hsat
  have h7 : σ "z_1" = true := by
    have h := hsat ⟨[⟨"z_1", false⟩]⟩ (by decide)
    rcases h with ⟨l, hl, hv⟩
    simp only [List.mem_singleton] at hl
    rw [hl] at hv
    simpa using hv
  have h4 := hsat ⟨[⟨"z_1", true⟩, ⟨"z_2", false⟩]⟩ (by decide)
  have h5 := hsat ⟨[⟨"z_1", true⟩, ⟨"z_2", true⟩]⟩ (by decide)
  rcases h4 with ⟨l4, hl4, hv4⟩
  rcases h5 with ⟨l5, hl5, hv5⟩
  simp only [List.mem_cons, List.not_mem_nil, or_false] at hl4 hl5
  rcases hl4 with rfl | rfl
  · rw [h7] at hv4
    exact absurd hv4 (by simp)
  · rcases hl5 with rfl | rfl
    · rw [h7] at hv5
      exact absurd hv5 (by simp)
    · rw [hv4] at hv5
      exact absurd hv5 (by simp)

theorem passC_npnp_noprog (st : CDCLState) (hp : st.assignment "p" = none) :
    ∀ cls, (∀ c ∈ cls, c = clauseNPNP) →
      propagatePassC st cls = (st, none, false) := by
  intro cls hall
  induction cls with
  | nil => rfl
  | cons c cs ih =>
    have hc : c = clauseNPNP := hall c (List.mem_cons_self c cs)
    subst hc
    have he : evaluateClause st.assignment clauseNPNP = none := by
      simp [evaluateClause, clauseNPNP, evaluateClauseAux, hp]
    have hu : unassignedLits st.assignment clauseNPNP =
        [⟨"p", true⟩, ⟨"p", true⟩] := by
      simp [unassignedLits, clauseNPNP, hp]
    simp only [propagatePassC, he, hu]
    exact ih (fun c2 hcm => hall c2 (List.mem_cons_of_mem _ hcm))

theorem passC_npnp_conflict (st : CDCLState) (hp : st.assignment "p" = some true)
    (cs : List Clause) :
    propagatePassC st (clauseNPNP :: cs) = (st, some clauseNPNP, false) := by
  have he : evaluateClause st.assignment clauseNPNP = some false := by
    simp [evaluateClause, clauseNPNP, evaluateClauseAux, hp]
  simp [propagatePassC, he]

theorem cdclLoop_step0 (st : CDCLState) (h : Stuck0 st) (fuel : Nat) :
    cdclLoopF (fuel + 1) [clauseNPNP] st =
      cdclLoopF fuel [clauseNPNP] (makeDecision st "p" true) := by
  obtain ⟨hp, hstack, hlvl, hlearn⟩ := h
  have hall : ∀ c ∈ clauseNPNP :: st.learnedClauses, c = clauseNPNP := by
    intro c hc
    rcases List.mem_cons.mp hc with hc | hc
    · exact hc
    · exact hlearn c hc
  have hpass := passC_npnp_noprog st hp _ hall
  have hchoose : chooseVariableC [clauseNPNP] st = some "p" := by
    simp [chooseVariableC, clauseNPNP, hp]
  simp only [cdclLoopF, unitPropagationC, List.singleton_append, hpass,
    makeNextDecision, hchoose]
  rw [if_neg (by simp : ¬ false = true)]
  simp only [hchoose]

theorem cdclLoop_step1 (st : CDCLState) (h : Stuck1 st) (fuel : Nat) :
    ∃ st3, cdclLoopF (fuel + 1) [clauseNPNP] st = cdclLoopF fuel [clauseNPNP] st3 ∧
      Stuck0 st3 := by
  obtain ⟨hp, hlvl, hstack, hgraph, hlearn⟩ := h
  have hpass := passC_npnp_conflict st hp st.learnedClauses
  have hcur : isVariableAtCurrentLevel st "p" = true := by
    simp [isVariableAtCurrentLevel, hgraph, hlvl]
  have hidx : findVariableAssignmentIndex st "p" = 0 := by
    simp [findVariableAssignmentIndex, hstack, hlvl]
  have hana : analyzeConflictF (st.decisionStack.length + 1) st clauseNPNP =
      some clauseNPNP := by
    rw [hstack]
    simp only [List.length_singleton]
    simp [analyzeConflictF, hlvl, analyzeConflictLoop, isFirstUIP,
      countCurrentLevelVariables, clauseNPNP, hcur,
      findMostRecentCurrentLevelVariable, maxByKey, hidx, hgraph]
  have hbj : backjump ⟨st.assignment, st.decisionStack,
      st.learnedClauses ++ [clauseNPNP], 1, st.implicationGraph⟩ clauseNPNP = 0 := by
    simp [backjump, clauseNPNP, hgraph]
  have hbt : backtrackToLevel ⟨st.assignment, st.decisionStack,
      st.learnedClauses ++ [clauseNPNP], 1, st.implicationGraph⟩ 0 =
      ⟨eraseA st.assignment "p", [], st.learnedClauses ++ [clauseNPNP], 0,
        eraseG st.implicationGraph "p"⟩ := by
    simp [backtrackToLevel, backtrackToLevelAux, removeCurrentLevelAssignments,
      hstack, removeCurrentLevelAux]
  refine ⟨⟨eraseA st.assignment "p", [], st.learnedClauses ++ [clauseNPNP], 0,
    eraseG st.implicationGraph "p"⟩, ?_, ?_, rfl, rfl, ?_⟩
  · simp only [cdclLoopF, unitPropagationC, List.singleton_append, hpass,
      handleConflictF, hana, hlvl]
    rw [if_neg (by omega : ¬ (1 : Nat) = 0), hbj, hbt]
  · simp [eraseA]
  · intro c hc
    rcases List.mem_append.mp hc with hc | hc
    · exact hlearn c hc
    · simpa using hc

/-- On the duplicate-literal input `(¬p ∨ ¬p)` the CDCL loop never
returns, whatever the fuel: the clause is never unit (its two unassigned
literal occurrences defeat the `len == 1` test), the decision is always
`p ↦ true`, the resulting conflict cannot be resolved (the pivot is the
decision itself), and the same clause is relearned forever. -/
theorem cdclLoopF_npnp_none :
    ∀ (fuel : Nat) (st : CDCLState),
      (Stuck0 st → cdclLoopF fuel [clauseNPNP] st = none) ∧
      (Stuck1 st → cdclLoopF fuel [clauseNPNP] st = none) := by
  intro fuel
  induction fuel with
  | zero => exact fun st => ⟨fun _ => rfl, fun _ => rfl⟩
  | succ fuel ih =>
    intro st
    constructor
    · intro h0
      rw [cdclLoop_step0 st h0 fuel]
      refine (ih _).2 ?_
      obtain ⟨hp, hstack, hlvl, hlearn⟩ := h0
      refine ⟨by simp [makeDecision, updateA], by simp [makeDecision, hlvl], ?_, ?_, ?_⟩
      · simp [makeDecision, hstack, hlvl]
      · simp [makeDecision, updateG, hlvl]
      · simpa [makeDecision] using hlearn
    · intro h1
      rcases cdclLoop_step1 st h1 fuel with ⟨st3, hstep, h0⟩
      rw [hstep]
      exact (ih st3).1 h0

/-- C5 (code bug): `CDCLSolver.solve` does not terminate on the finite
CNF `(¬p ∨ ¬p)` — the loop model returns no result for any fuel. -/
theorem C5_cdcl_nonterminating :
    ∀ fuel : Nat, cdclSolveF cnfNPNP fuel = none := by
  intro fuel
  have h0 : Stuck0 initCDCLState :=
    ⟨rfl, rfl, rfl, fun c hc => absurd hc (List.not_mem_nil c)⟩
  exact (cdclLoopF_npnp_none fuel initCDCLState).1 h0

/-- C4 (code bug): on `(¬p ∨ ¬p)` DPLL returns SAT (with `p ↦ false`)
while CDCL never returns, so the two engines do not return the same
decision on every input. -/
theorem C4_dpll_cdcl_divergence :
    (dpllSolveF cnfNPNP ["p"] 2).map Prod.fst = some DpllRes.SAT ∧
      (dpllSolveF cnfNPNP ["p"] 2).map (fun x => x.2 "p") = some (some false) ∧
      ∀ fuel : Nat, cdclSolveF cnfNPNP fuel = none := by
  refine ⟨rfl, rfl, ?_⟩
  intro fuel
  have h0 : Stuck0 initCDCLState :=
    ⟨rfl, rfl, rfl, fun c hc => absurd hc (List.not_mem_nil c)⟩
  exact (cdclLoopF_npnp_none fuel initCDCLState).1 h0

theorem mem_varsOfClauses {v : String} {cls : List Clause} :
    v ∈ varsOfClauses cls ↔ ∃ c ∈ cls, ∃ l ∈ c.literals, l.var = v := by
  rw [varsOfClauses, List.mem_dedup]
  induction cls with
  | nil => simp
  | cons c cs ih =>
    simp only [List.foldr_cons, List.mem_append, ih, List.mem_cons, List.mem_map]
    constructor
    · rintro (⟨l, hl, rfl⟩ | ⟨c2, hc2, hrest⟩)
      · exact ⟨c, Or.inl rfl, l, hl, rfl⟩
      · exact ⟨c2, Or.inr hc2, hrest⟩
    · rintro ⟨c2, hc2 | hc2, l, hl, rfl⟩
      · exact Or.inl ⟨l, by rw [hc2] at hl; exact hl, rfl⟩
      · exact Or.inr ⟨c2, hc2, l, hl, rfl⟩

theorem unassignedLits_singleton {a : PAssign} {c : Clause} {l : Literal}
    (h : unassignedLits a c = [l]) :
    l ∈ c.literals ∧ a l.var = none ∧
      ∀ l2 ∈ c.literals, a l2.var = none → l2 = l := by
  have hl : l ∈ unassignedLits a c := by rw [h]; exact List.mem_singleton.mpr rfl
  rcases List.mem_filter.mp hl with ⟨hmem, hpred⟩
  refine ⟨hmem, Option.isNone_iff_eq_none.mp (by simpa using hpred), ?_⟩
  intro l2 hl2 hl2n
  have : l2 ∈ unassignedLits a c :=
    List.mem_filter.mpr ⟨hl2, by simp [hl2n]⟩
  rw [h] at this
  exact List.mem_singleton.mp this

/-- One propagation scan only adds assignments, and a scan that reports
progress has assigned a previously unassigned variable of the scanned
clauses. -/
theorem propagatePass_extends :
    ∀ (cls : List Clause) (a a2 : PAssign) (prog : Bool),
      propagatePass a cls = some (a2, prog) →
      Extends a a2 ∧
        (prog = true →
          ∃ v, a v = none ∧ (∃ b, a2 v = some b) ∧ v ∈ varsOfClauses cls) := by
  intro cls
  induction cls with
  | nil =>
    intro a a2 prog h
    simp only [propagatePass, Option.some.injEq, Prod.mk.injEq] at h
    refine ⟨?_, ?_⟩
    · rw [← h.1]; exact fun v b hv => hv
    · intro hp; rw [← h.2] at hp; exact absurd hp (by simp)
  | cons c cs ih =>
    intro a a2 prog h
    simp only [propagatePass] at h
    cases he : evaluateClause a c with
    | some v =>
      cases v with
      | false => simp only [he] at h; exact absurd h (by simp)
      | true =>
        simp only [he] at h
        rcases ih a a2 prog h with ⟨hext, hprog⟩
        refine ⟨hext, fun hp => ?_⟩
        rcases hprog hp with ⟨w, hw1, hw2, hw3⟩
        exact ⟨w, hw1, hw2, by
          rw [mem_varsOfClauses] at hw3 ⊢
          rcases hw3 with ⟨c2, hc2, hrest⟩
          exact ⟨c2, List.mem_cons_of_mem c hc2, hrest⟩⟩
    | none =>
      simp only [he] at h
      cases hu : unassignedLits a c with
      | nil =>
        simp only [hu] at h
        rcases ih a a2 prog h with ⟨hext, hprog⟩
        refine ⟨hext, fun hp => ?_⟩
        rcases hprog hp with ⟨w, hw1, hw2, hw3⟩
        exact ⟨w, hw1, hw2, by
          rw [mem_varsOfClauses] at hw3 ⊢
          rcases hw3 with ⟨c2, hc2, hrest⟩
          exact ⟨c2, List.mem_cons_of_mem c hc2, hrest⟩⟩
      | cons l rest =>
        cases rest with
        | nil =>
          simp only [hu] at h
          rcases unassignedLits_singleton hu with ⟨hlmem, hlnone, -⟩
          cases hrec : propagatePass (updateA a l.var (!l.negated)) cs with
          | none => simp only [hrec] at h; exact absurd h (by simp)
          | some p =>
            obtain ⟨a3, prog3⟩ := p
            simp only [hrec] at h
            simp only [Option.some.injEq, Prod.mk.injEq] at h
            rcases ih _ _ _ hrec with ⟨hext, -⟩
            have hstep : Extends a (updateA a l.var (!l.negated)) := by
              intro w b hw
              by_cases hwv : w = l.var
              · rw [hwv] at hw; rw [hw] at hlnone; exact absurd hlnone (by simp)
              · simp [updateA, hwv, hw]
            refine ⟨?_, ?_⟩
            · rw [← h.1]
              exact fun w b hw => hext w b (hstep w b hw)
            · intro _
              refine ⟨l.var, hlnone, ⟨!l.negated, ?_⟩, ?_⟩
              · rw [← h.1]
                exact hext l.var (!l.negated) (by simp [updateA])
              · exact mem_varsOfClauses.mpr ⟨c, List.mem_cons_self c cs, l, hlmem, rfl⟩
        | cons l2 rest2 =>
          simp only [hu] at h
          rcases ih a a2 prog h with ⟨hext, hprog⟩
          refine ⟨hext, fun hp => ?_⟩
          rcases hprog hp with ⟨w, hw1, hw2, hw3⟩
          exact ⟨w, hw1, hw2, by
            rw [mem_varsOfClauses] at hw3 ⊢
            rcases hw3 with ⟨c2, hc2, hrest⟩
            exact ⟨c2, List.mem_cons_of_mem c hc2, hrest⟩⟩

/-- A propagation scan that finds neither a conflict nor a unit clause
leaves the assignment unchanged, and no scanned clause is false. -/
theorem propagatePass_stable :
    ∀ (cls : List Clause) (a a2 : PAssign),
      propagatePass a cls = some (a2, false) →
      a2 = a ∧ ∀ c ∈ cls, evaluateClause a c ≠ some false := by
  intro cls
  induction cls with
  | nil =>
    intro a a2 h
    simp only [propagatePass, Option.some.injEq, Prod.mk.injEq] at h
    exact ⟨h.1.symm, by simp⟩
  | cons c cs ih =>
    intro a a2 h
    simp only [propagatePass] at h
    cases he : evaluateClause a c with
    | some v =>
      cases v with
      | false => simp only [he] at h; exact absurd h (by simp)
      | true =>
        simp only [he] at h
        rcases ih a a2 h with ⟨ha, hrest⟩
        refine ⟨ha, ?_⟩
        intro c2 hc2
        rcases List.mem_cons.mp hc2 with rfl | hc2
        · rw [he]; simp
        · exact hrest c2 hc2
    | none =>
      simp only [he] at h
      cases hu : unassignedLits a c with
      | nil =>
        simp only [hu] at h
        rcases ih a a2 h with ⟨ha, hrest⟩
        refine ⟨ha, ?_⟩
        intro c2 hc2
        rcases List.mem_cons.mp hc2 with rfl | hc2
        · rw [he]; simp
        · exact hrest c2 hc2
      | cons l rest =>
        cases rest with
        | nil =>
          simp only [hu] at h
          cases hrec : propagatePass (updateA a l.var (!l.negated)) cs with
          | none => simp only [hrec] at h; exact absurd h (by simp)
          | some p =>
            obtain ⟨a3, prog3⟩ := p
            simp only [hrec] at h
            simp only [Option.some.injEq, Prod.mk.injEq] at h
            exact absurd h.2 (by simp)
        | cons l2 rest2 =>
          simp only [hu] at h
          rcases ih a a2 h with ⟨ha, hrest⟩
          refine ⟨ha, ?_⟩
          intro c2 hc2
          rcases List.mem_cons.mp hc2 with rfl | hc2
          · rw [he]; simp
          · exact hrest c2 hc2

/-- Under a total model of the scanned clauses agreeing with the current
assignment, a propagation scan cannot find a conflict, and the model
still agrees with the extended assignment. -/
theorem propagatePass_model {σ : String → Bool} :
    ∀ (cls : List Clause) (a : PAssign), (∀ c ∈ cls, ClauseSat σ c) →
      Agrees σ a →
      ∃ a2 prog, propagatePass a cls = some (a2, prog) ∧ Agrees σ a2 := by
  intro cls
  induction cls with
  | nil => exact fun a _ hag => ⟨a, false, rfl, hag⟩
  | cons c cs ih =>
    intro a hσ hag
    have hσc : ClauseSat σ c := hσ c (List.mem_cons_self c cs)
    have hσcs : ∀ c2 ∈ cs, ClauseSat σ c2 :=
      fun c2 hc2 => hσ c2 (List.mem_cons_of_mem c hc2)
    cases he : evaluateClause a c with
    | some v =>
      cases v with
      | false => exact absurd hσc (not_clauseSat_of_eval_false hag he)
      | true =>
        rcases ih a hσcs hag with ⟨a2, prog, hrec, hag2⟩
        exact ⟨a2, prog, by simp only [propagatePass, he, hrec], hag2⟩
    | none =>
      cases hu : unassignedLits a c with
      | nil =>
        rcases ih a hσcs hag with ⟨a2, prog, hrec, hag2⟩
        exact ⟨a2, prog, by simp only [propagatePass, he, hu, hrec], hag2⟩
      | cons l rest =>
        cases rest with
        | nil =>
          rcases unassignedLits_singleton hu with ⟨hlmem, hlnone, huniq⟩
          have hσl : σ l.var = !l.negated := by
            rcases hσc with ⟨l2, hl2, hσl2⟩
            have hnosat : ¬ ClauseSatP a c := by
              intro hs
              have := (evaluateClause_eq_true_iff a c).mpr hs
              rw [this] at he
              exact absurd he (by simp)
            cases hal2 : a l2.var with
            | some w =>
              have hw := hag l2.var w hal2
              rw [hw] at hσl2
              exact absurd ⟨l2, hl2, by rw [hal2, hσl2]⟩ hnosat
            | none =>
              have : l2 = l := huniq l2 hl2 hal2
              rw [← this]
              exact hσl2
          have hagu : Agrees σ (updateA a l.var (!l.negated)) := by
            intro w b hw
            by_cases hwv : w = l.var
            · subst hwv
              have hupd : updateA a l.var (!l.negated) l.var = some (!l.negated) := by
                simp [updateA]
              rw [hupd] at hw
              injection hw with hw
              rw [← hw]
              exact hσl
            · simp only [updateA, if_neg hwv] at hw
              exact hag w b hw
          rcases ih (updateA a l.var (!l.negated)) hσcs hagu with ⟨a2, prog, hrec, hag2⟩
          exact ⟨a2, true, by simp only [propagatePass, he, hu, hrec], hag2⟩
        | cons l2 rest2 =>
          rcases ih a hσcs hag with ⟨a2, prog, hrec, hag2⟩
          exact ⟨a2, prog, by simp only [propagatePass, he, hu, hrec], hag2⟩

theorem unitPropagationF_extends :
    ∀ (fuel : Nat) (cls : List Clause) (a a1 : PAssign),
      unitPropagationF fuel cls a = some (some a1) → Extends a a1 := by
  intro fuel
  induction fuel with
  | zero => intro cls a a1 h; exact absurd h (by simp [unitPropagationF])
  | succ fuel ih =>
    intro cls a a1 h
    simp only [unitPropagationF] at h
    cases hpass : propagatePass a cls with
    | none => simp only [hpass] at h; exact absurd h (by simp)
    | some p =>
      obtain ⟨a2, prog⟩ := p
      rcases propagatePass_extends cls a a2 prog hpass with ⟨hext, -⟩
      cases prog with
      | false =>
        simp only [hpass, Option.some.injEq, Option.some.injEq] at h
        rw [← h]
        exact hext
      | true =>
        simp only [hpass] at h
        exact fun v b hv => ih cls a2 a1 h v b (hext v b hv)

theorem unitPropagationF_noconflict :
    ∀ (fuel : Nat) (cls : List Clause) (a a1 : PAssign),
      unitPropagationF fuel cls a = some (some a1) →
      ∀ c ∈ cls, evaluateClause a1 c ≠ some false := by
  intro fuel
  induction fuel with
  | zero => intro cls a a1 h; exact absurd h (by simp [unitPropagationF])
  | succ fuel ih =>
    intro cls a a1 h
    simp only [unitPropagationF] at h
    cases hpass : propagatePass a cls with
    | none => simp only [hpass] at h; exact absurd h (by simp)
    | some p =>
      obtain ⟨a2, prog⟩ := p
      cases prog with
      | false =>
        simp only [hpass, Option.some.injEq] at h
        rcases propagatePass_stable cls a a2 hpass with ⟨ha, hnofalse⟩
        rw [← h, ha]
        exact hnofalse
      | true =>
        simp only [hpass] at h
        exact ih cls a2 a1 h

theorem unitPropagationF_model {σ : String → Bool} {cls : List Clause}
    (hσ : ∀ c ∈ cls, ClauseSat σ c) :
    ∀ (fuel : Nat) (a : PAssign), Agrees σ a →
      unitPropagationF fuel cls a ≠ some none ∧
        ∀ a1, unitPropagationF fuel cls a = some (some a1) → Agrees σ a1 := by
  intro fuel
  induction fuel with
  | zero =>
    intro a hag
    refine ⟨by simp [unitPropagationF], ?_⟩
    intro a1 h
    exact absurd h (by simp [unitPropagationF])
  | succ fuel ih =>
    intro a hag
    rcases propagatePass_model cls a hσ hag with ⟨a2, prog, hpass, hag2⟩
    cases prog with
    | false =>
      constructor
      · simp [unitPropagationF, hpass]
      · intro a1 h
        simp only [unitPropagationF, hpass, Option.some.injEq] at h
        rw [← h]
        exact hag2
    | true =>
      constructor
      · simp only [unitPropagationF, hpass]
        exact (ih a2 hag2).1
      · intro a1 h
        simp only [unitPropagationF, hpass] at h
        exact (ih a2 hag2).2 a1 h

theorem filterLength_le (p q : String → Bool) :
    ∀ L : List String, (∀ w ∈ L, q w = true → p w = true) →
      (L.filter q).length ≤ (L.filter p).length := by
  intro L
  induction L with
  | nil => intro _; simp
  | cons y ys ih =>
    intro hmono
    have hys := ih (fun w hw => hmono w (List.mem_cons_of_mem y hw))
    cases hqy : q y with
    | true =>
      have hpy := hmono y (List.mem_cons_self y ys) hqy
      simp only [List.filter_cons, hqy, hpy, if_pos, List.length_cons]
      omega
    | false =>
      cases hpy : p y with
      | true =>
        simp only [List.filter_cons, hqy, hpy]
        simp only [Bool.false_eq_true, if_false, if_pos, List.length_cons]
        omega
      | false =>
        simp only [List.filter_cons, hqy, hpy, Bool.false_eq_true, if_false]
        exact hys

theorem filterLength_lt (p q : String → Bool) :
    ∀ L : List String, (∀ w ∈ L, q w = true → p w = true) →
      ∀ v ∈ L, p v = true → q v = false →
        (L.filter q).length < (L.filter p).length := by
  intro L
  induction L with
  | nil => intro _ v hv; exact absurd hv (List.not_mem_nil v)
  | cons x xs ih =>
    intro hmono v hv hp hq
    have hmono2 : ∀ w ∈ xs, q w = true → p w = true :=
      fun w hw => hmono w (List.mem_cons_of_mem x hw)
    rcases List.mem_cons.mp hv with rfl | hv2
    · have hle := filterLength_le p q xs hmono2
      simp only [List.filter_cons, hp, hq, if_pos, Bool.false_eq_true, if_false,
        List.length_cons]
      omega
    · have hlt := ih hmono2 v hv2 hp hq
      cases hqx : q x with
      | true =>
        have hpx := hmono x (List.mem_cons_self x xs) hqx
        simp only [List.filter_cons, hqx, hpx, if_pos, List.length_cons]
        omega
      | false =>
        cases hpx : p x with
        | true =>
          simp only [List.filter_cons, hqx, hpx, if_pos, Bool.false_eq_true,
            if_false, List.length_cons]
          omega
        | false =>
          simp only [List.filter_cons, hqx, hpx, Bool.false_eq_true, if_false]
          exact hlt

theorem numUnassigned_lt {cls : List Clause} {a a2 : PAssign} {v : String} {b : Bool}
    (hext : Extends a a2) (hv : a v = none) (hv2 : a2 v = some b)
    (hmem : v ∈ varsOfClauses cls) :
    numUnassigned cls a2 < numUnassigned cls a := by
  have hmono : ∀ w ∈ varsOfClauses cls,
      (fun w => (a2 w).isNone) w = true → (fun w => (a w).isNone) w = true := by
    intro w hw hq
    simp only [Option.isNone_iff_eq_none] at hq ⊢
    cases haw : a w with
    | none => rfl
    | some bw =>
      have h2 := hext w bw haw
      rw [h2] at hq
      exact absurd hq (by simp)
  exact filterLength_lt (fun w => (a w).isNone) (fun w => (a2 w).isNone)
    (varsOfClauses cls) hmono v hmem (by simp [hv]) (by simp [hv2])

theorem unitPropagationF_isSome :
    ∀ (fuel : Nat) (cls : List Clause) (a : PAssign),
      numUnassigned cls a < fuel → unitPropagationF fuel cls a ≠ none := by
  intro fuel
  induction fuel with
  | zero => intro cls a h; omega
  | succ fuel ih =>
    intro cls a hfuel
    simp only [unitPropagationF]
    cases hpass : propagatePass a cls with
    | none => simp
    | some p =>
      obtain ⟨a2, prog⟩ := p
      cases prog with
      | false => simp
      | true =>
        rcases propagatePass_extends cls a a2 true hpass with ⟨hext, hprog⟩
        rcases hprog rfl with ⟨v, hv1, ⟨b, hv2⟩, hv3⟩
        have := numUnassigned_lt hext hv1 hv2 hv3
        exact ih cls a2 (by omega)

theorem addPolarity_key :
    ∀ (ps : List (String × List Bool)) (v : String) (b : Bool) (w : String)
      (bs : List Bool), (w, bs) ∈ addPolarity ps v b →
      w = v ∨ ∃ bs0, (w, bs0) ∈ ps := by
  intro ps v b
  induction ps with
  | nil =>
    intro w bs h
    simp only [addPolarity, List.mem_singleton, Prod.mk.injEq] at h
    exact Or.inl h.1
  | cons p rest ih =>
    intro w bs h
    obtain ⟨pk, pbs⟩ := p
    simp only [addPolarity] at h
    by_cases hpk : pk = v
    · rw [if_pos hpk] at h
      rcases List.mem_cons.mp h with heq | hmem
      · injection heq with h1 h2
        exact Or.inl (h1.trans hpk)
      · exact Or.inr ⟨bs, List.mem_cons_of_mem _ hmem⟩
    · rw [if_neg hpk] at h
      rcases List.mem_cons.mp h with heq | hmem
      · injection heq with h1 h2
        exact Or.inr ⟨pbs, by rw [h1]; exact List.mem_cons_self _ _⟩
      · rcases ih w bs hmem with h1 | ⟨bs0, h0⟩
        · exact Or.inl h1
        · exact Or.inr ⟨bs0, List.mem_cons_of_mem _ h0⟩

theorem addPolarity_self :
    ∀ (ps : List (String × List Bool)) (v : String) (b : Bool),
      ∃ bs, (v, bs) ∈ addPolarity ps v b ∧ b ∈ bs := by
  intro ps v b
  induction ps with
  | nil => exact ⟨[b], List.mem_singleton.mpr rfl, List.mem_singleton.mpr rfl⟩
  | cons p rest ih =>
    obtain ⟨pk, pbs⟩ := p
    by_cases hpk : pk = v
    · refine ⟨if b ∈ pbs then pbs else pbs ++ [b], ?_, ?_⟩
      · simp only [addPolarity, if_pos hpk]
        rw [hpk]
        exact List.mem_cons_self _ _
      · by_cases hb : b ∈ pbs
        · rw [if_pos hb]; exact hb
        · rw [if_neg hb]; simp
    · rcases ih with ⟨bs, hmem, hb⟩
      refine ⟨bs, ?_, hb⟩
      simp only [addPolarity, if_neg hpk]
      exact List.mem_cons_of_mem _ hmem

theorem addPolarity_mono :
    ∀ (ps : List (String × List Bool)) (v : String) (b : Bool) (w : String)
      (bs : List Bool) (b0 : Bool), (w, bs) ∈ ps → b0 ∈ bs →
      ∃ bs2, (w, bs2) ∈ addPolarity ps v b ∧ b0 ∈ bs2 := by
  intro ps v b
  induction ps with
  | nil => intro w bs b0 h; exact absurd h (List.not_mem_nil _)
  | cons p rest ih =>
    intro w bs b0 hmem hb0
    obtain ⟨pk, pbs⟩ := p
    by_cases hpk : pk = v
    · rcases List.mem_cons.mp hmem with heq | hmem2
      · injection heq with h1 h2
        refine ⟨if b ∈ pbs then pbs else pbs ++ [b], ?_, ?_⟩
        · simp only [addPolarity, if_pos hpk]
          rw [← h1]
          exact List.mem_cons_self _ _
        · rw [h2] at hb0
          by_cases hb : b ∈ pbs
          · rw [if_pos hb]; exact hb0
          · rw [if_neg hb]; exact List.mem_append_left _ hb0
      · refine ⟨bs, ?_, hb0⟩
        simp only [addPolarity, if_pos hpk]
        exact List.mem_cons_of_mem _ hmem2
    · rcases List.mem_cons.mp hmem with heq | hmem2
      · refine ⟨bs, ?_, hb0⟩
        simp only [addPolarity, if_neg hpk]
        rw [heq]
        exact List.mem_cons_self _ _
      · rcases ih w bs b0 hmem2 hb0 with ⟨bs2, hmem3, hb2⟩
        refine ⟨bs2, ?_, hb2⟩
        simp only [addPolarity, if_neg hpk]
        exact List.mem_cons_of_mem _ hmem3

theorem innerFold_key (a : PAssign) :
    ∀ (lits : List Literal) (ps : List (String × List Bool)),
      (∀ w bs, (w, bs) ∈ ps → a w = none) →
      ∀ w bs, (w, bs) ∈ lits.foldl
          (fun ps2 l =>
            if (a l.var).isSome then ps2 else addPolarity ps2 l.var (!l.negated)) ps →
        a w = none := by
  intro lits
  induction lits with
  | nil => intro ps hps w bs h; exact hps w bs h
  | cons l ls ih =>
    intro ps hps w bs h
    simp only [List.foldl_cons] at h
    by_cases hl : (a l.var).isSome = true
    · rw [if_pos hl] at h
      exact ih ps hps w bs h
    · rw [if_neg hl] at h
      refine ih _ ?_ w bs h
      intro w2 bs2 hmem
      rcases addPolarity_key ps l.var (!l.negated) w2 bs2 hmem with rfl | ⟨bs0, h0⟩
      · simpa using hl
      · exact hps w2 bs0 h0

theorem innerFold_mono (a : PAssign) :
    ∀ (lits : List Literal) (ps : List (String × List Bool)) (w : String)
      (bs : List Bool) (b0 : Bool), (w, bs) ∈ ps → b0 ∈ bs →
      ∃ bs2, (w, bs2) ∈ lits.foldl
          (fun ps2 l =>
            if (a l.var).isSome then ps2 else addPolarity ps2 l.var (!l.negated)) ps ∧
        b0 ∈ bs2 := by
  intro lits
  induction lits with
  | nil => intro ps w bs b0 hmem hb0; exact ⟨bs, hmem, hb0⟩
  | cons l ls ih =>
    intro ps w bs b0 hmem hb0
    simp only [List.foldl_cons]
    by_cases hl : (a l.var).isSome = true
    · rw [if_pos hl]
      exact ih ps w bs b0 hmem hb0
    · rw [if_neg hl]
      rcases addPolarity_mono ps l.var (!l.negated) w bs b0 hmem hb0 with ⟨bs2, h2, hb2⟩
      exact ih _ w bs2 b0 h2 hb2

theorem innerFold_adds (a : PAssign) :
    ∀ (lits : List Literal) (ps : List (String × List Bool)) (l : Literal),
      l ∈ lits → a l.var = none →
      ∃ bs, (l.var, bs) ∈ lits.foldl
          (fun ps2 l2 =>
            if (a l2.var).isSome then ps2 else addPolarity ps2 l2.var (!l2.negated)) ps ∧
        (!l.negated) ∈ bs := by
  intro lits
  induction lits with
  | nil => intro ps l h; exact absurd h (List.not_mem_nil l)
  | cons l0 ls ih =>
    intro ps l hmem hnone
    simp only [List.foldl_cons]
    rcases List.mem_cons.mp hmem with rfl | hmem2
    · rw [if_neg (by simp [hnone])]
      rcases addPolarity_self ps l.var (!l.negated) with ⟨bs, hbs, hb⟩
      exact innerFold_mono a ls _ l.var bs (!l.negated) hbs hb
    · by_cases hl0 : (a l0.var).isSome = true
      · rw [if_pos hl0]
        exact ih ps l hmem2 hnone
      · rw [if_neg hl0]
        exact ih _ l hmem2 hnone

theorem collectPolarities_unassigned (a : PAssign) (cls : List Clause) :
    ∀ w bs, (w, bs) ∈ collectPolarities a cls → a w = none := by
  rw [collectPolarities]
  have main : ∀ (cs : List Clause) (ps : List (String × List Bool)),
      (∀ w bs, (w, bs) ∈ ps → a w = none) →
      ∀ w bs, (w, bs) ∈ cs.foldl
          (fun ps c =>
            if evaluateClause a c = some true then ps
            else c.literals.foldl
              (fun ps2 l =>
                if (a l.var).isSome then ps2 else addPolarity ps2 l.var (!l.negated)) ps)
          ps → a w = none := by
    intro cs
    induction cs with
    | nil => intro ps hps w bs h; exact hps w bs h
    | cons c cs2 ih =>
      intro ps hps w bs h
      simp only [List.foldl_cons] at h
      by_cases hc : evaluateClause a c = some true
      · rw [if_pos hc] at h
        exact ih ps hps w bs h
      · rw [if_neg hc] at h
        exact ih _ (innerFold_key a c.literals ps hps) w bs h
  exact main cls [] (by simp)

theorem collectPolarities_complete (a : PAssign) (cls : List Clause) :
    ∀ c ∈ cls, evaluateClause a c ≠ some true →
      ∀ l ∈ c.literals, a l.var = none →
        ∃ bs, (l.var, bs) ∈ collectPolarities a cls ∧ (!l.negated) ∈ bs := by
  rw [collectPolarities]
  have mono : ∀ (cs : List Clause) (ps : List (String × List Bool)) (w : String)
      (bs : List Bool) (b0 : Bool), (w, bs) ∈ ps → b0 ∈ bs →
      ∃ bs2, (w, bs2) ∈ cs.foldl
          (fun ps c =>
            if evaluateClause a c = some true then ps
            else c.literals.foldl
              (fun ps2 l =>
                if (a l.var).isSome then ps2 else addPolarity ps2 l.var (!l.negated)) ps)
          ps ∧ b0 ∈ bs2 := by
    intro cs
    induction cs with
    | nil => intro ps w bs b0 hmem hb0; exact ⟨bs, hmem, hb0⟩
    | cons c cs2 ih =>
      intro ps w bs b0 hmem hb0
      simp only [List.foldl_cons]
      by_cases hc : evaluateClause a c = some true
      · rw [if_pos hc]
        exact ih ps w bs b0 hmem hb0
      · rw [if_neg hc]
        rcases innerFold_mono a c.literals ps w bs b0 hmem hb0 with ⟨bs2, h2, hb2⟩
        exact ih _ w bs2 b0 h2 hb2
  have main : ∀ (cs : List Clause) (ps : List (String × List Bool)) (c : Clause),
      c ∈ cs → evaluateClause a c ≠ some true →
      ∀ l ∈ c.literals, a l.var = none →
        ∃ bs, (l.var, bs) ∈ cs.foldl
            (fun ps c =>
              if evaluateClause a c = some true then ps
              else c.literals.foldl
                (fun ps2 l =>
                  if (a l.var).isSome then ps2 else addPolarity ps2 l.var (!l.negated)) ps)
            ps ∧ (!l.negated) ∈ bs := by
    intro cs
    induction cs with
    | nil => intro ps c h; exact absurd h (List.not_mem_nil c)
    | cons c0 cs2 ih =>
      intro ps c hmem hnotsat l hl hlnone
      simp only [List.foldl_cons]
      rcases List.mem_cons.mp hmem with rfl | hmem2
      · rw [if_neg hnotsat]
        rcases innerFold_adds a c.literals ps l hl hlnone with ⟨bs, hbs, hb⟩
        exact mono cs2 _ l.var bs (!l.negated) hbs hb
      · by_cases hc0 : evaluateClause a c0 = some true
        · rw [if_pos hc0]
          exact ih ps c hmem2 hnotsat l hl hlnone
        · rw [if_neg hc0]
          exact ih _ c hmem2 hnotsat l hl hlnone
  intro c hc hnotsat l hl hlnone
  exact main cls [] c hc hnotsat l hl hlnone

theorem pureFold_extends (a : PAssign) :
    ∀ (ps : List (String × List Bool)) (a2 : PAssign), Extends a a2 →
      (∀ w bs, (w, bs) ∈ ps → a w = none) →
      Extends a (ps.foldl
        (fun a3 vb =>
          match vb.2 with
          | [b] => updateA a3 vb.1 b
          | _ => a3) a2) := by
  intro ps
  induction ps with
  | nil => intro a2 hext _; exact hext
  | cons vb rest ih =>
    intro a2 hext hkeys
    obtain ⟨vk, vbs⟩ := vb
    simp only [List.foldl_cons]
    have hknone : a vk = none := hkeys vk vbs (List.mem_cons_self _ _)
    have hkeys2 : ∀ w bs, (w, bs) ∈ rest → a w = none :=
      fun w bs h => hkeys w bs (List.mem_cons_of_mem _ h)
    cases vbs with
    | nil => exact ih a2 hext hkeys2
    | cons b0 bs0 =>
      cases bs0 with
      | nil =>
        refine ih _ ?_ hkeys2
        intro w b hw
        by_cases hwv : w = vk
        · rw [hwv, hknone] at hw; exact absurd hw (by simp)
        · simp only [updateA, if_neg hwv]
          exact hext w b hw
      | cons b1 bs1 => exact ih a2 hext hkeys2

theorem pureFold_source (a : PAssign) :
    ∀ (ps : List (String × List Bool)) (a2 : PAssign) (w : String) (b2 : Bool),
      (ps.foldl
        (fun a3 vb =>
          match vb.2 with
          | [b] => updateA a3 vb.1 b
          | _ => a3) a2) w = some b2 →
      a2 w = some b2 ∨ ∃ bs, (w, bs) ∈ ps ∧ bs = [b2] := by
  intro ps
  induction ps with
  | nil => intro a2 w b2 h; exact Or.inl h
  | cons vb rest ih =>
    intro a2 w b2 h
    obtain ⟨vk, vbs⟩ := vb
    simp only [List.foldl_cons] at h
    cases vbs with
    | nil =>
      rcases ih a2 w b2 h with h1 | ⟨bs, h2, h3⟩
      · exact Or.inl h1
      · exact Or.inr ⟨bs, List.mem_cons_of_mem _ h2, h3⟩
    | cons b0 bs0 =>
      cases bs0 with
      | nil =>
        rcases ih _ w b2 h with h1 | ⟨bs, h2, h3⟩
        · by_cases hwv : w = vk
          · subst hwv
            have h1b : updateA a2 w b0 w = some b2 := h1
            have hupd : updateA a2 w b0 w = some b0 := by simp [updateA]
            rw [hupd] at h1b
            injection h1b with h1b
            exact Or.inr ⟨[b0], List.mem_cons_self _ _, by rw [h1b]⟩
          · simp only [updateA, if_neg hwv] at h1
            exact Or.inl h1
        · exact Or.inr ⟨bs, List.mem_cons_of_mem _ h2, h3⟩
      | cons b1 bs1 =>
        rcases ih a2 w b2 h with h1 | ⟨bs, h2, h3⟩
        · exact Or.inl h1
        · exact Or.inr ⟨bs, List.mem_cons_of_mem _ h2, h3⟩

theorem pureLiteralElimination_extends (a : PAssign) (cls : List Clause) :
    Extends a (pureLiteralElimination a cls) :=
  pureFold_extends a (collectPolarities a cls) a (fun _ _ h => h)
    (collectPolarities_unassigned a cls)

theorem pureLiteralElimination_source (a : PAssign) (cls : List Clause)
    (w : String) (b2 : Bool) (h : pureLiteralElimination a cls w = some b2) :
    a w = some b2 ∨
      ∃ bs, (w, bs) ∈ collectPolarities a cls ∧ bs = [b2] :=
  pureFold_source a (collectPolarities a cls) a w b2 h

theorem addPolarity_keys :
    ∀ (ps : List (String × List Bool)) (v : String) (b : Bool),
      (addPolarity ps v b).map Prod.fst =
        if v ∈ ps.map Prod.fst then ps.map Prod.fst else ps.map Prod.fst ++ [v] := by
  intro ps v b
  induction ps with
  | nil => simp [addPolarity]
  | cons p rest ih =>
    obtain ⟨pk, pbs⟩ := p
    by_cases hpk : pk = v
    · subst hpk
      simp [addPolarity]
    · simp only [addPolarity, if_neg hpk, List.map_cons, ih]
      have hvne : ¬ v = pk := fun h => hpk h.symm
      by_cases hv : v ∈ rest.map Prod.fst
      · simp [hv, List.mem_cons, hvne]
      · simp [hv, List.mem_cons, hvne]

theorem addPolarity_keys_nodup {ps : List (String × List Bool)} {v : String}
    {b : Bool} (h : (ps.map Prod.fst).Nodup) :
    ((addPolarity ps v b).map Prod.fst).Nodup := by
  rw [addPolarity_keys]
  by_cases hv : v ∈ ps.map Prod.fst
  · rw [if_pos hv]; exact h
  · rw [if_neg hv]
    rw [List.nodup_append]
    exact ⟨h, List.nodup_singleton v, by simpa using fun hmem => hv hmem⟩

theorem nodupKeys_unique :
    ∀ (ps : List (String × List Bool)) (w : String) (bs1 bs2 : List Bool),
      (ps.map Prod.fst).Nodup → (w, bs1) ∈ ps → (w, bs2) ∈ ps → bs1 = bs2 := by
  intro ps
  induction ps with
  | nil => intro w bs1 bs2 _ h; exact absurd h (List.not_mem_nil _)
  | cons p rest ih =>
    intro w bs1 bs2 hnodup h1 h2
    obtain ⟨pk, pbs⟩ := p
    simp only [List.map_cons, List.nodup_cons] at hnodup
    rcases List.mem_cons.mp h1 with he1 | hm1 <;> rcases List.mem_cons.mp h2 with he2 | hm2
    · injection he1 with e1a e1b
      injection he2 with e2a e2b
      rw [e1b, e2b]
    · injection he1 with e1a e1b
      exfalso
      exact hnodup.1 (by rw [← e1a]; exact List.mem_map.mpr ⟨(w, bs2), hm2, rfl⟩)
    · injection he2 with e2a e2b
      exfalso
      exact hnodup.1 (by rw [← e2a]; exact List.mem_map.mpr ⟨(w, bs1), hm1, rfl⟩)
    · exact ih w bs1 bs2 hnodup.2 hm1 hm2

theorem collectPolarities_keys_nodup (a : PAssign) (cls : List Clause) :
    ((collectPolarities a cls).map Prod.fst).Nodup := by
  rw [collectPolarities]
  have inner : ∀ (lits : List Literal) (ps : List (String × List Bool)),
      (ps.map Prod.fst).Nodup →
      ((lits.foldl
        (fun ps2 l =>
          if (a l.var).isSome then ps2 else addPolarity ps2 l.var (!l.negated))
        ps).map Prod.fst).Nodup := by
    intro lits
    induction lits with
    | nil => intro ps h; exact h
    | cons l ls ih =>
      intro ps h
      simp only [List.foldl_cons]
      by_cases hl : (a l.var).isSome = true
      · rw [if_pos hl]; exact ih ps h
      · rw [if_neg hl]; exact ih _ (addPolarity_keys_nodup h)
  have outer : ∀ (cs : List Clause) (ps : List (String × List Bool)),
      (ps.map Prod.fst).Nodup →
      ((cs.foldl
        (fun ps c =>
          if evaluateClause a c = some true then ps
          else c.literals.foldl
            (fun ps2 l =>
              if (a l.var).isSome then ps2 else addPolarity ps2 l.var (!l.negated)) ps)
        ps).map Prod.fst).Nodup := by
    intro cs
    induction cs with
    | nil => intro ps h; exact h
    | cons c cs2 ih =>
      intro ps h
      simp only [List.foldl_cons]
      by_cases hc : evaluateClause a c = some true
      · rw [if_pos hc]; exact ih ps h
      · rw [if_neg hc]; exact ih _ (inner c.literals ps h)
  exact outer cls [] (by simp)

/-- Flipping the pure variables of a model produces a model that agrees
with the assignment produced by `_pure_literal_elimination`. -/
theorem pureLiteralElimination_model {σ : String → Bool} {a : PAssign}
    {cls : List Clause} (hag : Agrees σ a)
    (hmodel : ∀ c ∈ cls, ClauseSat σ c) :
    ∃ σ2 : String → Bool, Agrees σ2 (pureLiteralElimination a cls) ∧
      ∀ c ∈ cls, ClauseSat σ2 c := by
  set a2 := pureLiteralElimination a cls with ha2
  refine ⟨fun w => match a2 w with | some b => b | none => σ w, ?_, ?_⟩
  · intro w b hw
    simp only [hw]
  · intro c hc
    by_cases hsat : evaluateClause a c = some true
    · rcases (evaluateClause_eq_true_iff a c).mp hsat with ⟨l, hl, hlv⟩
      have h2 := pureLiteralElimination_extends a cls l.var (!l.negated) hlv
      rw [← ha2] at h2
      exact ⟨l, hl, by simp only [h2]⟩
    · rcases hmodel c hc with ⟨l, hl, hlσ⟩
      refine ⟨l, hl, ?_⟩
      cases h2v : a2 l.var with
      | none =>
        simp only [h2v]
        exact hlσ
      | some b2 =>
        simp only [h2v]
        rcases pureLiteralElimination_source a cls l.var b2 (by rw [← ha2]; exact h2v)
          with h3 | ⟨bs, h3, rfl⟩
        · rw [hag l.var b2 h3] at hlσ
          exact hlσ
        · have hnone := collectPolarities_unassigned a cls l.var [b2] h3
          rcases collectPolarities_complete a cls c hc hsat l hl hnone
            with ⟨bs2, h4, hb4⟩
          have := nodupKeys_unique (collectPolarities a cls) l.var bs2 [b2]
            (collectPolarities_keys_nodup a cls) h4 h3
          rw [this] at hb4
          exact (List.mem_singleton.mp hb4).symm

/-- Pure-literal elimination cannot falsify a clause that propagation
left non-false. -/
theorem pureLiteralElimination_no_false {a : PAssign} {cls : List Clause}
    {c : Clause} (hc : c ∈ cls) (hnf : evaluateClause a c ≠ some false) :
    evaluateClause (pureLiteralElimination a cls) c ≠ some false := by
  intro hfalse
  set a2 := pureLiteralElimination a cls with ha2
  have hall := (evaluateClause_eq_false_iff a2 c).mp hfalse
  by_cases hsat : evaluateClause a c = some true
  · rcases (evaluateClause_eq_true_iff a c).mp hsat with ⟨l, hl, hlv⟩
    have h2 := pureLiteralElimination_extends a cls l.var (!l.negated) hlv
    rw [← ha2] at h2
    have h3 := hall l hl
    rw [h2] at h3
    injection h3 with h3
    cases hn : l.negated <;> rw [hn] at h3 <;> simp at h3
  · cases heval : evaluateClause a c with
    | some v =>
      cases v with
      | false => exact hnf heval
      | true => exact hsat heval
    | none =>
      rcases evaluateClause_none_unassigned a c heval with ⟨l, hl, hlnone⟩
      have h3 := hall l hl
      rcases pureLiteralElimination_source a cls l.var l.negated
        (by rw [← ha2]; exact h3) with h4 | ⟨bs, h4, rfl⟩
      · rw [h4] at hlnone
        exact absurd hlnone (by simp)
      · rcases collectPolarities_complete a cls c hc hsat l hl hlnone
          with ⟨bs2, h5, hb5⟩
        have := nodupKeys_unique (collectPolarities a cls) l.var bs2 [l.negated]
          (collectPolarities_keys_nodup a cls) h5 h4
        rw [this] at hb5
        have := List.mem_singleton.mp hb5
        cases hn : l.negated <;> rw [hn] at this <;> simp at this

/-- If `_dpll` returns SAT, the recorded field satisfies every clause. -/
theorem dpllF_sat_satisfies :
    ∀ (fuel : Nat) (cls : List Clause) (order : List String) (field a fld : PAssign),
      dpllF fuel cls order field a = some (DpllRes.SAT, fld) → CNFSatP fld cls := by
  intro fuel
  induction fuel with
  | zero => intro cls order field a fld h; exact absurd h (by simp [dpllF])
  | succ fuel ih =>
    intro cls order field a fld h
    simp only [dpllF] at h
    cases hup : unitPropagationF (numUnassigned cls a + 1) cls a with
    | none => simp only [hup] at h; exact absurd h (by simp)
    | some o =>
      cases o with
      | none =>
        simp only [hup, Option.some.injEq, Prod.mk.injEq] at h
        exact absurd h.1 (by simp)
      | some a1 =>
        simp only [hup] at h
        by_cases hall :
            allClausesSatisfied (pureLiteralElimination a1 cls) cls = true
        · rw [if_pos hall] at h
          simp only [Option.some.injEq, Prod.mk.injEq] at h
          rw [← h.2]
          intro c hc
          have := List.all_eq_true.mp hall c hc
          exact (evaluateClause_eq_true_iff _ c).mp (by simpa using this)
        · rw [if_neg hall] at h
          cases hch : chooseVariable order (pureLiteralElimination a1 cls) with
          | none =>
            simp only [hch, Option.some.injEq, Prod.mk.injEq] at h
            exact absurd h.1 (by simp)
          | some v =>
            cases hpos : dpllF fuel cls order field
                (updateA (pureLiteralElimination a1 cls) v true) with
            | none => simp [hch, hpos] at h
            | some p =>
              obtain ⟨r1, field1⟩ := p
              cases r1 with
              | SAT =>
                simp only [hch, hpos, Option.some.injEq, Prod.mk.injEq] at h
                rw [← h.2]
                exact ih cls order field _ field1 hpos
              | ERR => simp [hch, hpos] at h
              | UNSAT =>
                simp only [hch, hpos] at h
                exact ih cls order field1 _ fld h

/-- If `_dpll` returns UNSAT, no total assignment extending the input
partial assignment satisfies the clauses. -/
theorem dpllF_unsat_sound :
    ∀ (fuel : Nat) (cls : List Clause) (order : List String) (field a fld : PAssign),
      dpllF fuel cls order field a = some (DpllRes.UNSAT, fld) →
      ∀ σ : String → Bool, Agrees σ a → ¬ (∀ c ∈ cls, ClauseSat σ c) := by
  intro fuel
  induction fuel with
  | zero => intro cls order field a fld h; exact absurd h (by simp [dpllF])
  | succ fuel ih =>
    intro cls order field a fld h σ hag hmodel
    simp only [dpllF] at h
    rcases (unitPropagationF_model hmodel (numUnassigned cls a + 1) a hag)
      with ⟨hnoconf, hagall⟩
    cases hup : unitPropagationF (numUnassigned cls a + 1) cls a with
    | none => simp only [hup] at h; exact absurd h (by simp)
    | some o =>
      cases o with
      | none => exact hnoconf hup
      | some a1 =>
        have hag1 : Agrees σ a1 := hagall a1 hup
        simp only [hup] at h
        rcases pureLiteralElimination_model hag1 hmodel with ⟨σ2, hag2, hmodel2⟩
        by_cases hall :
            allClausesSatisfied (pureLiteralElimination a1 cls) cls = true
        · rw [if_pos hall] at h
          simp only [Option.some.injEq, Prod.mk.injEq] at h
          exact absurd h.1 (by simp)
        · rw [if_neg hall] at h
          cases hch : chooseVariable order (pureLiteralElimination a1 cls) with
          | none =>
            simp only [hch, Option.some.injEq, Prod.mk.injEq] at h
            exact absurd h.1 (by simp)
          | some v =>
            cases hpos : dpllF fuel cls order field
                (updateA (pureLiteralElimination a1 cls) v true) with
            | none => simp [hch, hpos] at h
            | some p =>
              obtain ⟨r1, field1⟩ := p
              cases r1 with
              | SAT => simp [hch, hpos] at h
              | ERR => simp [hch, hpos] at h
              | UNSAT =>
                simp only [hch, hpos] at h
                cases hσv : σ2 v with
                | true =>
                  refine ih cls order field _ field1 hpos σ2 ?_ hmodel2
                  intro w b hw
                  by_cases hwv : w = v
                  · subst hwv
                    have : updateA (pureLiteralElimination a1 cls) w true w =
                        some true := by simp [updateA]
                    rw [this] at hw
                    injection hw with hw
                    rw [← hw]
                    exact hσv
                  · simp only [updateA, if_neg hwv] at hw
                    exact hag2 w b hw
                | false =>
                  refine ih cls order field1 _ fld h σ2 ?_ hmodel2
                  intro w b hw
                  by_cases hwv : w = v
                  · subst hwv
                    have : updateA (pureLiteralElimination a1 cls) w false w =
                        some false := by simp [updateA]
                    rw [this] at hw
                    injection hw with hw
                    rw [← hw]
                    exact hσv
                  · simp only [updateA, if_neg hwv] at hw
                    exact hag2 w b hw

/-- With an enumeration order covering the clause variables and ample
fuel, `_dpll` returns SAT or UNSAT (never the `RuntimeError`, never
fuel exhaustion). -/
theorem dpllF_total :
    ∀ (fuel : Nat) (cls : List Clause) (order : List String) (field a : PAssign),
      (∀ v ∈ varsOfClauses cls, v ∈ order) →
      (∀ v ∈ order, v ∈ varsOfClauses cls) → numUnassigned cls a < fuel →
      ∃ r fld, dpllF fuel cls order field a = some (r, fld) ∧ r ≠ DpllRes.ERR := by
  intro fuel
  induction fuel with
  | zero => intro cls order field a _ _ h; omega
  | succ fuel ih =>
    intro cls order field a horder horder2 hfuel
    simp only [dpllF]
    cases hup : unitPropagationF (numUnassigned cls a + 1) cls a with
    | none =>
      exact absurd hup (unitPropagationF_isSome _ cls a (by omega))
    | some o =>
      cases o with
      | none => exact ⟨DpllRes.UNSAT, field, rfl, by simp⟩
      | some a1 =>
        have hext1 : Extends a a1 := unitPropagationF_extends _ cls a a1 hup
        have hnf1 := unitPropagationF_noconflict _ cls a a1 hup
        dsimp only
        set a2 := pureLiteralElimination a1 cls with ha2
        have hext2 : Extends a1 a2 := pureLiteralElimination_extends a1 cls
        by_cases hall : allClausesSatisfied a2 cls = true
        · rw [if_pos hall]
          exact ⟨DpllRes.SAT, a2, rfl, by simp⟩
        · rw [if_neg hall]
          have hall2 : ¬ ∀ c ∈ cls, evaluateClause a2 c = some true := by
            intro hcontra
            refine hall ?_
            simp only [allClausesSatisfied, List.all_eq_true, decide_eq_true_eq]
            exact hcontra
          push_neg at hall2
          have hclause : ∃ c ∈ cls, evaluateClause a2 c = none := by
            rcases hall2 with ⟨c, hc, hcnot⟩
            refine ⟨c, hc, ?_⟩
            have hnof : evaluateClause a2 c ≠ some false := by
              rw [ha2]
              exact pureLiteralElimination_no_false hc (hnf1 c hc)
            cases hval : evaluateClause a2 c with
            | none => rfl
            | some b =>
              cases b with
              | true => exact absurd hval hcnot
              | false => exact absurd hval hnof
          rcases hclause with ⟨c, hc, hcnone⟩
          rcases evaluateClause_none_unassigned a2 c hcnone with ⟨l, hl, hlnone⟩
          have hlv : l.var ∈ varsOfClauses cls :=
            mem_varsOfClauses.mpr ⟨c, hc, l, hl, rfl⟩
          have hfind : ∃ v, chooseVariable order a2 = some v := by
            cases hch : chooseVariable order a2 with
            | some v => exact ⟨v, rfl⟩
            | none =>
              exfalso
              have := List.find?_eq_none.mp hch l.var (horder l.var hlv)
              rw [hlnone] at this
              exact this rfl
          rcases hfind with ⟨v, hch⟩
          rw [hch]
          dsimp only
          have hvmem : v ∈ order := List.mem_of_find?_eq_some hch
          have hvnone : a2 v = none := by
            have := List.find?_some hch
            simpa using this
          have hanone : a v = none := by
            cases hav : a v with
            | none => rfl
            | some b =>
              have := hext2 v b (hext1 v b hav)
              rw [this] at hvnone
              exact absurd hvnone (by simp)
          have hvvars : v ∈ varsOfClauses cls := horder2 v hvmem
          have hmeas : ∀ b : Bool, numUnassigned cls (updateA a2 v b) < fuel := by
            intro b
            have hextu : Extends a (updateA a2 v b) := by
              intro w bw hw
              by_cases hwv : w = v
              · subst hwv; rw [hw] at hanone; exact absurd hanone (by simp)
              · simp only [updateA, if_neg hwv]
                exact hext2 w bw (hext1 w bw hw)
            have := numUnassigned_lt hextu hanone
              (by simp [updateA] : updateA a2 v b v = some b) hvvars
            omega
          rcases ih cls order field (updateA a2 v true) horder horder2 (hmeas true)
            with ⟨r1, fld1, hpos, hr1⟩
          rw [hpos]
          cases r1 with
          | SAT => exact ⟨DpllRes.SAT, fld1, rfl, by simp⟩
          | ERR => exact absurd rfl hr1
          | UNSAT =>
            rcases ih cls order fld1 (updateA a2 v false) horder horder2 (hmeas false)
              with ⟨r2, fld2, hneg, hr2⟩
            exact ⟨r2, fld2, hneg, hr2⟩

/-- An undetermined clause has no true literal. -/
theorem evaluateClause_none_no_true {a : PAssign} {c : Clause}
    (h : evaluateClause a c = none) :
    ∀ l ∈ c.literals, a l.var ≠ some (!l.negated) := by
  intro l hl he
  have := (evaluateClause_eq_true_iff a c).mpr ⟨l, hl, he⟩
  rw [h] at this
  exact absurd this (by simp)

/-- Structure of a unit clause: the unassigned literal is the unique
literal over its variable, and every other literal is assigned false. -/
theorem unitClause_structure {a : PAssign} {c : Clause} {l : Literal}
    (hnone : evaluateClause a c = none)
    (hu : unassignedLits a c = [l]) :
    l ∈ c.literals ∧ a l.var = none ∧
      (∀ l2 ∈ c.literals, l2.var = l.var → l2 = l) ∧
      (∀ l2 ∈ c.literals, l2.var ≠ l.var → a l2.var = some l2.negated) := by
  rcases unassignedLits_singleton hu with ⟨hmem, hvn, huniq⟩
  refine ⟨hmem, hvn, ?_, ?_⟩
  · intro l2 hl2 hv
    exact huniq l2 hl2 (by rw [hv, hvn])
  · intro l2 hl2 hv
    cases hb : a l2.var with
    | none => exact absurd (huniq l2 hl2 hb) (fun he => hv (by rw [he]))
    | some b =>
      have hnt := evaluateClause_none_no_true hnone l2 hl2
      have hne : b ≠ !l2.negated := by
        intro hbe
        exact hnt (by rw [hb, hbe])
      have hbv : b = l2.negated := by
        cases b <;> cases hneg : l2.negated <;> simp_all
      rw [hbv]

/-- Lift a satisfying partial assignment to a total model. -/
theorem CNFSatP_lift {a : PAssign} {cls : List Clause} (h : CNFSatP a cls) :
    CNFSat (fun v => (a v).getD true) cls := by
  intro c hc
  rcases h c hc with ⟨l, hl, hv⟩
  refine ⟨l, hl, ?_⟩
  show (a l.var).getD true = !l.negated
  rw [hv]
  rfl

/-- Input clauses entail themselves. -/
theorem entails_self {cls : List Clause} {c : Clause} (h : c ∈ cls) :
    Entails cls c :=
  fun _ hσ => hσ c h

/-- Every clause scanned by CDCL unit propagation (input or learned) is
entailed by the input. -/
theorem entails_scanned {cls : List Clause} {st : CDCLState}
    (hl : LearnedOK cls st) :
    ∀ c ∈ cls ++ st.learnedClauses, Entails cls c := by
  intro c hc
  rcases List.mem_append.mp hc with h | h
  · exact entails_self h
  · exact hl c h

/-- In a coherent state a graph node determines the assignment value and
a matching trail entry. -/
theorem graph_entry {st : CDCLState} (hco : StackCoherent st) {v : String}
    {n : ImplicationNode} (hg : st.implicationGraph v = some n) :
    st.assignment v = some n.value ∧ n.var = v ∧
      ∃ e ∈ st.decisionStack, e.var = v ∧ e.value = n.value ∧
        e.decisionLevel = n.decisionLevel ∧ e.reason = n.reason := by
  obtain ⟨hnd, hent, hdomA, hdomG⟩ := hco
  rcases hdomG v (by rw [hg]; rfl) with ⟨e, he, hev⟩
  rcases hent e he with ⟨ha, n2, hg2, h1, h2, h3, h4⟩
  rw [hev] at hg2 ha
  rw [hg] at hg2
  injection hg2 with hn2
  subst hn2
  exact ⟨by rw [ha, h2], by rw [h1, hev], e, he, hev, h2.symm, h3.symm, h4.symm⟩

/-- In a coherent state an assigned variable has a matching trail
entry. -/
theorem assign_entry {st : CDCLState} (hco : StackCoherent st) {v : String}
    {b : Bool} (ha : st.assignment v = some b) :
    ∃ e ∈ st.decisionStack, e.var = v ∧ e.value = b := by
  obtain ⟨hnd, hent, hdomA, hdomG⟩ := hco
  rcases hdomA v (by rw [ha]; rfl) with ⟨e, he, hev⟩
  rcases hent e he with ⟨ha2, _⟩
  rw [hev] at ha2
  rw [ha] at ha2
  injection ha2 with hb
  exact ⟨e, he, hev, hb.symm⟩

/-- In a coherent state an unassigned variable has no trail entry. -/
theorem unassigned_not_on_stack {st : CDCLState} (hco : StackCoherent st)
    {v : String} (ha : st.assignment v = none) :
    ∀ e ∈ st.decisionStack, e.var ≠ v := by
  intro e he hev
  rcases hco.2.1 e he with ⟨ha2, _⟩
  rw [hev, ha] at ha2
  exact absurd ha2 (by simp)

/-- An index lookup that succeeds stays within the list. -/
theorem getq_lt {α : Type} {l : List α} {i : Nat} {e : α}
    (h : l[i]? = some e) : i < l.length :=
  (List.getElem?_eq_some_iff.mp h).1

/-- A successful index lookup is a list member. -/
theorem getq_mem {α : Type} {l : List α} {i : Nat} {e : α}
    (h : l[i]? = some e) : e ∈ l :=
  List.getElem?_mem h

/-- Index lookup through an append, on the left part. -/
theorem getq_append_left {α : Type} {l1 : List α} (l2 : List α) {i : Nat}
    (h : i < l1.length) : (l1 ++ l2)[i]? = l1[i]? := by
  rw [List.getElem?_append]
  simp [h]

/-- Every member is found at some index. -/
theorem mem_getq {α : Type} {l : List α} {a : α} (h : a ∈ l) :
    ∃ i : Nat, l[i]? = some a := by
  rcases List.mem_iff_getElem.mp h with ⟨i, hi, hg⟩
  exact ⟨i, by rw [List.getElem?_eq_getElem hi, hg]⟩

/-- `Before` is preserved when an entry is appended to the trail. -/
theorem Before_append {st st2 : CDCLState} {e0 : Assignment} {u v : String}
    (hs : st2.decisionStack = st.decisionStack ++ [e0])
    (h : Before st u v) : Before st2 u v := by
  rcases h with ⟨i, j, hij, ⟨e1, he1, hu⟩, ⟨e2, he2, hv⟩⟩
  refine ⟨i, j, hij, ⟨e1, ?_, hu⟩, ⟨e2, ?_, hv⟩⟩
  · rw [hs, getq_append_left [e0] (getq_lt he1)]; exact he1
  · rw [hs, getq_append_left [e0] (getq_lt he2)]; exact he2

/-- A variable with a trail entry is `Before` the entry appended now. -/
theorem Before_new {st st2 : CDCLState} {e0 e2 : Assignment} {u v : String}
    (hs : st2.decisionStack = st.decisionStack ++ [e0])
    (he2 : e2 ∈ st.decisionStack) (hu : e2.var = u) (hv : e0.var = v) :
    Before st2 u v := by
  rcases mem_getq he2 with ⟨i, hi⟩
  refine ⟨i, st.decisionStack.length, getq_lt hi, ⟨e2, ?_, hu⟩, ⟨e0, ?_, hv⟩⟩
  · rw [hs, getq_append_left [e0] (getq_lt hi)]; exact hi
  · rw [hs, List.getElem?_append_right (le_refl _)]
    simp

/-- Updating an assignment at a key reads back the value. -/
theorem updateA_self (a : PAssign) (v : String) (b : Bool) :
    updateA a v b v = some b := by
  simp [updateA]

/-- Updating an assignment leaves other keys unchanged. -/
theorem updateA_other (a : PAssign) (v : String) (b : Bool) (w : String)
    (h : w ≠ v) : updateA a v b w = a w := by
  simp [updateA, h]

/-- Updating the graph at a key reads back the node. -/
theorem updateG_self (g : String → Option ImplicationNode) (v : String)
    (n : ImplicationNode) : updateG g v n v = some n := by
  simp [updateG]

/-- Updating the graph leaves other keys unchanged. -/
theorem updateG_other (g : String → Option ImplicationNode) (v : String)
    (n : ImplicationNode) (w : String) (h : w ≠ v) : updateG g v n w = g w := by
  simp [updateG, h]

/-- Erasing an assignment key clears it. -/
theorem eraseA_self (a : PAssign) (v : String) : eraseA a v v = none := by
  simp [eraseA]

/-- Erasing an assignment key leaves other keys unchanged. -/
theorem eraseA_other (a : PAssign) (v : String) (w : String) (h : w ≠ v) :
    eraseA a v w = a w := by
  simp [eraseA, h]

/-- Erasing a graph key clears it. -/
theorem eraseG_self (g : String → Option ImplicationNode) (v : String) :
    eraseG g v v = none := by
  simp [eraseG]

/-- Erasing a graph key leaves other keys unchanged. -/
theorem eraseG_other (g : String → Option ImplicationNode) (v : String)
    (w : String) (h : w ≠ v) : eraseG g v w = g w := by
  simp [eraseG, h]

/-- An unassigned variable has no implication-graph node in a coherent
state. -/
theorem unassigned_no_node {st : CDCLState} (hco : StackCoherent st)
    {v : String} (ha : st.assignment v = none) :
    st.implicationGraph v = none := by
  cases hg : st.implicationGraph v with
  | none => rfl
  | some n =>
    have := (graph_entry hco hg).1
    rw [ha] at this
    exact absurd this (by simp)

/-- `_add_implication` on a unit clause preserves the CDCL invariant. -/
theorem addImplication_inv {cls : List Clause} {st : CDCLState} {c : Clause}
    {l : Literal} (hinv : InvC cls st) (hent : Entails cls c)
    (hnone : evaluateClause st.assignment c = none)
    (hu : unassignedLits st.assignment c = [l]) :
    InvC cls (addImplication st l.var (!l.negated) c) := by
  obtain ⟨hco, hlv, hlo, hl0, hro⟩ := hinv
  obtain ⟨hmem, hvn, huniq, hothers⟩ := unitClause_structure hnone hu
  have hA : (addImplication st l.var (!l.negated) c).assignment =
      updateA st.assignment l.var (!l.negated) := rfl
  have hS : (addImplication st l.var (!l.negated) c).decisionStack =
      st.decisionStack ++ [⟨l.var, !l.negated, st.decisionLevel, some c⟩] := rfl
  have hL : (addImplication st l.var (!l.negated) c).learnedClauses =
      st.learnedClauses := rfl
  have hD : (addImplication st l.var (!l.negated) c).decisionLevel =
      st.decisionLevel := rfl
  obtain ⟨ants, hG⟩ : ∃ ants,
      (addImplication st l.var (!l.negated) c).implicationGraph =
        updateG st.implicationGraph l.var
          ⟨l.var, !l.negated, st.decisionLevel, some c, ants⟩ := ⟨_, rfl⟩
  have hnotst := unassigned_not_on_stack hco hvn
  refine ⟨⟨?_, ?_, ?_, ?_⟩, ⟨?_, ?_⟩, ?_, ?_, ?_⟩
  · -- nodup
    rw [hS, List.map_append, List.nodup_append]
    refine ⟨hco.1, List.nodup_singleton _, ?_⟩
    intro x hx hx2
    rcases List.mem_map.mp hx with ⟨e, he, hev⟩
    have : x = l.var := by simpa using hx2
    exact hnotst e he (by rw [hev, this])
  · -- entries
    intro e he
    rw [hS] at he
    rcases List.mem_append.mp he with he1 | he1
    · rcases hco.2.1 e he1 with ⟨ha, n, hg, h1, h2, h3, h4⟩
      have hne : e.var ≠ l.var := hnotst e he1
      rw [hA, hG, updateA_other _ _ _ _ hne, updateG_other _ _ _ _ hne]
      exact ⟨ha, n, hg, h1, h2, h3, h4⟩
    · have he2 : e = ⟨l.var, !l.negated, st.decisionLevel, some c⟩ := by
        simpa using he1
      subst he2
      rw [hA, hG]
      exact ⟨updateA_self _ _ _, _, updateG_self _ _ _, rfl, rfl, rfl, rfl⟩
  · -- assignment domain
    intro v hv
    rw [hA] at hv
    by_cases hvv : v = l.var
    · refine ⟨⟨l.var, !l.negated, st.decisionLevel, some c⟩, ?_, hvv.symm⟩
      rw [hS]
      exact List.mem_append_right _ (List.mem_singleton.mpr rfl)
    · rw [updateA_other _ _ _ _ hvv] at hv
      rcases hco.2.2.1 v hv with ⟨e, he, hev⟩
      exact ⟨e, by rw [hS]; exact List.mem_append_left _ he, hev⟩
  · -- graph domain
    intro v hv
    rw [hG] at hv
    by_cases hvv : v = l.var
    · refine ⟨⟨l.var, !l.negated, st.decisionLevel, some c⟩, ?_, hvv.symm⟩
      rw [hS]
      exact List.mem_append_right _ (List.mem_singleton.mpr rfl)
    · rw [updateG_other _ _ _ _ hvv] at hv
      rcases hco.2.2.2 v hv with ⟨e, he, hev⟩
      exact ⟨e, by rw [hS]; exact List.mem_append_left _ he, hev⟩
  · -- level bound
    intro e he
    rw [hS] at he
    rw [hD]
    rcases List.mem_append.mp he with he1 | he1
    · exact hlv.1 e he1
    · have he2 : e = ⟨l.var, !l.negated, st.decisionLevel, some c⟩ := by
        simpa using he1
      subst he2
      exact le_refl _
  · -- pairwise levels
    rw [hS, List.pairwise_append]
    refine ⟨hlv.2, List.pairwise_singleton _ _, ?_⟩
    intro e1 he1 e2 he2
    have he2 : e2 = ⟨l.var, !l.negated, st.decisionLevel, some c⟩ := by
      simpa using he2
    subst he2
    exact hlv.1 e1 he1
  · -- learned
    intro c2 hc2
    rw [hL] at hc2
    exact hlo c2 hc2
  · -- level0 forced
    intro e he h0 σ hσ
    rw [hS] at he
    rcases List.mem_append.mp he with he1 | he1
    · exact hl0 e he1 h0 σ hσ
    · have he2 : e = ⟨l.var, !l.negated, st.decisionLevel, some c⟩ := by
        simpa using he1
      subst he2
      have h0b : st.decisionLevel = 0 := h0
      rcases hent σ hσ with ⟨lt, hlt, hσt⟩
      by_cases hvt : lt.var = l.var
      · have := huniq lt hlt hvt
        subst this
        exact hσt
      · have hf := hothers lt hlt hvt
        rcases assign_entry hco hf with ⟨e2, he2, hev2, hval2⟩
        have hlvl2 : e2.decisionLevel = 0 := by
          have := hlv.1 e2 he2
          omega
        have hforced := hl0 e2 he2 hlvl2 σ hσ
        rw [hev2, hval2] at hforced
        rw [hforced] at hσt
        cases lt.negated <;> simp_all
  · -- reasons
    intro v n hgv r hr
    by_cases hvv : v = l.var
    · subst hvv
      rw [hG, updateG_self] at hgv
      injection hgv with hn
      subst hn
      simp only [Option.some.injEq] at hr
      subst hr
      refine ⟨hent, ?_, ?_⟩
      · intro l2 hl2 hveq
        have := huniq l2 hl2 hveq
        subst this
        simp
      · intro l2 hl2 hvne
        have ha2 := hothers l2 hl2 hvne
        constructor
        · rw [hA, updateA_other _ _ _ _ hvne]
          exact ha2
        · rcases assign_entry hco ha2 with ⟨e2, he2, hev2, hval2⟩
          exact Before_new hS he2 hev2 rfl
    · rw [hG, updateG_other _ _ _ _ hvv] at hgv
      rcases hro v n hgv r hr with ⟨hrE, hrself, hrothers⟩
      refine ⟨hrE, hrself, ?_⟩
      intro l2 hl2 hvne
      rcases hrothers l2 hl2 hvne with ⟨ha2, hb2⟩
      have hne2 : l2.var ≠ l.var := by
        intro he
        rw [he, hvn] at ha2
        exact absurd ha2 (by simp)
      constructor
      · rw [hA, updateA_other _ _ _ _ hne2]
        exact ha2
      · exact Before_append hS hb2

/-- `_make_decision` on an unassigned variable preserves the CDCL
invariant. -/
theorem makeDecision_inv {cls : List Clause} {st : CDCLState} {v : String}
    {b : Bool} (hinv : InvC cls st) (hvn : st.assignment v = none) :
    InvC cls (makeDecision st v b) := by
  obtain ⟨hco, hlv, hlo, hl0, hro⟩ := hinv
  have hA : (makeDecision st v b).assignment = updateA st.assignment v b := rfl
  have hS : (makeDecision st v b).decisionStack =
      st.decisionStack ++ [⟨v, b, st.decisionLevel + 1, none⟩] := rfl
  have hL : (makeDecision st v b).learnedClauses = st.learnedClauses := rfl
  have hD : (makeDecision st v b).decisionLevel = st.decisionLevel + 1 := rfl
  have hG : (makeDecision st v b).implicationGraph =
      updateG st.implicationGraph v ⟨v, b, st.decisionLevel + 1, none, []⟩ := rfl
  have hnotst := unassigned_not_on_stack hco hvn
  refine ⟨⟨?_, ?_, ?_, ?_⟩, ⟨?_, ?_⟩, ?_, ?_, ?_⟩
  · rw [hS, List.map_append, List.nodup_append]
    refine ⟨hco.1, List.nodup_singleton _, ?_⟩
    intro x hx hx2
    rcases List.mem_map.mp hx with ⟨e, he, hev⟩
    have : x = v := by simpa using hx2
    exact hnotst e he (by rw [hev, this])
  · intro e he
    rw [hS] at he
    rcases List.mem_append.mp he with he1 | he1
    · rcases hco.2.1 e he1 with ⟨ha, n, hg, h1, h2, h3, h4⟩
      have hne : e.var ≠ v := hnotst e he1
      rw [hA, hG, updateA_other _ _ _ _ hne, updateG_other _ _ _ _ hne]
      exact ⟨ha, n, hg, h1, h2, h3, h4⟩
    · have he2 : e = ⟨v, b, st.decisionLevel + 1, none⟩ := by
        simpa using he1
      subst he2
      rw [hA, hG]
      exact ⟨updateA_self _ _ _, _, updateG_self _ _ _, rfl, rfl, rfl, rfl⟩
  · intro w hv
    rw [hA] at hv
    by_cases hvv : w = v
    · refine ⟨⟨v, b, st.decisionLevel + 1, none⟩, ?_, hvv.symm⟩
      rw [hS]
      exact List.mem_append_right _ (List.mem_singleton.mpr rfl)
    · rw [updateA_other _ _ _ _ hvv] at hv
      rcases hco.2.2.1 w hv with ⟨e, he, hev⟩
      exact ⟨e, by rw [hS]; exact List.mem_append_left _ he, hev⟩
  · intro w hv
    rw [hG] at hv
    by_cases hvv : w = v
    · refine ⟨⟨v, b, st.decisionLevel + 1, none⟩, ?_, hvv.symm⟩
      rw [hS]
      exact List.mem_append_right _ (List.mem_singleton.mpr rfl)
    · rw [updateG_other _ _ _ _ hvv] at hv
      rcases hco.2.2.2 w hv with ⟨e, he, hev⟩
      exact ⟨e, by rw [hS]; exact List.mem_append_left _ he, hev⟩
  · intro e he
    rw [hS] at he
    rw [hD]
    rcases List.mem_append.mp he with he1 | he1
    · exact Nat.le_succ_of_le (hlv.1 e he1)
    · have he2 : e = ⟨v, b, st.decisionLevel + 1, none⟩ := by
        simpa using he1
      subst he2
      exact le_refl _
  · rw [hS, List.pairwise_append]
    refine ⟨hlv.2, List.pairwise_singleton _ _, ?_⟩
    intro e1 he1 e2 he2
    have he2 : e2 = ⟨v, b, st.decisionLevel + 1, none⟩ := by
      simpa using he2
    subst he2
    exact Nat.le_succ_of_le (hlv.1 e1 he1)
  · intro c2 hc2
    rw [hL] at hc2
    exact hlo c2 hc2
  · intro e he h0 σ hσ
    rw [hS] at he
    rcases List.mem_append.mp he with he1 | he1
    · exact hl0 e he1 h0 σ hσ
    · have he2 : e = ⟨v, b, st.decisionLevel + 1, none⟩ := by
        simpa using he1
      subst he2
      exact absurd h0 (Nat.succ_ne_zero _)
  · intro w n hgv r hr
    by_cases hvv : w = v
    · subst hvv
      rw [hG, updateG_self] at hgv
      injection hgv with hn
      subst hn
      exact absurd hr (by simp)
    · rw [hG, updateG_other _ _ _ _ hvv] at hgv
      rcases hro w n hgv r hr with ⟨hrE, hrself, hrothers⟩
      refine ⟨hrE, hrself, ?_⟩
      intro l2 hl2 hvne
      rcases hrothers l2 hl2 hvne with ⟨ha2, hb2⟩
      have hne2 : l2.var ≠ v := by
        intro he
        rw [he, hvn] at ha2
        exact absurd ha2 (by simp)
      constructor
      · rw [hA, updateA_other _ _ _ _ hne2]
        exact ha2
      · exact Before_append hS hb2

/-- One CDCL propagation scan preserves the invariant, the decision
level and the learned clauses, and a reported conflict is a scanned
clause falsified in the returned state. -/
theorem propagatePassC_inv {cls : List Clause} :
    ∀ (cs : List Clause) (st : CDCLState), InvC cls st →
      (∀ c ∈ cs, Entails cls c) →
      InvC cls (propagatePassC st cs).1 ∧
      (propagatePassC st cs).1.decisionLevel = st.decisionLevel ∧
      (propagatePassC st cs).1.learnedClauses = st.learnedClauses ∧
      ∀ c, (propagatePassC st cs).2.1 = some c →
        c ∈ cs ∧ evaluateClause (propagatePassC st cs).1.assignment c = some false := by
  intro cs
  induction cs with
  | nil =>
    intro st hinv hent
    refine ⟨hinv, rfl, rfl, ?_⟩
    intro c hc
    exact absurd hc (by simp [propagatePassC])
  | cons c cs ih =>
    intro st hinv hent
    cases hev : evaluateClause st.assignment c with
    | some b =>
      cases b with
      | false =>
        have hred : propagatePassC st (c :: cs) = (st, some c, false) := by
          simp only [propagatePassC, hev]
        rw [hred]
        refine ⟨hinv, rfl, rfl, ?_⟩
        intro c2 hc2
        injection hc2 with he
        subst he
        exact ⟨List.mem_cons_self c cs, hev⟩
      | true =>
        have hred : propagatePassC st (c :: cs) = propagatePassC st cs := by
          simp only [propagatePassC, hev]
        rw [hred]
        rcases ih st hinv (fun c2 hc2 => hent c2 (List.mem_cons_of_mem c hc2))
          with ⟨h1, h2, h3, h4⟩
        refine ⟨h1, h2, h3, ?_⟩
        intro c2 hc2
        rcases h4 c2 hc2 with ⟨hm, hf⟩
        exact ⟨List.mem_cons_of_mem c hm, hf⟩
    | none =>
      cases hul : unassignedLits st.assignment c with
      | nil =>
        have hred : propagatePassC st (c :: cs) = propagatePassC st cs := by
          simp only [propagatePassC, hev, hul]
        rw [hred]
        rcases ih st hinv (fun c2 hc2 => hent c2 (List.mem_cons_of_mem c hc2))
          with ⟨h1, h2, h3, h4⟩
        refine ⟨h1, h2, h3, ?_⟩
        intro c2 hc2
        rcases h4 c2 hc2 with ⟨hm, hf⟩
        exact ⟨List.mem_cons_of_mem c hm, hf⟩
      | cons l ls =>
        cases ls with
        | nil =>
          have hred : propagatePassC st (c :: cs) =
              ((propagatePassC (addImplication st l.var (!l.negated) c) cs).1,
               (propagatePassC (addImplication st l.var (!l.negated) c) cs).2.1,
               true) := by
            simp only [propagatePassC, hev, hul]
          rw [hred]
          have hinv2 := addImplication_inv hinv
            (hent c (List.mem_cons_self c cs)) hev hul
          rcases ih (addImplication st l.var (!l.negated) c) hinv2
            (fun c2 hc2 => hent c2 (List.mem_cons_of_mem c hc2))
            with ⟨h1, h2, h3, h4⟩
          refine ⟨h1, h2, h3, ?_⟩
          intro c2 hc2
          rcases h4 c2 hc2 with ⟨hm, hf⟩
          exact ⟨List.mem_cons_of_mem c hm, hf⟩
        | cons l2 ls2 =>
          have hred : propagatePassC st (c :: cs) = propagatePassC st cs := by
            simp only [propagatePassC, hev, hul]
          rw [hred]
          rcases ih st hinv (fun c2 hc2 => hent c2 (List.mem_cons_of_mem c hc2))
            with ⟨h1, h2, h3, h4⟩
          refine ⟨h1, h2, h3, ?_⟩
          intro c2 hc2
          rcases h4 c2 hc2 with ⟨hm, hf⟩
          exact ⟨List.mem_cons_of_mem c hm, hf⟩

/-- A propagation scan that reports no progress leaves the state
unchanged, and if it also reports no conflict then no scanned clause is
falsified. -/
theorem propagatePassC_noprog {cs : List Clause} :
    ∀ st : CDCLState, (propagatePassC st cs).2.2 = false →
      (propagatePassC st cs).1 = st ∧
      ((propagatePassC st cs).2.1 = none →
        ∀ c ∈ cs, evaluateClause st.assignment c ≠ some false) := by
  induction cs with
  | nil =>
    intro st _
    refine ⟨rfl, ?_⟩
    intro _ c hc
    exact absurd hc (by simp)
  | cons c cs ih =>
    intro st hflag
    cases hev : evaluateClause st.assignment c with
    | some b =>
      cases b with
      | false =>
        have hred : propagatePassC st (c :: cs) = (st, some c, false) := by
          simp only [propagatePassC, hev]
        rw [hred]
        refine ⟨rfl, ?_⟩
        intro hn
        exact absurd hn (by simp)
      | true =>
        have hred : propagatePassC st (c :: cs) = propagatePassC st cs := by
          simp only [propagatePassC, hev]
        rw [hred] at hflag ⊢
        rcases ih st hflag with ⟨hst, hno⟩
        refine ⟨hst, ?_⟩
        intro hn c2 hc2
        rcases List.mem_cons.mp hc2 with he | he
        · subst he
          rw [hev]
          simp
        · exact hno hn c2 he
    | none =>
      cases hul : unassignedLits st.assignment c with
      | nil =>
        have hred : propagatePassC st (c :: cs) = propagatePassC st cs := by
          simp only [propagatePassC, hev, hul]
        rw [hred] at hflag ⊢
        rcases ih st hflag with ⟨hst, hno⟩
        refine ⟨hst, ?_⟩
        intro hn c2 hc2
        rcases List.mem_cons.mp hc2 with he | he
        · subst he
          rw [hev]
          simp
        · exact hno hn c2 he
      | cons l ls =>
        cases ls with
        | nil =>
          have hred : propagatePassC st (c :: cs) =
              ((propagatePassC (addImplication st l.var (!l.negated) c) cs).1,
               (propagatePassC (addImplication st l.var (!l.negated) c) cs).2.1,
               true) := by
            simp only [propagatePassC, hev, hul]
          rw [hred] at hflag
          exact absurd hflag (by simp)
        | cons l2 ls2 =>
          have hred : propagatePassC st (c :: cs) = propagatePassC st cs := by
            simp only [propagatePassC, hev, hul]
          rw [hred] at hflag ⊢
          rcases ih st hflag with ⟨hst, hno⟩
          refine ⟨hst, ?_⟩
          intro hn c2 hc2
          rcases List.mem_cons.mp hc2 with he | he
          · subst he
            rw [hev]
            simp
          · exact hno hn c2 he

/-- `_unit_propagation` preserves the invariant; a reported conflict is
an input or learned clause falsified in the final state, and a
conflict-free return leaves no input or learned clause falsified. -/
theorem unitPropagationC_inv {cls : List Clause} :
    ∀ (fuel : Nat) (st st2 : CDCLState) (copt : Option Clause),
      InvC cls st →
      unitPropagationC fuel cls st = some (st2, copt) →
      InvC cls st2 ∧ st2.decisionLevel = st.decisionLevel ∧
        st2.learnedClauses = st.learnedClauses ∧
        (∀ c, copt = some c →
          c ∈ cls ++ st.learnedClauses ∧
            evaluateClause st2.assignment c = some false) ∧
        (copt = none →
          ∀ c ∈ cls ++ st.learnedClauses,
            evaluateClause st2.assignment c ≠ some false) := by
  intro fuel
  induction fuel with
  | zero =>
    intro st st2 copt hinv h
    exact absurd h (by simp [unitPropagationC])
  | succ fuel ih =>
    intro st st2 copt hinv h
    simp only [unitPropagationC] at h
    have hentsc := entails_scanned hinv.2.2.1
    have hpass := propagatePassC_inv (cls ++ st.learnedClauses) st hinv hentsc
    cases hc : (propagatePassC st (cls ++ st.learnedClauses)).2.1 with
    | some c =>
      simp only [hc, Option.some.injEq, Prod.mk.injEq] at h
      obtain ⟨h1, h2⟩ := h
      subst h1
      subst h2
      rcases hpass with ⟨hp1, hp2, hp3, hp4⟩
      rcases hp4 c hc with ⟨hm, hf⟩
      refine ⟨hp1, hp2, hp3, ?_, ?_⟩
      · intro c2 hc2
        injection hc2 with he
        subst he
        exact ⟨hm, hf⟩
      · intro hn
        exact absurd hn (by simp)
    | none =>
      simp only [hc] at h
      rcases hpass with ⟨hp1, hp2, hp3, _⟩
      by_cases hprog : (propagatePassC st (cls ++ st.learnedClauses)).2.2 = true
      · rw [if_pos hprog] at h
        rcases ih _ st2 copt hp1 h with ⟨h1, h2, h3, h4, h5⟩
        refine ⟨h1, by rw [h2, hp2], by rw [h3, hp3], ?_, ?_⟩
        · intro c2 hcop
          rcases h4 c2 hcop with ⟨hm, hf⟩
          rw [hp3] at hm
          exact ⟨hm, hf⟩
        · intro hn c2 hcm
          refine h5 hn c2 ?_
          rw [hp3]
          exact hcm
      · rw [if_neg hprog] at h
        have hflag : (propagatePassC st (cls ++ st.learnedClauses)).2.2 = false := by
          cases hq : (propagatePassC st (cls ++ st.learnedClauses)).2.2 with
          | false => rfl
          | true => exact absurd hq hprog
        rcases propagatePassC_noprog st hflag with ⟨hst, hnofalse⟩
        injection h with h'
        rw [Prod.mk.injEq] at h'
        obtain ⟨h1, h2⟩ := h'
        subst h2
        rw [hst] at h1
        subst h1
        exact ⟨hinv, rfl, rfl,
          fun c2 hc2 => absurd hc2 (by simp),
          fun _ => hnofalse hc⟩

/-- `_literal_exists` decides membership (a `Literal` is exactly its
variable and sign). -/
theorem litExists_iff {l : Literal} {ls : List Literal} :
    literalExists l ls = true ↔ l ∈ ls := by
  rw [literalExists, List.any_eq_true]
  constructor
  · rintro ⟨e, he, hp⟩
    have h1 : e.var = l.var ∧ e.negated = l.negated := by simpa using hp
    have he2 : e = l := by
      cases e
      cases l
      simp_all
    rw [he2] at he
    exact he
  · intro h
    exact ⟨l, h, by simp⟩

/-- Everything in the resolvent accumulator comes from the accumulator
or from a scanned literal off the pivot. -/
theorem resolveFold_subset (p : String) :
    ∀ (ls acc : List Literal),
      ∀ x ∈ ls.foldl
        (fun acc l =>
          if l.var ≠ p ∧ literalExists l acc = false then acc ++ [l] else acc)
        acc,
      x ∈ acc ∨ (x ∈ ls ∧ x.var ≠ p) := by
  intro ls
  induction ls with
  | nil =>
    intro acc x hx
    exact Or.inl hx
  | cons l ls ih =>
    intro acc x hx
    rw [List.foldl_cons] at hx
    rcases ih _ x hx with hacc | ⟨hmem, hne⟩
    · by_cases hcond : l.var ≠ p ∧ literalExists l acc = false
      · rw [if_pos hcond] at hacc
        rcases List.mem_append.mp hacc with h1 | h1
        · exact Or.inl h1
        · have hxl : x = l := by simpa using h1
          subst hxl
          exact Or.inr ⟨List.mem_cons_self _ _, hcond.1⟩
      · rw [if_neg hcond] at hacc
        exact Or.inl hacc
    · exact Or.inr ⟨List.mem_cons_of_mem _ hmem, hne⟩

/-- Every scanned or accumulated literal off the pivot survives into
the resolvent accumulator (possibly as its earlier duplicate). -/
theorem resolveFold_complete (p : String) :
    ∀ (ls acc : List Literal) (x : Literal), x.var ≠ p →
      (x ∈ acc ∨ x ∈ ls) →
      x ∈ ls.foldl
        (fun acc l =>
          if l.var ≠ p ∧ literalExists l acc = false then acc ++ [l] else acc)
        acc := by
  intro ls
  induction ls with
  | nil =>
    intro acc x hx hmem
    rcases hmem with h | h
    · exact h
    · exact absurd h (by simp)
  | cons l ls ih =>
    intro acc x hx hmem
    rw [List.foldl_cons]
    rcases hmem with h | h
    · refine ih _ x hx (Or.inl ?_)
      by_cases hcond : l.var ≠ p ∧ literalExists l acc = false
      · rw [if_pos hcond]
        exact List.mem_append_left _ h
      · rw [if_neg hcond]
        exact h
    · rcases List.mem_cons.mp h with he | he
      · subst he
        refine ih _ x hx (Or.inl ?_)
        by_cases hcond : x.var ≠ p ∧ literalExists x acc = false
        · rw [if_pos hcond]
          exact List.mem_append_right _ (by simp)
        · rw [if_neg hcond]
          have hfalse : ¬ literalExists x acc = false := by
            intro hq
            exact hcond ⟨hx, hq⟩
          have htrue : literalExists x acc = true := by
            cases hq : literalExists x acc with
            | false => exact absurd hq hfalse
            | true => rfl
          exact litExists_iff.mp htrue
      · exact ih _ x hx (Or.inr he)

/-- Resolvent literals come from one of the resolved clauses and avoid
the pivot. -/
theorem resolveClauses_mem {c1 c2 : Clause} {p : String} :
    ∀ l ∈ (resolveClauses c1 c2 p).literals,
      (l ∈ c1.literals ∨ l ∈ c2.literals) ∧ l.var ≠ p := by
  intro l hl
  rcases resolveFold_subset p (c1.literals ++ c2.literals) [] l hl
    with h | ⟨hm, hne⟩
  · exact absurd h (by simp)
  · exact ⟨List.mem_append.mp hm, hne⟩

/-- A literal of either clause off the pivot appears in the resolvent. -/
theorem resolveClauses_mem_of {c1 c2 : Clause} {p : String} {l : Literal}
    (hne : l.var ≠ p) (h : l ∈ c1.literals ∨ l ∈ c2.literals) :
    l ∈ (resolveClauses c1 c2 p).literals :=
  resolveFold_complete p (c1.literals ++ c2.literals) [] l hne
    (Or.inr (List.mem_append.mpr h))

/-- One resolution step of conflict analysis: resolving a falsified
entailed clause with the recorded reason of its pivot variable yields a
falsified entailed clause. -/
theorem resolveClauses_sound {cls : List Clause} {st : CDCLState} {c r : Clause}
    {v : String} {n : ImplicationNode}
    (hco : StackCoherent st) (hro : ReasonsOK cls st)
    (hgn : st.implicationGraph v = some n) (hr : n.reason = some r)
    (hcE : Entails cls c)
    (hcF : ∀ l ∈ c.literals, st.assignment l.var = some l.negated) :
    Entails cls (resolveClauses c r v) ∧
    ∀ l ∈ (resolveClauses c r v).literals,
      st.assignment l.var = some l.negated := by
  rcases hro v n hgn r hr with ⟨hrE, hrself, hrothers⟩
  have hval : st.assignment v = some n.value := (graph_entry hco hgn).1
  constructor
  · intro σ hσ
    rcases hcE σ hσ with ⟨lc, hlc, hσc⟩
    by_cases hvc : lc.var = v
    · have hlcneg : lc.negated = n.value := by
        have hthis := hcF lc hlc
        rw [hvc, hval] at hthis
        exact (Option.some.inj hthis).symm
      have hσv : σ v = !n.value := by
        rw [← hvc, hσc, hlcneg]
      rcases hrE σ hσ with ⟨lr, hlr, hσr⟩
      by_cases hvr : lr.var = v
      · have hneg := hrself lr hlr hvr
        rw [hneg] at hσr
        rw [hvr] at hσr
        rw [hσv] at hσr
        exact absurd hσr (by cases n.value <;> simp)
      · exact ⟨lr, resolveClauses_mem_of hvr (Or.inr hlr), hσr⟩
    · exact ⟨lc, resolveClauses_mem_of hvc (Or.inl hlc), hσc⟩
  · intro l hl
    rcases resolveClauses_mem l hl with ⟨hm | hm, hne⟩
    · exact hcF l hm
    · exact (hrothers l hm hne).1

/-- The conflict-analysis loop returns a clause entailed by the input
whenever its starting clause is entailed and falsified. -/
theorem analyzeConflictLoop_sound {cls : List Clause} :
    ∀ (fuel : Nat) (st : CDCLState) (c c2 : Clause),
      StackCoherent st → ReasonsOK cls st →
      Entails cls c →
      (∀ l ∈ c.literals, st.assignment l.var = some l.negated) →
      analyzeConflictLoop fuel st c = some c2 →
      Entails cls c2 := by
  intro fuel
  induction fuel with
  | zero =>
    intro st c c2 _ _ _ _ h
    exact absurd h (by simp [analyzeConflictLoop])
  | succ fuel ih =>
    intro st c c2 hco hro hE hF h
    simp only [analyzeConflictLoop] at h
    by_cases huip : isFirstUIP st c = true
    · rw [if_pos huip] at h
      injection h with he
      subst he
      exact hE
    · rw [if_neg huip] at h
      cases hfv : findMostRecentCurrentLevelVariable st c with
      | none =>
        simp only [hfv] at h
        injection h with he
        subst he
        exact hE
      | some v =>
        simp only [hfv] at h
        cases hgv : st.implicationGraph v with
        | none =>
          simp only [hgv] at h
          injection h with he
          subst he
          exact hE
        | some n =>
          simp only [hgv] at h
          cases hnr : n.reason with
          | none =>
            simp only [hnr] at h
            injection h with he
            subst he
            exact hE
          | some r =>
            simp only [hnr] at h
            rcases resolveClauses_sound hco hro hgv hnr hE hF with ⟨hE2, hF2⟩
            exact ih st _ c2 hco hro hE2 hF2 h

/-- `_analyze_conflict` returns a clause entailed by the input whenever
the conflict clause is entailed and falsified. -/
theorem analyzeConflictF_sound {cls : List Clause} {fuel : Nat}
    {st : CDCLState} {c c2 : Clause} (hco : StackCoherent st)
    (hro : ReasonsOK cls st) (hE : Entails cls c)
    (hF : ∀ l ∈ c.literals, st.assignment l.var = some l.negated)
    (h : analyzeConflictF fuel st c = some c2) : Entails cls c2 := by
  rw [analyzeConflictF] at h
  by_cases h0 : st.decisionLevel = 0
  · rw [if_pos h0] at h
    injection h with he
    subst he
    exact hE
  · rw [if_neg h0] at h
    exact analyzeConflictLoop_sound fuel st c c2 hco hro hE hF h

/-- Trail entries found at the same variable sit at the same index when
trail variables are distinct. -/
theorem nodup_var_idx {st : CDCLState}
    (hnd : (st.decisionStack.map Assignment.var).Nodup)
    {i j : Nat} {e1 e2 : Assignment}
    (h1 : st.decisionStack[i]? = some e1) (h2 : st.decisionStack[j]? = some e2)
    (hv : e1.var = e2.var) : i = j := by
  have hi := getq_lt h1
  have hj := getq_lt h2
  have hg1 : st.decisionStack[i] = e1 := by
    rw [List.getElem?_eq_getElem hi] at h1
    exact Option.some.inj h1
  have hg2 : st.decisionStack[j] = e2 := by
    rw [List.getElem?_eq_getElem hj] at h2
    exact Option.some.inj h2
  have hmi : i < (st.decisionStack.map Assignment.var).length := by simpa using hi
  have hmj : j < (st.decisionStack.map Assignment.var).length := by simpa using hj
  have hgm : (st.decisionStack.map Assignment.var).get ⟨i, hmi⟩ =
      (st.decisionStack.map Assignment.var).get ⟨j, hmj⟩ := by
    simp only [List.get_eq_getElem, List.getElem_map, hg1, hg2, hv]
  have hfin := (List.Nodup.get_inj_iff hnd).mp hgm
  exact congrArg Fin.val hfin

/-- The last trail entry sits at index `length - 1`. -/
theorem getLast_getq {α : Type} {l : List α} {e : α} (h : l.getLast? = some e) :
    l[l.dropLast.length]? = some e := by
  have hdecomp := List.dropLast_append_getLast? e h
  have h2 : (l.dropLast ++ [e])[l.dropLast.length]? = some e := by
    rw [List.getElem?_append_right (le_refl _)]
    simp
  rw [hdecomp] at h2
  exact h2

/-- Index lookups below the last entry survive `dropLast`. -/
theorem getq_dropLast {α : Type} {l : List α} {k : Nat}
    (hk : k < l.dropLast.length) : l.dropLast[k]? = l[k]? := by
  have hk2 : k < l.length - 1 := by
    have := List.length_dropLast l
    omega
  rw [List.dropLast_eq_take, List.getElem?_take]
  simp [hk2]

/-- `Before` survives popping the last trail entry as long as the
target variable is not the popped one. -/
theorem Before_dropLast {st st2 : CDCLState} {e : Assignment} {u v : String}
    (hnd : (st.decisionStack.map Assignment.var).Nodup)
    (hlast : st.decisionStack.getLast? = some e)
    (hs2 : st2.decisionStack = st.decisionStack.dropLast)
    (hvne : v ≠ e.var) (hb : Before st u v) : Before st2 u v := by
  rcases hb with ⟨i, j, hij, ⟨e1, h1, hv1⟩, ⟨e2, h2, hv2⟩⟩
  have hdecomp := List.dropLast_append_getLast? e hlast
  have hlen : st.decisionStack.length = st.decisionStack.dropLast.length + 1 := by
    conv_lhs => rw [← hdecomp]
    rw [List.length_append]
    rfl
  have hlaste := getLast_getq hlast
  have hj := getq_lt h2
  have hjne : j ≠ st.decisionStack.dropLast.length := by
    intro he
    rw [he, hlaste] at h2
    injection h2 with h2e
    rw [← h2e] at hv2
    exact hvne hv2.symm
  have hjlt : j < st.decisionStack.dropLast.length := by omega
  have hilt : i < st.decisionStack.dropLast.length := by omega
  refine ⟨i, j, hij, ⟨e1, ?_, hv1⟩, ⟨e2, ?_, hv2⟩⟩
  · rw [hs2, getq_dropLast hilt]
    exact h1
  · rw [hs2, getq_dropLast hjlt]
    exact h2

/-- Popping the last trail entry (with its assignment and graph node)
preserves the CDCL invariant. -/
theorem pop_inv {cls : List Clause} {st st2 : CDCLState} {e : Assignment}
    (hinv : InvC cls st) (hlast : st.decisionStack.getLast? = some e)
    (hs : st2.decisionStack = st.decisionStack.dropLast)
    (ha : st2.assignment = eraseA st.assignment e.var)
    (hg : st2.implicationGraph = eraseG st.implicationGraph e.var)
    (hl : st2.learnedClauses = st.learnedClauses)
    (hd : st2.decisionLevel = st.decisionLevel) :
    InvC cls st2 := by
  obtain ⟨hco, hlv, hlo, hl0, hro⟩ := hinv
  have hdecomp : st.decisionStack.dropLast ++ [e] = st.decisionStack :=
    List.dropLast_append_getLast? e hlast
  have hnd1 : (st.decisionStack.dropLast.map Assignment.var).Nodup := by
    have hnd2 := hco.1
    rw [← hdecomp, List.map_append] at hnd2
    exact (List.nodup_append.mp hnd2).1
  have hdisj : ∀ e2 ∈ st.decisionStack.dropLast, e2.var ≠ e.var := by
    intro e2 he2 hv
    have hnd2 := hco.1
    rw [← hdecomp, List.map_append] at hnd2
    exact (List.nodup_append.mp hnd2).2.2 (List.mem_map_of_mem _ he2)
      (by simp [hv])
  have hmem1 : ∀ e2 ∈ st.decisionStack.dropLast, e2 ∈ st.decisionStack := by
    intro e2 he2
    rw [← hdecomp]
    exact List.mem_append_left _ he2
  refine ⟨⟨?_, ?_, ?_, ?_⟩, ⟨?_, ?_⟩, ?_, ?_, ?_⟩
  · rw [hs]
    exact hnd1
  · intro e2 he2
    rw [hs] at he2
    have hne := hdisj e2 he2
    rcases hco.2.1 e2 (hmem1 e2 he2) with ⟨ha2, n, hg2, k1, k2, k3, k4⟩
    rw [ha, hg, eraseA_other _ _ _ hne, eraseG_other _ _ _ hne]
    exact ⟨ha2, n, hg2, k1, k2, k3, k4⟩
  · intro v hv
    rw [ha] at hv
    by_cases hvv : v = e.var
    · subst hvv
      rw [eraseA_self] at hv
      exact absurd hv (by simp)
    · rw [eraseA_other _ _ _ hvv] at hv
      rcases hco.2.2.1 v hv with ⟨e2, he2, hev⟩
      rw [← hdecomp] at he2
      rcases List.mem_append.mp he2 with h | h
      · exact ⟨e2, by rw [hs]; exact h, hev⟩
      · have : e2 = e := by simpa using h
        subst this
        exact absurd hev.symm hvv
  · intro v hv
    rw [hg] at hv
    by_cases hvv : v = e.var
    · subst hvv
      rw [eraseG_self] at hv
      exact absurd hv (by simp)
    · rw [eraseG_other _ _ _ hvv] at hv
      rcases hco.2.2.2 v hv with ⟨e2, he2, hev⟩
      rw [← hdecomp] at he2
      rcases List.mem_append.mp he2 with h | h
      · exact ⟨e2, by rw [hs]; exact h, hev⟩
      · have : e2 = e := by simpa using h
        subst this
        exact absurd hev.symm hvv
  · intro e2 he2
    rw [hs] at he2
    rw [hd]
    exact hlv.1 e2 (hmem1 e2 he2)
  · have hp := hlv.2
    rw [← hdecomp] at hp
    rw [hs]
    exact (List.pairwise_append.mp hp).1
  · intro c hc
    rw [hl] at hc
    exact hlo c hc
  · intro e2 he2 h0 σ hσ
    rw [hs] at he2
    exact hl0 e2 (hmem1 e2 he2) h0 σ hσ
  · intro v n hgv r hr
    rw [hg] at hgv
    by_cases hvv : v = e.var
    · subst hvv
      rw [eraseG_self] at hgv
      exact absurd hgv (by simp)
    · rw [eraseG_other _ _ _ hvv] at hgv
      rcases hro v n hgv r hr with ⟨hrE, hrself, hrothers⟩
      refine ⟨hrE, hrself, ?_⟩
      intro l2 hl2 hvne
      rcases hrothers l2 hl2 hvne with ⟨ha2, hb2⟩
      have hlen : st.decisionStack.length = st.decisionStack.dropLast.length + 1 := by
        conv_lhs => rw [← hdecomp]
        rw [List.length_append]
        rfl
      have hl2ne : l2.var ≠ e.var := by
        intro hveq
        rcases hb2 with ⟨i, j, hij, ⟨e1, h1, hv1⟩, ⟨e2b, h2, hv2⟩⟩
        have hieq : i = st.decisionStack.dropLast.length :=
          nodup_var_idx hco.1 h1 (getLast_getq hlast) (by rw [hv1, hveq])
        have hjlt := getq_lt h2
        omega
      constructor
      · rw [ha, eraseA_other _ _ _ hl2ne]
        exact ha2
      · exact Before_dropLast hco.1 hlast hs hvv hb2

/-- `_remove_current_level_assignments`, step by step, preserves the
invariant and touches neither the decision level nor the learned
clauses. -/
theorem removeCurrentLevelAux_inv {cls : List Clause} :
    ∀ (n : Nat) (st : CDCLState), InvC cls st →
      InvC cls (removeCurrentLevelAux n st) ∧
      (removeCurrentLevelAux n st).decisionLevel = st.decisionLevel ∧
      (removeCurrentLevelAux n st).learnedClauses = st.learnedClauses := by
  intro n
  induction n with
  | zero =>
    intro st hinv
    exact ⟨hinv, rfl, rfl⟩
  | succ n ih =>
    intro st hinv
    cases hlast : st.decisionStack.getLast? with
    | none =>
      have hred : removeCurrentLevelAux (n + 1) st = st := by
        simp only [removeCurrentLevelAux, hlast]
      rw [hred]
      exact ⟨hinv, rfl, rfl⟩
    | some e =>
      by_cases hlev : e.decisionLevel = st.decisionLevel
      · have hred : removeCurrentLevelAux (n + 1) st =
            removeCurrentLevelAux n
              { st with
                decisionStack := st.decisionStack.dropLast,
                assignment := eraseA st.assignment e.var,
                implicationGraph := eraseG st.implicationGraph e.var } := by
          simp only [removeCurrentLevelAux, hlast, if_pos hlev]
        rw [hred]
        have hinv2 : InvC cls
            { st with
              decisionStack := st.decisionStack.dropLast,
              assignment := eraseA st.assignment e.var,
              implicationGraph := eraseG st.implicationGraph e.var } :=
          pop_inv hinv hlast rfl rfl rfl rfl rfl
        rcases ih _ hinv2 with ⟨h1, h2, h3⟩
        exact ⟨h1, h2, h3⟩
      · have hred : removeCurrentLevelAux (n + 1) st = st := by
          simp only [removeCurrentLevelAux, hlast, if_neg hlev]
        rw [hred]
        exact ⟨hinv, rfl, rfl⟩

/-- After removing the current level (with enough fuel), every
remaining trail entry sits at a strictly lower level. -/
theorem removeCurrentLevelAux_levels :
    ∀ (n : Nat) (st : CDCLState),
      (∀ e ∈ st.decisionStack, e.decisionLevel ≤ st.decisionLevel) →
      st.decisionStack.Pairwise
        (fun e1 e2 => e1.decisionLevel ≤ e2.decisionLevel) →
      st.decisionStack.length ≤ n →
      ∀ e ∈ (removeCurrentLevelAux n st).decisionStack,
        e.decisionLevel < st.decisionLevel := by
  intro n
  induction n with
  | zero =>
    intro st hb hp hlen e he
    have hnil : st.decisionStack = [] :=
      List.length_eq_zero.mp (Nat.le_zero.mp hlen)
    have hred : removeCurrentLevelAux 0 st = st := rfl
    rw [hred, hnil] at he
    exact absurd he (by simp)
  | succ n ih =>
    intro st hb hp hlen e2 he2
    cases hlast : st.decisionStack.getLast? with
    | none =>
      have hnil : st.decisionStack = [] := by
        rcases List.eq_nil_or_concat st.decisionStack with h | ⟨l2, b, h⟩
        · exact h
        · rw [h, List.concat_eq_append, List.getLast?_concat] at hlast
          exact absurd hlast (by simp)
      have hred : removeCurrentLevelAux (n + 1) st = st := by
        simp only [removeCurrentLevelAux, hlast]
      rw [hred, hnil] at he2
      exact absurd he2 (by simp)
    | some e =>
      have hdecomp : st.decisionStack.dropLast ++ [e] = st.decisionStack :=
        List.dropLast_append_getLast? e hlast
      by_cases hlev : e.decisionLevel = st.decisionLevel
      · have hred : removeCurrentLevelAux (n + 1) st =
            removeCurrentLevelAux n
              { st with
                decisionStack := st.decisionStack.dropLast,
                assignment := eraseA st.assignment e.var,
                implicationGraph := eraseG st.implicationGraph e.var } := by
          simp only [removeCurrentLevelAux, hlast, if_pos hlev]
        rw [hred] at he2
        have hlen2 : st.decisionStack.dropLast.length ≤ n := by
          have h1 : st.decisionStack.length =
              st.decisionStack.dropLast.length + 1 := by
            conv_lhs => rw [← hdecomp]
            rw [List.length_append]
            rfl
          omega
        have hb2 : ∀ e3 ∈ st.decisionStack.dropLast,
            e3.decisionLevel ≤ st.decisionLevel := by
          intro e3 he3
          refine hb e3 ?_
          rw [← hdecomp]
          exact List.mem_append_left _ he3
        have hp2 : st.decisionStack.dropLast.Pairwise
            (fun e1 e2 => e1.decisionLevel ≤ e2.decisionLevel) := by
          have hp3 := hp
          rw [← hdecomp] at hp3
          exact (List.pairwise_append.mp hp3).1
        exact ih
          { st with
            decisionStack := st.decisionStack.dropLast,
            assignment := eraseA st.assignment e.var,
            implicationGraph := eraseG st.implicationGraph e.var }
          hb2 hp2 hlen2 e2 he2
      · have hred : removeCurrentLevelAux (n + 1) st = st := by
          simp only [removeCurrentLevelAux, hlast, if_neg hlev]
        rw [hred] at he2
        have helev : e.decisionLevel < st.decisionLevel := by
          have := hb e (by rw [← hdecomp]; exact List.mem_append_right _ (by simp))
          omega
        rw [← hdecomp] at he2
        rcases List.mem_append.mp he2 with h | h
        · have hp3 := hp
          rw [← hdecomp] at hp3
          have := (List.pairwise_append.mp hp3).2.2 e2 h e (by simp)
          omega
        · have : e2 = e := by simpa using h
          subst this
          exact helev

/-- `_remove_current_level_assignments` preserves the invariant and
leaves only strictly lower levels on the trail. -/
theorem removeCurrentLevel_inv {cls : List Clause} {st : CDCLState}
    (hinv : InvC cls st) :
    InvC cls (removeCurrentLevelAssignments st) ∧
    (removeCurrentLevelAssignments st).decisionLevel = st.decisionLevel ∧
    (removeCurrentLevelAssignments st).learnedClauses = st.learnedClauses ∧
    ∀ e ∈ (removeCurrentLevelAssignments st).decisionStack,
      e.decisionLevel < st.decisionLevel := by
  rcases removeCurrentLevelAux_inv _ st hinv with ⟨h1, h2, h3⟩
  exact ⟨h1, h2, h3,
    removeCurrentLevelAux_levels _ st hinv.2.1.1 hinv.2.1.2 (le_refl _)⟩

/-- The backtracking loop preserves the invariant and the learned
clauses. -/
theorem backtrackToLevelAux_inv {cls : List Clause} :
    ∀ (k target : Nat) (st : CDCLState), InvC cls st →
      InvC cls (backtrackToLevelAux k target st) ∧
      (backtrackToLevelAux k target st).learnedClauses = st.learnedClauses := by
  intro k
  induction k with
  | zero =>
    intro target st hinv
    exact ⟨hinv, rfl⟩
  | succ k ih =>
    intro target st hinv
    by_cases hlt : target < st.decisionLevel
    · have hred : backtrackToLevelAux (k + 1) target st =
          backtrackToLevelAux k target
            { removeCurrentLevelAssignments st with
              decisionLevel :=
                (removeCurrentLevelAssignments st).decisionLevel - 1 } := by
        simp only [backtrackToLevelAux, if_pos hlt]
      rw [hred]
      rcases removeCurrentLevel_inv hinv with ⟨h1, h2, h3, h4⟩
      have hinv2 : InvC cls
          { removeCurrentLevelAssignments st with
            decisionLevel :=
              (removeCurrentLevelAssignments st).decisionLevel - 1 } := by
        refine ⟨h1.1, ⟨?_, h1.2.1.2⟩, h1.2.2.1, h1.2.2.2.1, h1.2.2.2.2⟩
        intro e he
        have hs := h4 e he
        show e.decisionLevel ≤ (removeCurrentLevelAssignments st).decisionLevel - 1
        omega
      rcases ih target _ hinv2 with ⟨g1, g2⟩
      refine ⟨g1, ?_⟩
      rw [g2]
      exact h3
    · have hred : backtrackToLevelAux (k + 1) target st = st := by
        simp only [backtrackToLevelAux, if_neg hlt]
      rw [hred]
      exact ⟨hinv, rfl⟩

/-- `_backtrack_to_level` preserves the invariant and the learned
clauses. -/
theorem backtrackToLevel_inv {cls : List Clause} {st : CDCLState}
    {target : Nat} (hinv : InvC cls st) :
    InvC cls (backtrackToLevel st target) ∧
    (backtrackToLevel st target).learnedClauses = st.learnedClauses :=
  backtrackToLevelAux_inv st.decisionLevel target st hinv

/-- If `_choose_variable` finds nothing, every variable of the input and
learned clauses is assigned. -/
theorem chooseVariableC_none {orig : List Clause} {st : CDCLState}
    (h : chooseVariableC orig st = none) :
    ∀ c ∈ orig ++ st.learnedClauses, ∀ l ∈ c.literals,
      (st.assignment l.var).isSome = true := by
  intro c hc l hl
  have h1 := List.findSome?_eq_none.mp h c hc
  have h2 := List.findSome?_eq_none.mp h1 l hl
  by_cases hn : (st.assignment l.var).isNone = true
  · rw [if_pos hn] at h2
    exact absurd h2 (by simp)
  · cases ha : st.assignment l.var with
    | none => rw [ha] at hn; exact absurd rfl hn
    | some b => simp

/-- `_choose_variable` returns an unassigned variable. -/
theorem chooseVariableC_some {orig : List Clause} {st : CDCLState} {v : String}
    (h : chooseVariableC orig st = some v) : st.assignment v = none := by
  rcases List.exists_of_findSome?_eq_some h with ⟨c, hc, hinner⟩
  rcases List.exists_of_findSome?_eq_some hinner with ⟨l, hl, hif⟩
  by_cases hn : (st.assignment l.var).isNone = true
  · rw [if_pos hn] at hif
    injection hif with he
    subst he
    exact Option.isNone_iff_eq_none.mp hn
  · rw [if_neg hn] at hif
    exact absurd hif (by simp)

/-- `_handle_conflict`: an UNSAT return at level 0 is sound, and a
continuation return preserves the invariant (with the entailed learned
clause appended). -/
theorem handleConflictF_inv {cls : List Clause} {st st3 : CDCLState}
    {conflict : Clause} {afuel : Nat} {ropt : Option DecisionResult}
    (hinv : InvC cls st)
    (hcmem : conflict ∈ cls ++ st.learnedClauses)
    (hcf : evaluateClause st.assignment conflict = some false)
    (h : handleConflictF afuel st conflict = some (st3, ropt)) :
    (∀ r0, ropt = some r0 →
      r0 = DecisionResult.UNSAT ∧ ∀ σ : String → Bool, ¬ CNFSat σ cls) ∧
    (ropt = none → InvC cls st3) := by
  simp only [handleConflictF] at h
  cases han : analyzeConflictF afuel st conflict with
  | none =>
    simp only [han] at h
    exact absurd h (by simp)
  | some learned =>
    simp only [han] at h
    have hE : Entails cls learned :=
      analyzeConflictF_sound hinv.1 hinv.2.2.2.2
        (entails_scanned hinv.2.2.1 conflict hcmem)
        ((evaluateClause_eq_false_iff _ _).mp hcf) han
    have hinv2 : InvC cls
        { st with learnedClauses := st.learnedClauses ++ [learned] } := by
      obtain ⟨hco, hlv, hlo, hl0, hro⟩ := hinv
      refine ⟨hco, hlv, ?_, hl0, hro⟩
      intro c2 hc2
      rcases List.mem_append.mp hc2 with h1 | h1
      · exact hlo c2 h1
      · have he : c2 = learned := by simpa using h1
        subst he
        exact hE
    by_cases h0 : st.decisionLevel = 0
    · rw [if_pos h0] at h
      simp only [Option.some.injEq, Prod.mk.injEq] at h
      obtain ⟨h1, h2⟩ := h
      subst h2
      refine ⟨?_, ?_⟩
      · intro r0 hr0
        injection hr0 with hr0e
        subst hr0e
        refine ⟨rfl, ?_⟩
        intro σ hσ
        rcases entails_scanned hinv.2.2.1 conflict hcmem σ hσ with ⟨l, hl, hσl⟩
        have hfal := (evaluateClause_eq_false_iff _ _).mp hcf l hl
        rcases assign_entry hinv.1 hfal with ⟨e, he, hev, hval⟩
        have hlev : e.decisionLevel = 0 := by
          have := hinv.2.1.1 e he
          omega
        have hforced := hinv.2.2.2.1 e he hlev σ hσ
        rw [hev, hval] at hforced
        rw [hforced] at hσl
        cases l.negated <;> simp_all
      · intro hn
        exact absurd hn (by simp)
    · rw [if_neg h0] at h
      simp only [Option.some.injEq, Prod.mk.injEq] at h
      obtain ⟨h1, h2⟩ := h
      subst h2
      refine ⟨?_, ?_⟩
      · intro r0 hr0
        exact absurd hr0 (by simp)
      · intro _
        rw [← h1]
        exact (backtrackToLevel_inv hinv2).1

/-- Establishing the CDCL invariant for `__init__`. -/
theorem initCDCLState_inv {cls : List Clause} : InvC cls initCDCLState := by
  refine ⟨⟨?_, ?_, ?_, ?_⟩, ⟨?_, ?_⟩, ?_, ?_, ?_⟩
  · simp [initCDCLState]
  · intro e he
    exact absurd he (by simp [initCDCLState])
  · intro v hv
    exact absurd hv (by simp [initCDCLState, emptyAssign])
  · intro v hv
    exact absurd hv (by simp [initCDCLState])
  · intro e he
    exact absurd he (by simp [initCDCLState])
  · simp [initCDCLState]
  · intro c hc
    exact absurd hc (by simp [initCDCLState])
  · intro e he
    exact absurd he (by simp [initCDCLState])
  · intro v n hg
    exact absurd hg (by simp [initCDCLState])

/-- Soundness of the CDCL solve loop: under the invariant, a SAT return
exposes an assignment satisfying every input clause and an UNSAT return
means no total assignment satisfies the input. -/
theorem cdclLoopF_sound {cls : List Clause} :
    ∀ (fuel : Nat) (st st2 : CDCLState) (r : DecisionResult),
      InvC cls st →
      cdclLoopF fuel cls st = some (r, st2) →
      (r = DecisionResult.SAT → CNFSatP st2.assignment cls) ∧
      (r = DecisionResult.UNSAT → ∀ σ : String → Bool, ¬ CNFSat σ cls) := by
  intro fuel
  induction fuel with
  | zero =>
    intro st st2 r hinv h
    exact absurd h (by simp [cdclLoopF])
  | succ fuel ih =>
    intro st st2 r hinv h
    simp only [cdclLoopF] at h
    cases hup : unitPropagationC
        (numUnassigned (cls ++ st.learnedClauses) st.assignment + 1) cls st with
    | none =>
      simp only [hup] at h
      exact absurd h (by simp)
    | some p =>
      obtain ⟨stp, copt⟩ := p
      simp only [hup] at h
      rcases unitPropagationC_inv _ st stp copt hinv hup
        with ⟨hin2, hdl2, hlc2, hcon, hnof⟩
      cases copt with
      | some conflict =>
        rcases hcon conflict rfl with ⟨hcm, hcf⟩
        have hcm2 : conflict ∈ cls ++ stp.learnedClauses := by
          rw [hlc2]
          exact hcm
        cases hhc : handleConflictF (stp.decisionStack.length + 1) stp conflict with
        | none =>
          simp only [hhc] at h
          exact absurd h (by simp)
        | some q =>
          obtain ⟨st3, ropt⟩ := q
          simp only [hhc] at h
          rcases handleConflictF_inv hin2 hcm2 hcf hhc with ⟨hu, hcont⟩
          cases ropt with
          | some r0 =>
            simp only [Option.some.injEq, Prod.mk.injEq] at h
            obtain ⟨h1, h2⟩ := h
            subst h1
            subst h2
            rcases hu r0 rfl with ⟨hr0, huns⟩
            subst hr0
            refine ⟨?_, ?_⟩
            · intro hrs
              exact absurd hrs (by simp)
            · intro _
              exact huns
          | none =>
            exact ih st3 st2 r (hcont rfl) h
      | none =>
        cases hmd : makeNextDecision cls stp with
        | none =>
          simp only [hmd] at h
          simp only [Option.some.injEq, Prod.mk.injEq] at h
          obtain ⟨h1, h2⟩ := h
          subst h1
          subst h2
          refine ⟨?_, ?_⟩
          · intro _
            intro c hc
            have hall : ∀ l ∈ c.literals, (stp.assignment l.var).isSome = true := by
              cases hcv : chooseVariableC cls stp with
              | none =>
                exact fun l hl =>
                  chooseVariableC_none hcv c (List.mem_append_left _ hc) l hl
              | some v =>
                simp only [makeNextDecision, hcv] at hmd
                exact absurd hmd (by simp)
            have hnf := hnof rfl c (List.mem_append_left _ hc)
            cases hev : evaluateClause stp.assignment c with
            | none =>
              rcases evaluateClause_none_unassigned _ c hev with ⟨l, hl, hln⟩
              have hsm := hall l hl
              rw [hln] at hsm
              exact absurd hsm (by simp)
            | some b =>
              cases b with
              | false => exact absurd hev hnf
              | true => exact (evaluateClause_eq_true_iff _ c).mp hev
          · intro hru
            exact absurd hru (by simp)
        | some st3 =>
          simp only [hmd] at h
          have hinv3 : InvC cls st3 := by
            cases hcv : chooseVariableC cls stp with
            | none =>
              simp only [makeNextDecision, hcv] at hmd
              exact absurd hmd (by simp)
            | some v =>
              simp only [makeNextDecision, hcv, Option.some.injEq] at hmd
              rw [← hmd]
              exact makeDecision_inv hin2 (chooseVariableC_some hcv)
          exact ih st3 st2 r hinv3 h

/-- Soundness of `CDCLSolver.solve()` on a fresh solver. -/
theorem cdclSolveF_sound {cnf : CNFFormula} {fuel : Nat} {r : DecisionResult}
    {st : CDCLState} (h : cdclSolveF cnf fuel = some (r, st)) :
    (r = DecisionResult.SAT → CNFSatP st.assignment cnf.clauses) ∧
    (r = DecisionResult.UNSAT → ∀ σ : String → Bool, ¬ CNFSat σ cnf.clauses) :=
  cdclLoopF_sound fuel initCDCLState st r initCDCLState_inv h

/-- C1: for every CNF input, whenever `DPLLSolver.solve` or
`CDCLSolver.solve` returns SAT, the assignment the solver exposes
satisfies every clause of the input, and whenever either returns UNSAT,
no total assignment over the variables satisfies the input. -/
theorem C1_solver_soundness (cnf : CNFFormula) (order : List String)
    (fuel cfuel : Nat) :
    (∀ a, dpllSolveF cnf order fuel = some (DpllRes.SAT, a) →
       CNFSatP a cnf.clauses) ∧
    (∀ a, dpllSolveF cnf order fuel = some (DpllRes.UNSAT, a) →
       ∀ σ : String → Bool, ¬ CNFSat σ cnf.clauses) ∧
    (∀ st, cdclSolveF cnf cfuel = some (DecisionResult.SAT, st) →
       CNFSatP st.assignment cnf.clauses) ∧
    (∀ st, cdclSolveF cnf cfuel = some (DecisionResult.UNSAT, st) →
       ∀ σ : String → Bool, ¬ CNFSat σ cnf.clauses) := by
  refine ⟨?_, ?_, ?_, ?_⟩
  · intro a h
    exact dpllF_sat_satisfies fuel cnf.clauses order emptyAssign emptyAssign a h
  · intro a h σ hσ
    exact dpllF_unsat_sound fuel cnf.clauses order emptyAssign emptyAssign a h σ
      (fun v b hb => absurd hb (by simp [emptyAssign])) hσ
  · intro st h
    exact (cdclSolveF_sound h).1 rfl
  · intro st h
    exact (cdclSolveF_sound h).2 rfl

/-- `max(..., key=...)` returns an element of the list. -/
theorem maxByKey_mem (key : String → Int) :
    ∀ (l : List String) (a : String), maxByKey key a l ∈ a :: l := by
  intro l
  induction l with
  | nil =>
    intro a
    simp [maxByKey]
  | cons x xs ih =>
    intro a
    rw [show maxByKey key a (x :: xs) =
        maxByKey key (if key x > key a then x else a) xs from rfl]
    by_cases hc : key x > key a
    · rw [if_pos hc]
      rcases List.mem_cons.mp (ih x) with h1 | h1
      · rw [h1]
        exact List.mem_cons_of_mem _ (List.mem_cons_self _ _)
      · exact List.mem_cons_of_mem _ (List.mem_cons_of_mem _ h1)
    · rw [if_neg hc]
      rcases List.mem_cons.mp (ih a) with h1 | h1
      · rw [h1]
        exact List.mem_cons_self _ _
      · exact List.mem_cons_of_mem _ (List.mem_cons_of_mem _ h1)

/-- `max(..., key=...)` dominates every element of the list. -/
theorem maxByKey_ge (key : String → Int) :
    ∀ (l : List String) (a : String), ∀ x ∈ a :: l,
      key x ≤ key (maxByKey key a l) := by
  intro l
  induction l with
  | nil =>
    intro a x hx
    have hxa : x = a := by simpa using hx
    subst hxa
    exact le_refl _
  | cons y ys ih =>
    intro a x hx
    rw [show maxByKey key a (y :: ys) =
        maxByKey key (if key y > key a then y else a) ys from rfl]
    have hstep : key a ≤ key (if key y > key a then y else a) ∧
        key y ≤ key (if key y > key a then y else a) := by
      by_cases hc : key y > key a
      · rw [if_pos hc]
        exact ⟨le_of_lt hc, le_refl _⟩
      · rw [if_neg hc]
        exact ⟨le_refl _, le_of_not_lt hc⟩
    rcases List.mem_cons.mp hx with h1 | h1
    · subst h1
      exact le_trans hstep.1 (ih _ _ (List.mem_cons_self _ _))
    · rcases List.mem_cons.mp h1 with h2 | h2
      · subst h2
        exact le_trans hstep.2 (ih _ _ (List.mem_cons_self _ _))
      · exact ih _ x (List.mem_cons_of_mem _ h2)

/-- A successful `findIdx?` points at a matching element. -/
theorem findIdxq_spec {α : Type} (p : α → Bool) :
    ∀ (l : List α) (s j : Nat), List.findIdx? p l s = some j →
      s ≤ j ∧ ∃ e, l[j - s]? = some e ∧ p e = true := by
  intro l
  induction l with
  | nil =>
    intro s j h
    exact absurd h (by simp)
  | cons x xs ih =>
    intro s j h
    rw [List.findIdx?_cons] at h
    by_cases hp : p x = true
    · rw [if_pos hp] at h
      injection h with he
      subst he
      refine ⟨le_refl _, x, ?_, hp⟩
      simp
    · rw [if_neg hp] at h
      rcases ih (s + 1) j h with ⟨hle, e, hg, hpe⟩
      refine ⟨by omega, e, ?_, hpe⟩
      have hj : j - s = (j - (s + 1)) + 1 := by omega
      rw [hj]
      simpa using hg

/-- A nonnegative `_find_variable_assignment_index` points at a trail
entry for the variable at the current decision level. -/
theorem fvai_spec {st : CDCLState} {v : String}
    (h : 0 ≤ findVariableAssignmentIndex st v) :
    ∃ i : Nat, findVariableAssignmentIndex st v = (i : Int) ∧
      ∃ e, st.decisionStack[i]? = some e ∧ e.var = v ∧
        e.decisionLevel = st.decisionLevel := by
  cases hf : st.decisionStack.findIdx?
      (fun e => decide (e.var = v) && decide (e.decisionLevel = st.decisionLevel)) with
  | none =>
    simp only [findVariableAssignmentIndex, hf] at h
    exact absurd h (by omega)
  | some i =>
    have hval : findVariableAssignmentIndex st v = (i : Int) := by
      simp only [findVariableAssignmentIndex, hf]
    rcases findIdxq_spec _ _ 0 i hf with ⟨_, e, hg, hpe⟩
    simp only [Nat.sub_zero] at hg
    have hpe2 : e.var = v ∧ e.decisionLevel = st.decisionLevel := by
      simpa using hpe
    exact ⟨i, hval, e, hg, hpe2.1, hpe2.2⟩

/-- On-stack variables are determined by their assignment index. -/
theorem fvai_inj {st : CDCLState} {u w : String}
    (hu : 0 ≤ findVariableAssignmentIndex st u)
    (hw : 0 ≤ findVariableAssignmentIndex st w)
    (heq : findVariableAssignmentIndex st u = findVariableAssignmentIndex st w) :
    u = w := by
  rcases fvai_spec hu with ⟨i, hi, e1, hg1, hv1, _⟩
  rcases fvai_spec hw with ⟨j, hj, e2, hg2, hv2, _⟩
  rw [hi, hj] at heq
  have hij : i = j := by exact_mod_cast heq
  subst hij
  rw [hg1] at hg2
  injection hg2 with he
  rw [← hv1, he, hv2]

/-- A variable at the current level has a graph node at that level. -/
theorem isVarCL_node {st : CDCLState} {v : String}
    (h : isVariableAtCurrentLevel st v = true) :
    ∃ n, st.implicationGraph v = some n ∧
      n.decisionLevel = st.decisionLevel := by
  cases hg : st.implicationGraph v with
  | none =>
    simp only [isVariableAtCurrentLevel, hg] at h
    exact absurd h (by simp)
  | some n =>
    simp only [isVariableAtCurrentLevel, hg] at h
    exact ⟨n, rfl, of_decide_eq_true h⟩

/-- `_find_most_recent_current_level_variable` returns a current-level
variable whose assignment index dominates every current-level variable
of the clause. -/
theorem findMostRecent_spec {st : CDCLState} {c : Clause} {v : String}
    (h : findMostRecentCurrentLevelVariable st c = some v) :
    isVariableAtCurrentLevel st v = true ∧
      ∀ u, u ∈ c.literals.map Literal.var →
        isVariableAtCurrentLevel st u = true →
        findVariableAssignmentIndex st u ≤ findVariableAssignmentIndex st v := by
  cases hc : (c.literals.filter
      (fun l => isVariableAtCurrentLevel st l.var)).map Literal.var with
  | nil =>
    simp only [findMostRecentCurrentLevelVariable, hc] at h
    exact absurd h (by simp)
  | cons x xs =>
    simp only [findMostRecentCurrentLevelVariable, hc] at h
    injection h with hv
    subst hv
    constructor
    · have hmem := maxByKey_mem (findVariableAssignmentIndex st) xs x
      rw [← hc] at hmem
      rcases List.mem_map.mp hmem with ⟨l, hl, hlv⟩
      have hpl := (List.mem_filter.mp hl).2
      rw [← hlv]
      exact hpl
    · intro u hu hiu
      rcases List.mem_map.mp hu with ⟨l, hl, hlv⟩
      have hl2 : l ∈ c.literals.filter
          (fun l => isVariableAtCurrentLevel st l.var) :=
        List.mem_filter.mpr ⟨hl, by rw [hlv]; exact hiu⟩
      have hu2 : u ∈ x :: xs := by
        rw [← hc]
        exact List.mem_map.mpr ⟨l, hl2, hlv⟩
      exact maxByKey_ge (findVariableAssignmentIndex st) xs x u hu2

/-- Distinct current-level variables are at most the current-level
literal occurrences. -/
theorem currentLevelVars_le_count {st : CDCLState} {c : Clause} :
    (currentLevelVars st c).length ≤ countCurrentLevelVariables st c := by
  rw [currentLevelVars, countCurrentLevelVariables,
    ← List.countP_eq_length_filter]
  have h1 : List.countP (fun v => isVariableAtCurrentLevel st v)
        (c.literals.map Literal.var).dedup ≤
      List.countP (fun v => isVariableAtCurrentLevel st v)
        (c.literals.map Literal.var) :=
    (List.dedup_sublist _).countP_le _
  have h2 : List.countP (fun v => isVariableAtCurrentLevel st v)
        (c.literals.map Literal.var) =
      List.countP (fun l => isVariableAtCurrentLevel st l.var) c.literals := by
    rw [List.countP_map]
    rfl
  omega

/-- A duplicate-free list whose members all equal one value has at most
one element. -/
theorem nodup_all_eq_length_le {α : Type} {l : List α} {v : α}
    (hnd : l.Nodup) (h : ∀ x ∈ l, x = v) : l.length ≤ 1 := by
  cases l with
  | nil => simp
  | cons x xs =>
    cases xs with
    | nil => simp
    | cons y ys =>
      exfalso
      have hx := h x (by simp)
      have hy := h y (by simp)
      have hxy : x = y := by rw [hx, hy]
      have hnc := List.nodup_cons.mp hnd
      exact hnc.1 (by rw [hxy]; exact List.mem_cons_self _ _)

/-- Whenever the conflict-analysis loop returns (and decisions were
assigned before the propagations of their level), at most one distinct
variable of the returned clause sits at the current decision level. -/
theorem analyzeLoop_uip {st : CDCLState}
    (hidx : ∀ v, isVariableAtCurrentLevel st v = true →
       0 ≤ findVariableAssignmentIndex st v)
    (hdec : ∀ v n, st.implicationGraph v = some n →
       n.decisionLevel = st.decisionLevel → n.reason = none →
       ∀ w, isVariableAtCurrentLevel st w = true →
         findVariableAssignmentIndex st v ≤ findVariableAssignmentIndex st w) :
    ∀ (fuel : Nat) (c c2 : Clause),
      analyzeConflictLoop fuel st c = some c2 →
      (currentLevelVars st c2).length ≤ 1 := by
  intro fuel
  induction fuel with
  | zero =>
    intro c c2 h
    exact absurd h (by simp [analyzeConflictLoop])
  | succ fuel ih =>
    intro c c2 h
    simp only [analyzeConflictLoop] at h
    by_cases huip : isFirstUIP st c = true
    · rw [if_pos huip] at h
      injection h with he
      subst he
      have h1 : countCurrentLevelVariables st c ≤ 1 := by
        simpa [isFirstUIP, decide_eq_true_eq] using huip
      exact le_trans currentLevelVars_le_count h1
    · rw [if_neg huip] at h
      have hcount : 2 ≤ countCurrentLevelVariables st c := by
        by_contra hc
        exact huip (by simp only [isFirstUIP, decide_eq_true_eq]; omega)
      cases hfv : findMostRecentCurrentLevelVariable st c with
      | none =>
        exfalso
        cases hcand : (c.literals.filter
            (fun l => isVariableAtCurrentLevel st l.var)).map Literal.var with
        | cons x xs =>
          simp only [findMostRecentCurrentLevelVariable, hcand] at hfv
          exact absurd hfv (by simp)
        | nil =>
          have hfe : c.literals.filter
              (fun l => isVariableAtCurrentLevel st l.var) = [] :=
            List.map_eq_nil.mp hcand
          have hc0 : countCurrentLevelVariables st c = 0 := by
            rw [countCurrentLevelVariables, List.countP_eq_length_filter, hfe]
            rfl
          omega
      | some v =>
        simp only [hfv] at h
        rcases findMostRecent_spec hfv with ⟨hvcl, hvmax⟩
        rcases isVarCL_node hvcl with ⟨n, hgn, hnl⟩
        simp only [hgn] at h
        cases hnr : n.reason with
        | none =>
          simp only [hnr] at h
          injection h with he
          subst he
          have hallv : ∀ u ∈ currentLevelVars st c, u = v := by
            intro u hu
            rcases List.mem_filter.mp hu with ⟨hud, hucl⟩
            have hum : u ∈ c.literals.map Literal.var := List.mem_dedup.mp hud
            have h1 := hvmax u hum hucl
            have h2 := hdec v n hgn hnl hnr u hucl
            exact fvai_inj (hidx u hucl) (hidx v hvcl) (le_antisymm h1 h2)
          have hnd : (currentLevelVars st c).Nodup :=
            (List.nodup_dedup _).filter _
          exact nodup_all_eq_length_le hnd hallv
        | some r =>
          simp only [hnr] at h
          exact ih _ c2 h

/-- C6 (amended): whenever `_analyze_conflict` returns at decision level
above zero, and every current-level variable is on the decision stack
with the level decision assigned first, the returned clause mentions at
most one distinct variable assigned at the current level (literal
OCCURRENCES can repeat, see the counterexample). -/
theorem C6_analyze_uip_distinct (st : CDCLState) (fuel : Nat) (c c2 : Clause)
    (hdl : 0 < st.decisionLevel)
    (hidx : ∀ v, isVariableAtCurrentLevel st v = true →
       0 ≤ findVariableAssignmentIndex st v)
    (hdec : ∀ v n, st.implicationGraph v = some n →
       n.decisionLevel = st.decisionLevel → n.reason = none →
       ∀ w, isVariableAtCurrentLevel st w = true →
         findVariableAssignmentIndex st v ≤ findVariableAssignmentIndex st w)
    (h : analyzeConflictF fuel st c = some c2) :
    (currentLevelVars st c2).length ≤ 1 := by
  rw [analyzeConflictF] at h
  rw [if_neg (by omega : ¬ st.decisionLevel = 0)] at h
  exact analyzeLoop_uip hidx hdec fuel c c2 h

/-- C6 counterexample: on the conflict `(¬p ∨ ¬p)` with the single
decision `p ↦ true`, `_analyze_conflict` returns a clause in which TWO
literals have their variable assigned at the current decision level, so
the claim as stated (about literals) fails. -/
theorem C6_uip_occurrence_cex :
    analyzeConflictF 5 stC6 clauseNPNP = some clauseNPNP ∧
    0 < stC6.decisionLevel ∧
    countCurrentLevelVariables stC6 clauseNPNP = 2 := by
  refine ⟨by decide, by decide, by decide⟩

/-- Witness for `C6_analyze_uip_distinct` at the concrete state
`stC6` and conflict `(¬p ∨ ¬p)`. -/
theorem C6_analyze_uip_distinct_witness :
    (currentLevelVars stC6 clauseNPNP).length ≤ 1 :=
  C6_analyze_uip_distinct stC6 5 clauseNPNP clauseNPNP (by decide)
    (by
      intro v hv
      by_cases hp : v = "p"
      · subst hp
        decide
      · exfalso
        have hg : stC6.implicationGraph v = none := if_neg hp
        simp only [isVariableAtCurrentLevel, hg] at hv
        exact absurd hv (by simp))
    (by
      intro v n hg hnl hnr w hw
      by_cases hp : v = "p"
      · subst hp
        by_cases hq : w = "p"
        · subst hq
          exact le_refl _
        · exfalso
          have hg2 : stC6.implicationGraph w = none := if_neg hq
          simp only [isVariableAtCurrentLevel, hg2] at hw
          exact absurd hw (by simp)
      · exfalso
        have hg2 : stC6.implicationGraph v = none := if_neg hp
        rw [hg2] at hg
        exact absurd hg (by simp))
    (by decide)

/-- When the branching order covers every variable of the clauses,
`_dpll` never raises (`ERR` is unreachable). -/
theorem dpllF_no_err :
    ∀ (fuel : Nat) (cls : List Clause) (order : List String) (field a fld : PAssign),
      (∀ v ∈ varsOfClauses cls, v ∈ order) →
      dpllF fuel cls order field a = some (DpllRes.ERR, fld) → False := by
  intro fuel
  induction fuel with
  | zero =>
    intro cls order field a fld _ h
    exact absurd h (by simp [dpllF])
  | succ fuel ih =>
    intro cls order field a fld horder h
    simp only [dpllF] at h
    cases hup : unitPropagationF (numUnassigned cls a + 1) cls a with
    | none =>
      simp only [hup] at h
      exact absurd h (by simp)
    | some o =>
      cases o with
      | none =>
        simp only [hup, Option.some.injEq, Prod.mk.injEq] at h
        exact absurd h.1 (by simp)
      | some a1 =>
        simp only [hup] at h
        have hnf1 := unitPropagationF_noconflict _ cls a a1 hup
        by_cases hall :
            allClausesSatisfied (pureLiteralElimination a1 cls) cls = true
        · rw [if_pos hall] at h
          simp only [Option.some.injEq, Prod.mk.injEq] at h
          exact absurd h.1 (by simp)
        · rw [if_neg hall] at h
          cases hch : chooseVariable order (pureLiteralElimination a1 cls) with
          | none =>
            have hall2 : ¬ ∀ c ∈ cls,
                evaluateClause (pureLiteralElimination a1 cls) c = some true := by
              intro hcontra
              refine hall ?_
              simp only [allClausesSatisfied, List.all_eq_true, decide_eq_true_eq]
              exact hcontra
            push_neg at hall2
            rcases hall2 with ⟨c, hc, hcnot⟩
            have hnof : evaluateClause (pureLiteralElimination a1 cls) c ≠
                some false :=
              pureLiteralElimination_no_false hc (hnf1 c hc)
            have hcnone : evaluateClause (pureLiteralElimination a1 cls) c =
                none := by
              cases hval : evaluateClause (pureLiteralElimination a1 cls) c with
              | none => rfl
              | some b =>
                cases b with
                | true => exact absurd hval hcnot
                | false => exact absurd hval hnof
            rcases evaluateClause_none_unassigned _ c hcnone with ⟨l, hl, hlnone⟩
            have hlv : l.var ∈ varsOfClauses cls :=
              mem_varsOfClauses.mpr ⟨c, hc, l, hl, rfl⟩
            have hnone := List.find?_eq_none.mp hch l.var (horder l.var hlv)
            rw [hlnone] at hnone
            exact hnone rfl
          | some v =>
            cases hpos : dpllF fuel cls order field
                (updateA (pureLiteralElimination a1 cls) v true) with
            | none => simp [hch, hpos] at h
            | some p =>
              obtain ⟨r1, field1⟩ := p
              cases r1 with
              | SAT =>
                simp only [hch, hpos, Option.some.injEq, Prod.mk.injEq] at h
                exact absurd h.1 (by simp)
              | ERR =>
                exact ih cls order field _ field1 horder hpos
              | UNSAT =>
                simp only [hch, hpos] at h
                exact ih cls order field1 _ fld horder h

/-- A SAT return of `_dpll` exhibits a total model. -/
theorem dpll_decision_sat {fuel : Nat} {cls : List Clause}
    {order : List String} {field a fld : PAssign}
    (h : dpllF fuel cls order field a = some (DpllRes.SAT, fld)) :
    ∃ σ : String → Bool, CNFSat σ cls :=
  ⟨_, CNFSatP_lift (dpllF_sat_satisfies fuel cls order field a fld h)⟩

/-- C7 (amended): DPLL branching follows whatever enumeration order the
Python set iteration yields (it is NOT a stable order, see the
counterexample), but the SAT/UNSAT decision is independent of that
order whenever the order covers the clause variables. -/
theorem C7_decision_order_independent (cls : List Clause)
    (o1 o2 : List String) (fuel1 fuel2 : Nat) (r1 r2 : DpllRes)
    (hc1 : ∀ v ∈ varsOfClauses cls, v ∈ o1)
    (hc2 : ∀ v ∈ varsOfClauses cls, v ∈ o2)
    (h1 : (dpllF fuel1 cls o1 emptyAssign emptyAssign).map Prod.fst = some r1)
    (h2 : (dpllF fuel2 cls o2 emptyAssign emptyAssign).map Prod.fst = some r2) :
    r1 = r2 := by
  rcases Option.map_eq_some'.mp h1 with ⟨p1, hp1, hf1⟩
  rcases Option.map_eq_some'.mp h2 with ⟨p2, hp2, hf2⟩
  obtain ⟨r1b, a1⟩ := p1
  obtain ⟨r2b, a2⟩ := p2
  rw [← hf1, ← hf2]
  show r1b = r2b
  cases r1b with
  | ERR =>
    exact (dpllF_no_err fuel1 cls o1 emptyAssign emptyAssign a1 hc1 hp1).elim
  | SAT =>
    cases r2b with
    | SAT => rfl
    | ERR =>
      exact (dpllF_no_err fuel2 cls o2 emptyAssign emptyAssign a2 hc2 hp2).elim
    | UNSAT =>
      exfalso
      rcases dpll_decision_sat hp1 with ⟨σ, hσ⟩
      exact dpllF_unsat_sound fuel2 cls o2 emptyAssign emptyAssign a2 hp2 σ
        (fun v b hb => absurd hb (by simp [emptyAssign])) hσ
  | UNSAT =>
    cases r2b with
    | UNSAT => rfl
    | ERR =>
      exact (dpllF_no_err fuel2 cls o2 emptyAssign emptyAssign a2 hc2 hp2).elim
    | SAT =>
      exfalso
      rcases dpll_decision_sat hp2 with ⟨σ, hσ⟩
      exact dpllF_unsat_sound fuel1 cls o1 emptyAssign emptyAssign a1 hp1 σ
        (fun v b hb => absurd hb (by simp [emptyAssign])) hσ

/-- C7 counterexample: two enumerations of the same variable set make
`solve` expose different assignments on the same input, so runs are
only as reproducible as the set-iteration order (which Python string
hashing randomizes across processes). -/
theorem C7_order_dependence_cex :
    (dpllSolveF cnfPQ ["p", "q"] 3).map (fun r => r.2 "p") =
      some (some true) ∧
    (dpllSolveF cnfPQ ["q", "p"] 3).map (fun r => r.2 "p") =
      some (some false) :=
  ⟨rfl, rfl⟩

/-- Witness for `C7_decision_order_independent` on `cnfPQ` with the two
opposite enumeration orders. -/
theorem C7_decision_order_independent_witness :
    (dpllF 3 cnfPQ.clauses ["p", "q"] emptyAssign emptyAssign).map Prod.fst =
      some DpllRes.SAT ∧ DpllRes.SAT = DpllRes.SAT :=
  ⟨rfl, C7_decision_order_independent cnfPQ.clauses ["p", "q"] ["q", "p"] 3 3
    DpllRes.SAT DpllRes.SAT (by decide) (by decide) rfl rfl⟩

end PySat
